import Mathlib

/-!
Octopus: fixed-ploidy genotype likelihood model and assembler candidate generator

A shallow embedding of
* `src/fixed_ploidy_genotype_likelihood_model.cpp` (namespace `octopus.model`), with
  `double` read as a real number, and
* `src/assembler_candidate_variant_generator.cpp` and `src/variant.h` (namespace `Octopus`).

A value of type `Option` is `none` where the C++ code has no defined result: a read outside a
vector or an array, `front()` of an empty container, or a value that is no real number.
-/

namespace octopus
namespace model

/-! ## Collaborators of the likelihood model -/

/-- Sample names, as in `SampleName`. -/
abbrev SampleName := String

/-- Haplotypes are used by the model only through their identity; a number stands for one. -/
abbrev Haplotype := Nat

/-- Modelled from the spec: the class `Genotype<Haplotype>` is not among the sources. The data
model calls it an ordered (but semantically unordered) multiset of haplotypes; `genotype[i]` is
the element stored at position `i`. -/
abbrev Genotype := List Haplotype

/-- One cached vector: the entry at `r` is `ln P(read r | haplotype)`. -/
abbrev LikelihoodVector := List ℝ

/-- The cache `HaplotypeLikelihoodCache`, called as `cache(sample, haplotype)`. -/
abbrev HaplotypeLikelihoodCache := SampleName → Haplotype → LikelihoodVector

/-- Modelled from the spec: `Genotype::copy_unique_ref` (class not among the sources) gives the
distinct haplotypes of the genotype, here in the order of their first occurrence, so that
`front()` of it is the haplotype `genotype[0]`, which `log_likelihood_polyploid` pairs it with. -/
def copy_unique_ref : Genotype → List Haplotype
  | [] => []
  | h :: t => h :: (copy_unique_ref t).filter (fun x => decide (x ≠ h))

/-- Modelled from the spec: `zygosity()` is the number of distinct haplotypes. -/
def zygosity (genotype : Genotype) : Nat := (copy_unique_ref genotype).length

/-- Modelled from the spec: `is_homozygous()` is `zygosity == 1`. -/
def is_homozygous (genotype : Genotype) : Bool := zygosity genotype == 1

/-- Modelled from the spec: `count(h)` is the number of elements equal to `h`. -/
def count (genotype : Genotype) (h : Haplotype) : Nat := List.count h genotype

/-! ## `maths.hpp` (not among the sources) -/

namespace Maths

/-- Modelled from the spec: `Maths::log_sum_exp(a, b)` of `maths.hpp`, which is not among the
sources, in the max-shift form `m + ln(exp(a - m) + exp(b - m))` with `m = max(a, b)`. -/
noncomputable def log_sum_exp2 (a b : ℝ) : ℝ :=
  let m := max a b
  m + Real.log (Real.exp (a - m) + Real.exp (b - m))

/-- Modelled from the spec: `Maths::log_sum_exp(a, b, c)` in the max-shift form. -/
noncomputable def log_sum_exp3 (a b c : ℝ) : ℝ :=
  let m := max a (max b c)
  m + Real.log (Real.exp (a - m) + Real.exp (b - m) + Real.exp (c - m))

/-- Modelled from the spec: `Maths::log_sum_exp(container)` in the max-shift form
`m + ln(Σ exp(xᵢ - m))` with `m = max(xᵢ)`. -/
noncomputable def log_sum_exp (xs : List ℝ) : ℝ :=
  let m := xs.foldl max (xs.headD 0)
  m + Real.log ((xs.map fun x => Real.exp (x - m)).sum)

/-- The three-range `Maths::inner_product(first1, last1, first2, first3, init, plus, f)`: it walks
the first range and reads the other two at the same index; a missing entry there is a read past
the end. -/
def inner_product3 (xs ys zs : List ℝ) (init : ℝ) (f : ℝ → ℝ → ℝ → Option ℝ) :
    Option ℝ :=
  match xs, ys, zs with
  | [], _, _ => some init
  | x :: xs, y :: ys, z :: zs =>
    match f x y z with
    | some t => inner_product3 xs ys zs (init + t) f
    | none => none
  | _ :: _, _, _ => none

end Maths

/-! ## The standard library calls -/

/-- The call `std::accumulate(first, last, 0.0)`. -/
def accumulate (xs : List ℝ) (init : ℝ) : ℝ := xs.foldl (fun acc x => acc + x) init

/-- The call `std::inner_product(first1, last1, first2, init, std::plus, f)`: it walks the first
range and reads the second at the same index; a missing entry there is a read past the end. -/
def inner_product (xs ys : List ℝ) (init : ℝ) (f : ℝ → ℝ → Option ℝ) : Option ℝ :=
  match xs, ys with
  | [], _ => some init
  | x :: xs, y :: ys =>
    match f x y with
    | some t => inner_product xs ys (init + t) f
    | none => none
  | _ :: _, [] => none

/-- The call `std::log` of an unsigned value, read over the reals; `std::log(0)` is minus
infinity, which is no real number. -/
noncomputable def std_log (n : Nat) : Option ℝ :=
  if n = 0 then none else some (Real.log (n : ℝ))

/-! ## `fixed_ploidy_genotype_likelihood_model.cpp` -/

/-- The lookup `ln(n)` in the table `Ln` of 11 entries. Entry 0 is `+infinity`, which is no real
number; entries 1 to 10 are the decimal expansions of the natural logarithms of 1 to 10 and are
read as those logarithms; an index above 10 is outside the array. -/
noncomputable def ln (n : Nat) : Option ℝ :=
  if n = 0 then none else if n ≤ 10 then some (Real.log (n : ℝ)) else none

/-- The function-local `static const double lnpm1` of `log_likelihood_polyploid`: `none` until
its declaration has been executed once in the process, its value afterwards. -/
abbrev Static := Option ℝ

/-- The value of `ploidy_ - 1` in `unsigned` arithmetic. -/
def ploidy_minus_one (ploidy : Nat) : Nat := (ploidy + 2 ^ 32 - 1) % 2 ^ 32

/-- The method `FixedPloidyGenotypeLikelihoodModel::log_likelihood_haploid`. -/
def log_likelihood_haploid (cache : HaplotypeLikelihoodCache) (sample : SampleName)
    (genotype : Genotype) : Option ℝ := do
  let g0 ← genotype[0]?
  let log_likelihoods := cache sample g0
  pure (accumulate log_likelihoods 0)

/-- The method `FixedPloidyGenotypeLikelihoodModel::log_likelihood_diploid`. -/
noncomputable def log_likelihood_diploid (cache : HaplotypeLikelihoodCache) (sample : SampleName)
    (genotype : Genotype) : Option ℝ := do
  let g0 ← genotype[0]?
  let log_likelihoods1 := cache sample g0
  if is_homozygous genotype then
    pure (accumulate log_likelihoods1 0)
  else
    let g1 ← genotype[1]?
    let log_likelihoods2 := cache sample g1
    inner_product log_likelihoods1 log_likelihoods2 0
      (fun a b => do pure (Maths.log_sum_exp2 a b - (← ln 2)))

/-- The method `FixedPloidyGenotypeLikelihoodModel::log_likelihood_triploid`. -/
noncomputable def log_likelihood_triploid (cache : HaplotypeLikelihoodCache) (sample : SampleName)
    (genotype : Genotype) : Option ℝ := do
  let g0 ← genotype[0]?
  let log_likelihoods1 := cache sample g0
  if is_homozygous genotype then
    pure (accumulate log_likelihoods1 0)
  else if zygosity genotype == 3 then
    let g1 ← genotype[1]?
    let g2 ← genotype[2]?
    let log_likelihoods2 := cache sample g1
    let log_likelihoods3 := cache sample g2
    Maths.inner_product3 log_likelihoods1 log_likelihoods2 log_likelihoods3 0
      (fun a b c => do pure (Maths.log_sum_exp3 a b c - (← ln 3)))
  else
    let ln2 := Real.log 2
    let g1 ← genotype[1]?
    if g0 ≠ g1 then
      let log_likelihoods2 := cache sample g1
      inner_product log_likelihoods1 log_likelihoods2 0
        (fun a b => do pure (Maths.log_sum_exp2 a (ln2 + b) - (← ln 3)))
    else
      let g2 ← genotype[2]?
      let log_likelihoods3 := cache sample g2
      inner_product log_likelihoods1 log_likelihoods3 0
        (fun a b => do pure (Maths.log_sum_exp2 (ln2 + a) b - (← ln 3)))

/-- The body of the `for` loop of `log_likelihood_polyploid` fills `tmp`, a vector of `ploidy_`
zeros, from its begin with entry `i` of each vector of `log_likelihoods`: more vectors than
`ploidy_` write past the end of `tmp`, an entry `i` that a vector lacks is a read past its end,
and with fewer vectors than `ploidy_` the rest of `tmp` stays zero. -/
def fill_tmp (ploidy : Nat) (log_likelihoods : List LikelihoodVector) (i : Nat) :
    Option (List ℝ) :=
  if ploidy < log_likelihoods.length then none
  else if log_likelihoods.all (fun v => decide (i < v.length)) then
    some (log_likelihoods.map (fun v => v.getD i 0)
      ++ List.replicate (ploidy - log_likelihoods.length) 0)
  else none

/-- The `for` loop of `log_likelihood_polyploid` over `i < num_likelihoods`. -/
noncomputable def polyploid_loop (ploidy : Nat) (log_likelihoods : List LikelihoodVector)
    (num_likelihoods : Nat) : Option ℝ :=
  (List.range num_likelihoods).foldlM
    (fun result i => do
      let tmp ← fill_tmp ploidy log_likelihoods i
      pure (result + (Maths.log_sum_exp tmp - (← ln ploidy))))
    (0 : ℝ)

/-- The static `lnpm1` once its declaration `static const double lnpm1 {std::log(ploidy_ - 1)}`
has been reached: the value it already has, or, on the first time, `std::log(ploidy_ - 1)` of the
model that reaches it. -/
noncomputable def lnpm1_after_declaration (ploidy : Nat) (static_lnpm1 : Static) : Static :=
  match static_lnpm1 with
  | some v => some v
  | none => std_log (ploidy_minus_one ploidy)

/-- The method `FixedPloidyGenotypeLikelihoodModel::log_likelihood_polyploid`, with the
function-local static `lnpm1` passed in and out. The static is set to `std::log(ploidy_ - 1)` by
the first call that reaches its declaration and keeps that value in later calls. -/
noncomputable def log_likelihood_polyploid (ploidy : Nat) (cache : HaplotypeLikelihoodCache)
    (sample : SampleName) (genotype : Genotype) (static_lnpm1 : Static) : Option ℝ × Static :=
  let z := zygosity genotype
  match genotype[0]? with
  | none => (none, static_lnpm1)
  | some g0 =>
    let log_likelihoods1 := cache sample g0
    if z == 1 then
      (some (accumulate log_likelihoods1 0), static_lnpm1)
    else if z == 2 then
      let static_lnpm1 := lnpm1_after_declaration ploidy static_lnpm1
      match static_lnpm1 with
      | none => (none, static_lnpm1)
      | some lnpm1 =>
        let unique_haplotypes := copy_unique_ref genotype
        match unique_haplotypes.getLast?, unique_haplotypes.head? with
        | some back, some front =>
          let log_likelihoods2 := cache sample back
          if count genotype front == 1 then
            (inner_product log_likelihoods1 log_likelihoods2 0
              (fun a b => do pure (Maths.log_sum_exp2 a (lnpm1 + b) - (← ln ploidy))),
             static_lnpm1)
          else
            (inner_product log_likelihoods1 log_likelihoods2 0
              (fun a b => do pure (Maths.log_sum_exp2 (lnpm1 + a) b - (← ln ploidy))),
             static_lnpm1)
        | _, _ => (none, static_lnpm1)
    else
      let log_likelihoods := genotype.map (fun haplotype => cache sample haplotype)
      match log_likelihoods.head? with
      | none => (none, static_lnpm1)
      | some front => (polyploid_loop ploidy log_likelihoods front.length, static_lnpm1)

/-- The method `FixedPloidyGenotypeLikelihoodModel::log_likelihood`: the `switch` on `ploidy_`. -/
noncomputable def log_likelihood (ploidy : Nat) (cache : HaplotypeLikelihoodCache)
    (sample : SampleName) (genotype : Genotype) (static_lnpm1 : Static) : Option ℝ × Static :=
  match ploidy with
  | 1 => (log_likelihood_haploid cache sample genotype, static_lnpm1)
  | 2 => (log_likelihood_diploid cache sample genotype, static_lnpm1)
  | 3 => (log_likelihood_triploid cache sample genotype, static_lnpm1)
  | 4 => log_likelihood_polyploid ploidy cache sample genotype static_lnpm1
  | _ => log_likelihood_polyploid ploidy cache sample genotype static_lnpm1

/-- The general form as the spec words it: the sum over the reads `r < R` of
`ln(Σ over the genotype elements h, with multiplicity, of exp L[h][r]) - ln p`. -/
noncomputable def general_form (p : Nat) (cache : HaplotypeLikelihoodCache) (sample : SampleName)
    (genotype : Genotype) (R : Nat) : ℝ :=
  ∑ r in Finset.range R,
    (Real.log ((genotype.map fun h => Real.exp ((cache sample h).getD r 0)).sum)
      - Real.log (p : ℝ))

/-- The cache of scenario E6: haplotype 1 has `[-1, -2, -3]`, every other one `[-2, -1, -4]`. -/
def cacheE6 : HaplotypeLikelihoodCache :=
  fun _ h => if h = 1 then [-1, -2, -3] else [-2, -1, -4]

/-- A cache with one read: haplotype 0 has `[0]`, every other one `[1]`. -/
def cacheAB : HaplotypeLikelihoodCache :=
  fun _ h => if h = 0 then [0] else [1]

/-- The fast path for ploidy 3 and zygosity 2 as the spec words it: the sum over the reads
`r < R` of `logsumexp(a_r, ln 2 + b_r)`, minus `R ln 3`, where `a` is the vector of the
duplicated haplotype and `b` the vector of the singleton. -/
noncomputable def triploid_duplicate_form (cache : HaplotypeLikelihoodCache) (sample : SampleName)
    (duplicated singleton : Haplotype) (R : Nat) : ℝ :=
  (∑ r in Finset.range R,
      Maths.log_sum_exp2 ((cache sample duplicated).getD r 0)
        (Real.log 2 + (cache sample singleton).getD r 0))
    - R * Real.log 3

/-- A cache whose vectors differ in length: haplotype 0 has `[0]`, every other one `[1, 1]`. -/
def cacheUneven : HaplotypeLikelihoodCache :=
  fun _ h => if h = 0 then [0] else [1, 1]

end model

namespace CallFiltering

/-! ## `variant_call_filter.cpp` -/

/-- The enumeration `Classification::Category` is not among the sources; `filter` names its value
`Filtered` only, and `Unfiltered` stands for every other value. -/
inductive Category where
  | Filtered
  | Unfiltered
deriving DecidableEq

/-- The result of `classify`, read through its member `category`. -/
structure Classification where
  category : Category

/-- What `filter` uses and the sources do not hold: the header annotation, `is_supervised`,
`train` and `classify` of the filter (of state `F`), the value-initialised `MeasureVector` and the
operations of `VcfRecord::Builder`. Each takes the object and gives the object after the call. -/
structure Collaborators (F Header VcfRecord Builder MeasureVector : Type) where
  annotate_header : F → Header → Header
  is_supervised : F → Bool
  train : F → F
  classify : F → MeasureVector → Classification
  /-- The value of `MeasureVector {}`. -/
  empty_measures : MeasureVector
  /-- The constructor `VcfRecord::Builder {call}`. -/
  make_builder : VcfRecord → Builder
  set_filter : Builder → List String → Builder
  set_passed : Builder → Builder
  build_once : Builder → VcfRecord

/-- A `VcfReader`, through `fetch_header()` and the records that `iterate()` walks. -/
structure VcfReader (Header VcfRecord : Type) where
  header : Header
  records : List VcfRecord

/-- A `VcfWriter`, through the header written to it, if any, and the records written to it. -/
structure VcfWriter (Header VcfRecord : Type) where
  header : Option Header
  records : List VcfRecord

/-- The method `VcfWriter::is_header_written`. -/
def VcfWriter.is_header_written {Header VcfRecord : Type} (dest : VcfWriter Header VcfRecord) :
    Bool := dest.header.isSome

/-- The method `VariantCallFilter::measure`. -/
def measure {F Header VcfRecord Builder MeasureVector : Type}
    (ops : Collaborators F Header VcfRecord Builder MeasureVector) (_call : VcfRecord) :
    MeasureVector := ops.empty_measures

/-- The method `VariantCallFilter::pass`. -/
def pass {F Header VcfRecord Builder MeasureVector : Type}
    (ops : Collaborators F Header VcfRecord Builder MeasureVector) (call : Builder) : Builder :=
  ops.set_filter call ["FAIL"]

/-- The method `VariantCallFilter::fail`. -/
def fail {F Header VcfRecord Builder MeasureVector : Type}
    (ops : Collaborators F Header VcfRecord Builder MeasureVector) (call : Builder) : Builder :=
  ops.set_passed call

/-- The body of the lambda of `filter`: the record written for `call`. -/
def filter_call {F Header VcfRecord Builder MeasureVector : Type}
    (ops : Collaborators F Header VcfRecord Builder MeasureVector) (self : F)
    (call : VcfRecord) : VcfRecord :=
  let classification := ops.classify self (measure ops call)
  let filtered_call := ops.make_builder call
  let filtered_call :=
    if classification.category ≠ Category.Filtered then pass ops filtered_call
    else fail ops filtered_call
  ops.build_once filtered_call

/-- The method `VariantCallFilter::filter`: it gives the filter and the destination after the
call. -/
def filter {F Header VcfRecord Builder MeasureVector : Type}
    (ops : Collaborators F Header VcfRecord Builder MeasureVector) (self : F)
    (source : VcfReader Header VcfRecord) (dest : VcfWriter Header VcfRecord) :
    F × VcfWriter Header VcfRecord :=
  let dest :=
    if !dest.is_header_written then
      { dest with header := some (ops.annotate_header self source.header) }
    else dest
  let self := if ops.is_supervised self then ops.train self else self
  (self, { dest with records := dest.records ++ source.records.map (filter_call ops self) })

/-- A record for the examples: an identifier and the content of the FILTER column. -/
structure ExampleRecord where
  id : Nat
  filter : List String
deriving DecidableEq

/-- Collaborators for the examples: the builder is the record under construction,
`set_filter` writes the FILTER column, `set_passed` writes `PASS` there, the filter is
unsupervised and classifies every call as `category`. -/
def exampleCollaborators (category : Category) :
    Collaborators Unit Unit ExampleRecord ExampleRecord (List Nat) :=
  { annotate_header := fun _ header => header,
    is_supervised := fun _ => false,
    train := fun self => self,
    classify := fun _ _ => { category := category },
    empty_measures := [],
    make_builder := fun call => call,
    set_filter := fun call filters => { call with filter := filters },
    set_passed := fun call => { call with filter := ["PASS"] },
    build_once := fun call => call }

end CallFiltering
end octopus

namespace Octopus

/-! ## Collaborators of the candidate generator -/

/-- Base sequences (`std::string`). -/
abbrev SequenceType := List Char

/-- Modelled from the spec: `GenomicRegion` (`genomic_region.h` is not among the sources) is a
contig name and a half-open interval `[begin, end)` in 0-based reference coordinates. -/
structure GenomicRegion where
  contig_name : String
  begin_ : Nat
  end_ : Nat
deriving DecidableEq

/-- Modelled from the spec: the order of `GenomicRegion` (not among the sources), by contig, then
begin, then end. -/
def GenomicRegion.lt (lhs rhs : GenomicRegion) : Bool :=
  if lhs.contig_name = rhs.contig_name then
    decide (lhs.begin_ < rhs.begin_) ||
      (decide (lhs.begin_ = rhs.begin_) && decide (lhs.end_ < rhs.end_))
  else decide (lhs.contig_name < rhs.contig_name)

/-- Modelled from the spec: `expand(r, n)` (not among the sources) extends both ends by `n`
bases; the begin is clamped at the contig's begin, and the contig's length, which a region does
not carry, is not known here. -/
def expand (region : GenomicRegion) (n : Nat) : GenomicRegion :=
  { contig_name := region.contig_name, begin_ := region.begin_ - n, end_ := region.end_ + n }

/-- Modelled from the spec: `encompassing_region(a, b)` (not among the sources) is the smallest
region containing both. -/
def encompassing_region (lhs rhs : GenomicRegion) : GenomicRegion :=
  { contig_name := lhs.contig_name, begin_ := min lhs.begin_ rhs.begin_,
    end_ := max lhs.end_ rhs.end_ }

/-- Modelled from the spec: `overlaps(a, b)` on regions (not among the sources) is the usual
overlap of two half-open intervals of one contig. -/
def GenomicRegion.overlaps (lhs rhs : GenomicRegion) : Bool :=
  decide (lhs.contig_name = rhs.contig_name) && decide (lhs.begin_ < rhs.end_)
    && decide (rhs.begin_ < lhs.end_)

/-- Modelled from the spec: `has_ns` of `sequence_utils.hpp` (not among the sources) tells
whether the sequence contains the base `N`. -/
def has_ns (sequence : SequenceType) : Bool := sequence.contains 'N'

/-- Modelled from the spec: `AlignedRead` (not among the sources) has a sequence, one quality per
base and the region it is mapped to. -/
structure AlignedRead where
  sequence : SequenceType
  qualities : List Nat
  region : GenomicRegion
deriving DecidableEq

namespace Assembler

/-- Modelled from the spec: `Assembler::Variant` (not among the sources) is an offset into the
reference sequence given to the assembler, with the ref and the alt bases. -/
structure Variant where
  begin_pos : Nat
  ref : SequenceType
  alt : SequenceType
deriving DecidableEq

end Assembler

/-- The operations of the class `Assembler`, which is not among the sources: the generator is
defined for any implementation of them. Each takes the assembler and gives the assembler after
the call, with the value the call returns. -/
structure AssemblerOps (A : Type) where
  /-- The constructor `Assembler {k}`. -/
  make : Nat → A
  /-- The constructor `Assembler {k, reference_sequence}`. -/
  make_with_reference : Nat → SequenceType → A
  kmer_size : A → Nat
  insert_reference : A → SequenceType → A
  insert_read : A → SequenceType → A
  remove_trivial_nonreference_cycles : A → A
  prune : A → Nat → A × Bool
  extract_variants : A → A × List Assembler.Variant
  clear : A → A

/-! ## The standard library calls -/

/-- The loop of `std::unique`: `last` is the element kept last. -/
def unique_from {α : Type} (eq : α → α → Bool) (last : α) : List α → List α
  | [] => []
  | b :: l => if eq last b then unique_from eq last l else b :: unique_from eq b l

/-- The call `std::unique` followed by `erase` of the tail: of every run of consecutive equal
elements the first is kept. -/
def std_unique {α : Type} (eq : α → α → Bool) : List α → List α
  | [] => []
  | a :: l => a :: unique_from eq a l

/-- Insertion of `x` into a sorted list, before the first element that `x` is less than. -/
def sorted_insert {α : Type} (comp : α → α → Bool) (x : α) : List α → List α
  | [] => [x]
  | y :: ys => if comp x y then x :: y :: ys else y :: sorted_insert comp x ys

/-- The call `std::sort(first, last, comp)`, as an insertion sort. For a `comp` that is a strict
weak ordering the result is sorted by it; for a `comp` that is none, as `variant_less` and, on
variants of one region with different ref sequences, `operator<` of `Variant`, `std::sort` leaves
the elements in an order that is not defined, and of the result here only the members are those
of the program. -/
def std_sort {α : Type} (comp : α → α → Bool) : List α → List α
  | [] => []
  | x :: xs => sorted_insert comp x (std_sort comp xs)

/-- The inner loop of `std::inplace_merge` while `x` is the next element of the first range:
elements of the second range that are less than `x` are taken, then `x` is, and `merge_rest`
merges what follows `x` in the first range with what is left of the second. -/
def merge_next {α : Type} (comp : α → α → Bool) (x : α) (merge_rest : List α → List α) :
    List α → List α
  | [] => x :: merge_rest []
  | y :: ys => if comp y x then y :: merge_next comp x merge_rest ys else x :: merge_rest (y :: ys)

/-- The call `std::inplace_merge(first, middle, last, comp)` on the two ranges `[first, middle)`
and `[middle, last)`: the next element is taken from the second range when it is less than the
next of the first range, and from the first range otherwise. -/
def std_inplace_merge {α : Type} (comp : α → α → Bool) : List α → List α → List α
  | [] => fun ys => ys
  | x :: xs => merge_next comp x (std_inplace_merge comp xs)

/-- The call `std::mismatch(first1, last1, first2, last2)`: the number of leading positions at
which the two ranges hold equal elements. -/
def mismatch : SequenceType → SequenceType → Nat
  | a :: as, b :: bs => if a = b then mismatch as bs + 1 else 0
  | _, _ => 0

/-! ## `variant.h` -/

/-- The class `Variant`, with its members in the order of their declaration. -/
structure Variant where
  reference_allele_sequence_ : SequenceType
  reference_allele_region_ : GenomicRegion
  alternative_allele_sequence_ : SequenceType
deriving DecidableEq

/-- The second constructor of `Variant`: the region begins at `reference_begin` and has the size
of the reference allele. -/
def Variant.make (reference_contig_name : String) (reference_begin : Nat)
    (reference_allele alternative_allele : SequenceType) : Variant :=
  { reference_allele_sequence_ := reference_allele,
    reference_allele_region_ :=
      { contig_name := reference_contig_name, begin_ := reference_begin,
        end_ := reference_begin + reference_allele.length },
    alternative_allele_sequence_ := alternative_allele }

/-- The method `Variant::get_region`. -/
def Variant.get_region (v : Variant) : GenomicRegion := v.reference_allele_region_

/-- The operator `operator==(const Variant&, const Variant&)`. -/
def Variant.eq (lhs rhs : Variant) : Bool :=
  decide (lhs.get_region = rhs.get_region) &&
    decide (lhs.reference_allele_sequence_ = rhs.reference_allele_sequence_) &&
    decide (lhs.alternative_allele_sequence_ = rhs.alternative_allele_sequence_)

/-- The operator `operator<(const Variant&, const Variant&)`. -/
def Variant.lt (lhs rhs : Variant) : Bool :=
  if lhs.get_region = rhs.get_region then
    if decide (lhs.reference_allele_sequence_ < rhs.reference_allele_sequence_) then true
    else decide (lhs.alternative_allele_sequence_ < rhs.alternative_allele_sequence_)
  else lhs.get_region.lt rhs.get_region

/-- Modelled from the spec: `overlaps(candidate, region)` for a `Variant` (`mappable.h` is not
among the sources) is the overlap of the variant's region with `region`. -/
def overlaps (candidate : Variant) (region : GenomicRegion) : Bool :=
  candidate.get_region.overlaps region

/-! ## `assembler_candidate_variant_generator.cpp` -/

/-- The data members of `AssemblerCandidateVariantGenerator`; `reference_` is the reference
genome, used through `get_sequence(region)` only. -/
structure AssemblerCandidateVariantGenerator (A : Type) where
  reference_ : GenomicRegion → SequenceType
  default_kmer_sizes_ : List Nat
  fallback_kmer_sizes_ : List Nat
  assemblers_ : List A
  region_assembled_ : Option GenomicRegion
  sequence_buffer_ : List SequenceType
  min_base_quality_ : Nat
  min_supporting_reads_ : Nat
  max_variant_size_ : Nat

/-- The generator `std::generate_n` of the constructor: each call adds
`fallback_interval_size` to the `unsigned` `k` and gives the new `k`. -/
def generate_fallback_kmer_sizes : Nat → Nat → List Nat
  | 0, _ => []
  | n + 1, k => ((k + 10) % 2 ^ 32) :: generate_fallback_kmer_sizes n ((k + 10) % 2 ^ 32)

/-- The constructor `AssemblerCandidateVariantGenerator::AssemblerCandidateVariantGenerator`. -/
def AssemblerCandidateVariantGenerator.make {A : Type} (ops : AssemblerOps A)
    (reference : GenomicRegion → SequenceType) (kmer_sizes : List Nat)
    (min_base_quality min_supporting_reads max_variant_size : Nat) :
    AssemblerCandidateVariantGenerator A :=
  if kmer_sizes.isEmpty then
    { reference_ := reference, default_kmer_sizes_ := kmer_sizes, fallback_kmer_sizes_ := [],
      assemblers_ := [], region_assembled_ := none, sequence_buffer_ := [],
      min_base_quality_ := min_base_quality, min_supporting_reads_ := min_supporting_reads,
      max_variant_size_ := max_variant_size }
  else
    let default_kmer_sizes :=
      std_unique (fun a b => a == b) (std_sort (fun a b => decide (a < b)) kmer_sizes)
    let assemblers := default_kmer_sizes.map ops.make
    let k := default_kmer_sizes.getLastD 0
    { reference_ := reference, default_kmer_sizes_ := default_kmer_sizes,
      fallback_kmer_sizes_ := generate_fallback_kmer_sizes 6 k,
      assemblers_ := assemblers, region_assembled_ := none, sequence_buffer_ := [],
      min_base_quality_ := min_base_quality, min_supporting_reads_ := min_supporting_reads,
      max_variant_size_ := max_variant_size }

/-- The conversion of a quality to `const char` in the lambda of `are_all_bases_good_quality`,
with `char` signed and 8 bits wide. -/
def to_char (quality : Nat) : Int :=
  if quality % 256 < 128 then (quality % 256 : Nat) else ((quality % 256 : Nat) : Int) - 256

/-- The function `are_all_bases_good_quality`. -/
def are_all_bases_good_quality (read : AlignedRead) (min_quality : Nat) : Bool :=
  read.qualities.all (fun quality => decide (to_char quality ≥ (min_quality : Int)))

/-- The two-range `std::transform` of `transform_low_base_qualities_to_n`: it walks the sequence
and reads the qualities at the same index; a missing quality is a read past the end. -/
def transform_bases (min_quality : Nat) : SequenceType → List Nat → Option SequenceType
  | [], _ => some []
  | _ :: _, [] => none
  | base :: bases, quality :: qualities =>
    (transform_bases min_quality bases qualities).map
      (fun rest => (if quality ≥ min_quality then base else 'N') :: rest)

/-- The function `transform_low_base_qualities_to_n`. -/
def transform_low_base_qualities_to_n (read : AlignedRead) (min_quality : Nat) :
    Option SequenceType :=
  transform_bases min_quality read.sequence read.qualities

/-- The method `AssemblerCandidateVariantGenerator::add_read`. -/
def AssemblerCandidateVariantGenerator.add_read {A : Type} (ops : AssemblerOps A)
    (self : AssemblerCandidateVariantGenerator A) (read : AlignedRead) :
    Option (AssemblerCandidateVariantGenerator A) := do
  let sequence ←
    if are_all_bases_good_quality read self.min_base_quality_ then some read.sequence
    else transform_low_base_qualities_to_n read self.min_base_quality_
  let assemblers := self.assemblers_.map (fun assembler => ops.insert_read assembler sequence)
  let region_assembled :=
    match self.region_assembled_ with
    | some region => encompassing_region read.region region
    | none => read.region
  pure { self with assemblers_ := assemblers,
                   sequence_buffer_ := self.sequence_buffer_ ++ [sequence],
                   region_assembled_ := some region_assembled }

/-- The function template `remove_nonoverlapping`. -/
def remove_nonoverlapping (candidates : List Variant) (region : GenomicRegion) : List Variant :=
  candidates.filter (fun candidate => !(!overlaps candidate region))

/-- The function `trim_reference(Assembler::Variant&)`. -/
def trim_reference (v : Assembler.Variant) : Assembler.Variant :=
  let p := mismatch v.ref v.alt
  let begin_pos := v.begin_pos + p
  let ref := v.ref.drop p
  let alt := v.alt.drop p
  let p2 := mismatch ref.reverse alt.reverse
  { begin_pos := begin_pos, ref := ref.take (ref.length - p2), alt := alt.take (alt.length - p2) }

/-- The function template `trim_reference(Container&)`. -/
def trim_reference_all (variants : List Assembler.Variant) : List Assembler.Variant :=
  variants.map trim_reference

/-- The function `is_mnv`. -/
def is_mnv (v : Assembler.Variant) : Bool :=
  decide (v.ref.length > 1) && decide (v.ref.length = v.alt.length)

/-- The `while` loop of `split_mnv` with its calls of the three-iterator `std::mismatch`: `i` is
the index in `v.ref` of the head of `ref`, which ends before the last base of `v.ref`. A position
where the bases differ is emitted with `distance(begin(v.ref) - 1, p.first)`, which is `i + 1`,
added to `begin_pos`; a base that `alt` lacks is a read past its end. -/
def split_mnv_loop (begin_pos : Nat) : Nat → SequenceType → SequenceType →
    Option (List Assembler.Variant)
  | _, [], _ => some []
  | _, _ :: _, [] => none
  | i, r :: ref, a :: alt =>
    (split_mnv_loop begin_pos (i + 1) ref alt).map
      (fun rest => if r = a then rest else ⟨begin_pos + (i + 1), [r], [a]⟩ :: rest)

/-- The function `split_mnv`. The call `front()` of an empty sequence has no defined result, and
with a `v.ref` of one base the range from `next(begin(v.ref))` to `prev(end(v.ref))` that
`std::mismatch` is given is not a range. -/
def split_mnv (v : Assembler.Variant) : Option (List Assembler.Variant) := do
  let ref_front ← v.ref.head?
  let alt_front ← v.alt.head?
  if v.ref.length < 2 then none
  let first : Assembler.Variant := ⟨v.begin_pos, [ref_front], [alt_front]⟩
  let middle ← split_mnv_loop v.begin_pos 1 ((v.ref.drop 1).take (v.ref.length - 2))
    (v.alt.drop 1)
  let pos := v.begin_pos + v.ref.length - 1
  let last : Assembler.Variant :=
    ⟨pos, v.ref.drop (v.ref.length - 1), v.alt.drop (v.alt.length - 1)⟩
  pure (first :: middle ++ [last])

/-- The comparison `variant_less` of `split_mnvs`. -/
def variant_less (lhs rhs : Assembler.Variant) : Bool :=
  decide (lhs.begin_pos < rhs.begin_pos) || decide (lhs.alt < rhs.alt)

/-- The `std::for_each` of `split_mnvs`: the single-base variants of every MNV, in order. -/
def split_all : List Assembler.Variant → Option (List Assembler.Variant)
  | [] => some []
  | mnp :: rest => do
    let mnv_snps ← split_mnv mnp
    let snps ← split_all rest
    pure (mnv_snps ++ snps)

/-- The function template `split_mnvs`. -/
def split_mnvs (candidates : List Assembler.Variant) : Option (List Assembler.Variant) := do
  let non_mnvs := candidates.filter (fun candidate => !is_mnv candidate)
  let mnvs := candidates.filter (fun candidate => !(!is_mnv candidate))
  let snps ← split_all mnvs
  let snps := std_sort variant_less snps
  let snps := std_unique (fun a b => decide (a = b)) snps
  let num_mnvs := mnvs.length
  if snps.length < num_mnvs then
    pure (std_inplace_merge variant_less non_mnvs snps)
  else
    pure (std_inplace_merge variant_less (non_mnvs ++ snps.take num_mnvs) (snps.drop num_mnvs))

/-- The function template `add_to_mapped_variants`: the new variants are appended, the appended
range is sorted, and `std::unique` runs over the whole of `result`. -/
def add_to_mapped_variants (result : List Variant) (variants : List Assembler.Variant)
    (region : GenomicRegion) : List Variant :=
  let appended := variants.map (fun variant =>
    Variant.make region.contig_name (region.begin_ + variant.begin_pos) variant.ref variant.alt)
  std_unique Variant.eq (result ++ std_sort Variant.lt appended)

/-- The method `AssemblerCandidateVariantGenerator::try_assemble_region`: it gives the assembler
after the call, the returned flag and `result` after the call. -/
def try_assemble_region {A : Type} (ops : AssemblerOps A) (min_supporting_reads : Nat)
    (assembler : A) (_reference_sequence : SequenceType) (reference_region : GenomicRegion)
    (result : List Variant) : Option (A × Bool × List Variant) :=
  let assembler := ops.remove_trivial_nonreference_cycles assembler
  let pruned := ops.prune assembler min_supporting_reads
  if !pruned.2 then
    some (pruned.1, false, result)
  else
    let extracted := ops.extract_variants pruned.1
    let assembler := ops.clear extracted.1
    let variants := trim_reference_all extracted.2
    (split_mnvs variants).map (fun variants =>
      (assembler, true, add_to_mapped_variants result variants reference_region))

/-- What a loop of `generate_candidates` leaves: the default assemblers it has walked, `result`,
`num_defaults_unsuccessful`, and whether it left through the `return` taken on a reference
sequence with an `N`. -/
structure LoopState (A : Type) where
  assemblers : List A
  result : List Variant
  num_defaults_unsuccessful : Nat
  returned : Bool

/-- The first `for` loop of `generate_candidates`, over the default assemblers. The counter
`num_defaults_unsuccessful` is incremented in the branch `else if (DEBUG_MODE)` only. -/
def default_loop {A : Type} (ops : AssemblerOps A) (DEBUG_MODE : Bool)
    (self : AssemblerCandidateVariantGenerator A) (region_assembled region : GenomicRegion) :
    List A → List Variant → Nat → Option (LoopState A)
  | [], result, num_defaults_unsuccessful =>
    some ⟨[], result, num_defaults_unsuccessful, false⟩
  | assembler :: rest, result, num_defaults_unsuccessful =>
    let reference_region := expand region_assembled (ops.kmer_size assembler)
    let reference_sequence := self.reference_ reference_region
    if has_ns reference_sequence then
      some ⟨assembler :: rest,
        if !result.isEmpty then remove_nonoverlapping result region else result,
        num_defaults_unsuccessful, true⟩
    else
      let assembler := ops.insert_reference assembler reference_sequence
      match try_assemble_region ops self.min_supporting_reads_ assembler reference_sequence
          reference_region result with
      | none => none
      | some (assembler, success, result) =>
        let num_defaults_unsuccessful :=
          if success then num_defaults_unsuccessful
          else if DEBUG_MODE then num_defaults_unsuccessful + 1
          else num_defaults_unsuccessful
        (default_loop ops DEBUG_MODE self region_assembled region rest result
            num_defaults_unsuccessful).map
          (fun s => { s with assemblers := assembler :: s.assemblers })

/-- The second `for` loop of `generate_candidates`, over the fallback k-mer sizes: it gives
`result` and whether it left through the `return` taken on a reference sequence with an `N`. -/
def fallback_loop {A : Type} (ops : AssemblerOps A)
    (self : AssemblerCandidateVariantGenerator A) (region_assembled region : GenomicRegion) :
    List Nat → List Variant → Option (List Variant × Bool)
  | [], result => some (result, false)
  | k :: rest, result =>
    let reference_region := expand region_assembled k
    let reference_sequence := self.reference_ reference_region
    if has_ns reference_sequence then
      some (if !result.isEmpty then remove_nonoverlapping result region else result, true)
    else
      let assembler := self.sequence_buffer_.foldl
        (fun assembler read_sequence => ops.insert_read assembler read_sequence)
        (ops.make_with_reference k reference_sequence)
      match try_assemble_region ops self.min_supporting_reads_ assembler reference_sequence
          reference_region result with
      | none => none
      | some (_, success, result) =>
        if success then some (result, false)
        else fallback_loop ops self region_assembled region rest result

/-- The method `AssemblerCandidateVariantGenerator::generate_candidates`: it gives the generator
after the call and the returned vector. `DEBUG_MODE` is a constant of `common.hpp`, which is not
among the sources. -/
def AssemblerCandidateVariantGenerator.generate_candidates {A : Type} (ops : AssemblerOps A)
    (DEBUG_MODE : Bool) (self : AssemblerCandidateVariantGenerator A) (region : GenomicRegion) :
    Option (AssemblerCandidateVariantGenerator A × List Variant) :=
  match self.region_assembled_ with
  | none => some (self, [])
  | some region_assembled =>
    match default_loop ops DEBUG_MODE self region_assembled region self.assemblers_ [] 0 with
    | none => none
    | some s =>
      let after : AssemblerCandidateVariantGenerator A := { self with assemblers_ := s.assemblers }
      if s.returned then some (after, s.result)
      else if s.num_defaults_unsuccessful == after.assemblers_.length then
        match fallback_loop ops self region_assembled region self.fallback_kmer_sizes_
            s.result with
        | none => none
        | some (result, returned) =>
          if returned then some (after, result)
          else some (after, remove_nonoverlapping result region)
      else some (after, remove_nonoverlapping s.result region)

/-- The method `AssemblerCandidateVariantGenerator::clear`. -/
def AssemblerCandidateVariantGenerator.clear {A : Type} (ops : AssemblerOps A)
    (self : AssemblerCandidateVariantGenerator A) : AssemblerCandidateVariantGenerator A :=
  { self with assemblers_ := self.assemblers_.map ops.clear,
              region_assembled_ := none,
              sequence_buffer_ := [] }

/-! ## Inputs of the examples -/

/-- An assembler for the examples: its state is its k-mer size, every call leaves the state as
it is, `prune` succeeds, and `extract_variants` reports the variants `reported k`, whose
offsets are relative to the reference sequence of the region expanded by `k`. -/
def exampleOps (reported : Nat → List Assembler.Variant) : AssemblerOps Nat :=
  { make := fun k => k,
    make_with_reference := fun k _ => k,
    kmer_size := fun k => k,
    insert_reference := fun k _ => k,
    insert_read := fun k _ => k,
    remove_trivial_nonreference_cycles := fun k => k,
    prune := fun k _ => (k, true),
    extract_variants := fun k => (k, reported k),
    clear := fun k => k }

/-- A reference genome for the examples: the base at position `p` of every contig is the base
`p % 4` of `ACGT`, so that `1:100-110` reads `ACGTACGTAC`. -/
def exampleReference : GenomicRegion → SequenceType :=
  fun region => (List.range (region.end_ - region.begin_)).map
    (fun i => ['A', 'C', 'G', 'T'].getD ((region.begin_ + i) % 4) 'A')

/-- The read of the examples, mapped to `1:100-110`, with every base of quality 30: it differs
from the reference at `1:104` (`G` for `A`) and at `1:107` (`C` for `T`). -/
def exampleRead : AlignedRead :=
  { sequence := ['A', 'C', 'G', 'T', 'G', 'C', 'G', 'C', 'A', 'C'],
    qualities := List.replicate 10 30,
    region := { contig_name := "1", begin_ := 100, end_ := 110 } }

/-- The region asked for in the examples, `1:100-110`. -/
def exampleRegion : GenomicRegion := { contig_name := "1", begin_ := 100, end_ := 110 }

/-- Two single-base variants, at the offsets 4 and 7 of the region that was expanded by `k`. -/
def twoSnvs (k : Nat) : List Assembler.Variant :=
  [⟨k + 4, ['A'], ['G']⟩, ⟨k + 7, ['T'], ['C']⟩]

/-- An insertion of two bases at the offset 4 of the region that was expanded by `k`. -/
def oneInsertion (k : Nat) : List Assembler.Variant :=
  [⟨k + 4, [], ['A', 'A']⟩]

/-- The vector that `generate_candidates(exampleRegion)` returns from a generator constructed
with the given k-mer sizes and `max_variant_size`, `min_base_quality` 20 and
`min_supporting_reads` 3, after `add_read(exampleRead)`. -/
def exampleCandidates (reported : Nat → List Assembler.Variant) (DEBUG_MODE : Bool)
    (kmer_sizes : List Nat) (max_variant_size : Nat) : Option (List Variant) :=
  ((AssemblerCandidateVariantGenerator.make (exampleOps reported) exampleReference kmer_sizes
      20 3 max_variant_size).add_read (exampleOps reported) exampleRead).bind
    (fun generator =>
      (generator.generate_candidates (exampleOps reported) DEBUG_MODE exampleRegion).map
        (fun returned => returned.2))

/-- The order that the spec words: lexicographic by region, then ref sequence, then alt
sequence. -/
def Variant.lex_lt (lhs rhs : Variant) : Bool :=
  lhs.get_region.lt rhs.get_region ||
    (decide (lhs.get_region = rhs.get_region) &&
      (decide (lhs.reference_allele_sequence_ < rhs.reference_allele_sequence_) ||
        (decide (lhs.reference_allele_sequence_ = rhs.reference_allele_sequence_) &&
          decide (lhs.alternative_allele_sequence_ < rhs.alternative_allele_sequence_))))

/-- The generator of the examples as `add_read(exampleRead)` leaves it, with the one default
k-mer size 4. -/
def exampleGenerator (max_variant_size : Nat) : AssemblerCandidateVariantGenerator Nat :=
  { reference_ := exampleReference,
    default_kmer_sizes_ := [4],
    fallback_kmer_sizes_ := [14, 24, 34, 44, 54, 64],
    assemblers_ := [4],
    region_assembled_ := some exampleRegion,
    sequence_buffer_ := [exampleRead.sequence],
    min_base_quality_ := 20,
    min_supporting_reads_ := 3,
    max_variant_size_ := max_variant_size }

/-! ## The calls of `generate_candidates`, recorded -/

/-- What `generate_candidates` does outside itself, in the order of the calls: a call of
`reference_.get().get_sequence(region)`, a call of `try_assemble_region` on the default assembler
of k-mer size `k` with the flag it returned, the construction `Assembler assembler {k, ...}` of a
fallback assembler, and a call of `try_assemble_region` on the fallback assembler of k-mer size
`k` with the flag it returned. -/
inductive Event where
  | get_sequence (region : GenomicRegion)
  | default_assembly (k : Nat) (success : Bool)
  | fallback_constructed (k : Nat)
  | fallback_assembly (k : Nat) (success : Bool)
deriving DecidableEq

/-- The first `for` loop of `generate_candidates` as in `default_loop`, with the record of its
calls. -/
def default_loop_traced {A : Type} (ops : AssemblerOps A) (DEBUG_MODE : Bool)
    (self : AssemblerCandidateVariantGenerator A) (region_assembled region : GenomicRegion) :
    List A → List Variant → Nat → Option (LoopState A × List Event)
  | [], result, num_defaults_unsuccessful =>
    some (⟨[], result, num_defaults_unsuccessful, false⟩, [])
  | assembler :: rest, result, num_defaults_unsuccessful =>
    let reference_region := expand region_assembled (ops.kmer_size assembler)
    let reference_sequence := self.reference_ reference_region
    if has_ns reference_sequence then
      some (⟨assembler :: rest,
        if !result.isEmpty then remove_nonoverlapping result region else result,
        num_defaults_unsuccessful, true⟩, [Event.get_sequence reference_region])
    else
      let k := ops.kmer_size assembler
      let assembler := ops.insert_reference assembler reference_sequence
      match try_assemble_region ops self.min_supporting_reads_ assembler reference_sequence
          reference_region result with
      | none => none
      | some (assembler, success, result) =>
        let num_defaults_unsuccessful :=
          if success then num_defaults_unsuccessful
          else if DEBUG_MODE then num_defaults_unsuccessful + 1
          else num_defaults_unsuccessful
        (default_loop_traced ops DEBUG_MODE self region_assembled region rest result
            num_defaults_unsuccessful).map
          (fun s => ({ s.1 with assemblers := assembler :: s.1.assemblers },
            Event.get_sequence reference_region :: Event.default_assembly k success :: s.2))

/-- The second `for` loop of `generate_candidates` as in `fallback_loop`, with the record of its
calls. -/
def fallback_loop_traced {A : Type} (ops : AssemblerOps A)
    (self : AssemblerCandidateVariantGenerator A) (region_assembled region : GenomicRegion) :
    List Nat → List Variant → Option ((List Variant × Bool) × List Event)
  | [], result => some ((result, false), [])
  | k :: rest, result =>
    let reference_region := expand region_assembled k
    let reference_sequence := self.reference_ reference_region
    if has_ns reference_sequence then
      some ((if !result.isEmpty then remove_nonoverlapping result region else result, true),
        [Event.get_sequence reference_region])
    else
      let assembler := self.sequence_buffer_.foldl
        (fun assembler read_sequence => ops.insert_read assembler read_sequence)
        (ops.make_with_reference k reference_sequence)
      match try_assemble_region ops self.min_supporting_reads_ assembler reference_sequence
          reference_region result with
      | none => none
      | some (_, success, result) =>
        if success then
          some ((result, false), [Event.get_sequence reference_region,
            Event.fallback_constructed k, Event.fallback_assembly k true])
        else
          (fallback_loop_traced ops self region_assembled region rest result).map
            (fun r => (r.1, Event.get_sequence reference_region :: Event.fallback_constructed k
              :: Event.fallback_assembly k false :: r.2))

/-- The method `generate_candidates` as in
`AssemblerCandidateVariantGenerator.generate_candidates`, with the record of its calls. -/
def AssemblerCandidateVariantGenerator.generate_candidates_traced {A : Type}
    (ops : AssemblerOps A) (DEBUG_MODE : Bool) (self : AssemblerCandidateVariantGenerator A)
    (region : GenomicRegion) :
    Option ((AssemblerCandidateVariantGenerator A × List Variant) × List Event) :=
  match self.region_assembled_ with
  | none => some ((self, []), [])
  | some region_assembled =>
    match default_loop_traced ops DEBUG_MODE self region_assembled region self.assemblers_ []
        0 with
    | none => none
    | some (s, events) =>
      let after : AssemblerCandidateVariantGenerator A := { self with assemblers_ := s.assemblers }
      if s.returned then some ((after, s.result), events)
      else if s.num_defaults_unsuccessful == after.assemblers_.length then
        match fallback_loop_traced ops self region_assembled region self.fallback_kmer_sizes_
            s.result with
        | none => none
        | some ((result, returned), fallback_events) =>
          if returned then some ((after, result), events ++ fallback_events)
          else some ((after, remove_nonoverlapping result region), events ++ fallback_events)
      else some ((after, remove_nonoverlapping s.result region), events)

/-- The method `AssemblerCandidateVariantGenerator::add_reads`: `std::for_each` with
`add_read`. -/
def AssemblerCandidateVariantGenerator.add_reads {A : Type} (ops : AssemblerOps A) :
    AssemblerCandidateVariantGenerator A → List AlignedRead →
      Option (AssemblerCandidateVariantGenerator A)
  | self, [] => some self
  | self, read :: rest =>
    match self.add_read ops read with
    | none => none
    | some after => AssemblerCandidateVariantGenerator.add_reads ops after rest

/-- The property of the spec's words for a trimmed variant: the ref is empty, or the alt is
empty, or the two differ in their first base and differ in their last base. -/
def trimmed (ref alt : SequenceType) : Prop :=
  ref = [] ∨ alt = [] ∨ (ref.head? ≠ alt.head? ∧ ref.getLast? ≠ alt.getLast?)

/-! ## More inputs of the examples -/

/-- An assembler for the examples as `exampleOps`, whose `prune` succeeds from the k-mer size
`min_k` on and fails below it. -/
def pruningOps (reported : Nat → List Assembler.Variant) (min_k : Nat) : AssemblerOps Nat :=
  { make := fun k => k,
    make_with_reference := fun k _ => k,
    kmer_size := fun k => k,
    insert_reference := fun k _ => k,
    insert_read := fun k _ => k,
    remove_trivial_nonreference_cycles := fun k => k,
    prune := fun k _ => (k, decide (min_k ≤ k)),
    extract_variants := fun k => (k, reported k),
    clear := fun k => k }

/-- An assembler for the examples that holds its k-mer size and the number of reads inserted
since it was made or cleared: `prune` succeeds, `extract_variants` reports `reported k` when
it holds a read and nothing when it holds none, and `clear` drops the reads. -/
def drainingOps (reported : Nat → List Assembler.Variant) : AssemblerOps (Nat × Nat) :=
  { make := fun k => (k, 0),
    make_with_reference := fun k _ => (k, 0),
    kmer_size := fun a => a.1,
    insert_reference := fun a _ => a,
    insert_read := fun a _ => (a.1, a.2 + 1),
    remove_trivial_nonreference_cycles := fun a => a,
    prune := fun a _ => (a, true),
    extract_variants := fun a => (a, if a.2 = 0 then [] else reported a.1),
    clear := fun a => (a.1, 0) }

/-- A reference genome for the examples as `exampleReference`, with the base `N` at position 95
of every contig. -/
def referenceWithN : GenomicRegion → SequenceType :=
  fun region => (List.range (region.end_ - region.begin_)).map
    (fun i => if region.begin_ + i = 95 then 'N'
      else ['A', 'C', 'G', 'T'].getD ((region.begin_ + i) % 4) 'A')

/-- A second read for the examples, mapped to `1:104-112`, with every base of quality 30. -/
def exampleRead2 : AlignedRead :=
  { sequence := ['G', 'C', 'G', 'C', 'A', 'C', 'G', 'T'],
    qualities := List.replicate 8 30,
    region := { contig_name := "1", begin_ := 104, end_ := 112 } }

/-- A read for the examples of the one base `N`, of quality 0, mapped to `1:100-101`. -/
def lowQualityN : AlignedRead :=
  { sequence := ['N'],
    qualities := [0],
    region := { contig_name := "1", begin_ := 100, end_ := 101 } }

/-- The vector returned and the calls recorded when `generate_candidates(exampleRegion)` is
called on a generator constructed with the given reference and k-mer sizes,
`min_base_quality` 20, `min_supporting_reads` 3 and `max_variant_size` 100, after
`add_read(exampleRead)`. -/
def exampleRun (ops : AssemblerOps Nat) (reference : GenomicRegion → SequenceType)
    (DEBUG_MODE : Bool) (kmer_sizes : List Nat) : Option (List Variant × List Event) :=
  ((AssemblerCandidateVariantGenerator.make ops reference kmer_sizes 20 3 100).add_read ops
      exampleRead).bind
    (fun generator =>
      (generator.generate_candidates_traced ops DEBUG_MODE exampleRegion).map
        (fun returned => (returned.1.2, returned.2)))

/-- The vectors returned by two calls of `generate_candidates(exampleRegion)` in a row, on a
generator constructed with the k-mer size 4 over `drainingOps twoSnvs`, after
`add_read(exampleRead)`. -/
def exampleTwoCalls (DEBUG_MODE : Bool) : Option (List Variant × List Variant) :=
  ((AssemblerCandidateVariantGenerator.make (drainingOps twoSnvs) exampleReference [4]
      20 3 100).add_read (drainingOps twoSnvs) exampleRead).bind
    (fun generator =>
      (generator.generate_candidates (drainingOps twoSnvs) DEBUG_MODE exampleRegion).bind
        (fun first =>
          (first.1.generate_candidates (drainingOps twoSnvs) DEBUG_MODE exampleRegion).map
            (fun second => (first.2, second.2))))

/-- The generator of the examples over `referenceWithN`, with the default k-mer sizes 4 and 5,
as `add_read(exampleRead)` leaves it. -/
def exampleGeneratorWithN : AssemblerCandidateVariantGenerator Nat :=
  { reference_ := referenceWithN,
    default_kmer_sizes_ := [4, 5],
    fallback_kmer_sizes_ := [15, 25, 35, 45, 55, 65],
    assemblers_ := [4, 5],
    region_assembled_ := some exampleRegion,
    sequence_buffer_ := [exampleRead.sequence],
    min_base_quality_ := 20,
    min_supporting_reads_ := 3,
    max_variant_size_ := 100 }

/-- Two generators that differ at most in the order of the sequences in the buffer. -/
def same_but_buffer_order {A : Type} (lhs rhs : AssemblerCandidateVariantGenerator A) : Prop :=
  rhs = { lhs with sequence_buffer_ := rhs.sequence_buffer_ }
    ∧ rhs.sequence_buffer_.Perm lhs.sequence_buffer_

/-- Two results of `add_reads` that both are undefined, or both are generators that differ at
most in the order of the sequences in the buffer. -/
def same_outcome {A : Type} (lhs rhs : Option (AssemblerCandidateVariantGenerator A)) : Prop :=
  (lhs = none ∧ rhs = none)
    ∨ ∃ s t, lhs = some s ∧ rhs = some t ∧ same_but_buffer_order s t

/-! ## `reference_call.cpp` -/

/-- Modelled from the spec: `Allele` (`allele.h` is not among the sources) is a region and the
sequence of bases at it; the constructor `Allele {region, sequence}` stores the two. -/
structure Allele where
  region : GenomicRegion
  sequence : SequenceType
deriving DecidableEq

/-- The class `ReferenceCall`, through the member `reference_` that `replace_called_alleles`
reads and writes. -/
structure ReferenceCall where
  reference_ : Allele
deriving DecidableEq

/-- The call `std::find(first, last, value)`: the number of elements before the first one equal
to `value`, which is the length of the range when there is none. -/
def std_find (value : Char) : SequenceType → Nat
  | [] => 0
  | c :: cs => if c = value then 0 else std_find value cs + 1

/-- The call `std::replace_copy(first, last, out, old_value, new_value)`: the copy of the range
with `new_value` for each element equal to `old_value`. -/
def std_replace_copy (old_value new_value : Char) : SequenceType → SequenceType
  | [] => []
  | c :: cs => (if c = old_value then new_value else c) :: std_replace_copy old_value new_value cs

/-- The method `ReferenceCall::replace_called_alleles`. -/
def ReferenceCall.replace_called_alleles (self : ReferenceCall) (old_base replacement_base : Char) :
    ReferenceCall :=
  let ref_sequence := self.reference_.sequence
  let it := std_find old_base ref_sequence
  if it ≠ ref_sequence.length then
    let new_sequence := ref_sequence.take it
      ++ std_replace_copy old_base replacement_base (ref_sequence.drop it)
    { reference_ := { region := self.reference_.region, sequence := new_sequence } }
  else self

/-! ## Inputs of the examples for the order of `Variant` -/

/-- The MNV at offset 10 with ref `ACG` and alt `TTA`. -/
def exampleMnv : Assembler.Variant := ⟨10, ['A', 'C', 'G'], ['T', 'T', 'A']⟩

/-- The variant `1:112 C>T`. -/
def variantCT : Variant := Variant.make "1" 112 ['C'] ['T']

/-- The variant `1:112 G>A`. -/
def variantGA : Variant := Variant.make "1" 112 ['G'] ['A']

/-! ## Assemblers that behave after a call of `generate_candidates` as before it -/

/-- The spec's words for a second call in a row: implementations that drain internal state must
restore it. `E a b` reads: the assembler `a` behaves as the assembler `b`. Two such assemblers
have the same k-mer size and, once the same reference sequence is inserted, give the same flag
from `prune` and the same variants from `extract_variants`; and the assembler that
`try_assemble_region` leaves, after a `prune` that failed or after `clear()`, behaves as the
assembler it was given before the reference sequence was inserted. -/
structure Restoring {A : Type} (ops : AssemblerOps A) (E : A → A → Prop) : Prop where
  same : ∀ a, E a a
  kmer_size : ∀ a b, E a b → ops.kmer_size a = ops.kmer_size b
  prune : ∀ a b r n, E a b →
    (ops.prune (ops.remove_trivial_nonreference_cycles (ops.insert_reference a r)) n).2
      = (ops.prune (ops.remove_trivial_nonreference_cycles (ops.insert_reference b r)) n).2
  extract_variants : ∀ a b r n, E a b →
    (ops.extract_variants
        (ops.prune (ops.remove_trivial_nonreference_cycles (ops.insert_reference a r)) n).1).2
      = (ops.extract_variants
        (ops.prune (ops.remove_trivial_nonreference_cycles (ops.insert_reference b r)) n).1).2
  after_failure : ∀ a r n,
    E (ops.prune (ops.remove_trivial_nonreference_cycles (ops.insert_reference a r)) n).1 a
  after_clear : ∀ a r n,
    E (ops.clear (ops.extract_variants
      (ops.prune (ops.remove_trivial_nonreference_cycles (ops.insert_reference a r)) n).1).1) a

/-- An assembler for the examples that keeps its reads: it holds its k-mer size, the number of
reads inserted and the number of reference sequences inserted; `prune` succeeds when it holds
at least `min_support` reads, `extract_variants` reports `reported k` when it holds a read, and
`clear` leaves the reads where they are. -/
def restoringOps (reported : Nat → List Assembler.Variant) : AssemblerOps (Nat × Nat × Nat) :=
  { make := fun k => (k, 0, 0),
    make_with_reference := fun k _ => (k, 0, 1),
    kmer_size := fun a => a.1,
    insert_reference := fun a _ => (a.1, a.2.1, a.2.2 + 1),
    insert_read := fun a _ => (a.1, a.2.1 + 1, a.2.2),
    remove_trivial_nonreference_cycles := fun a => a,
    prune := fun a min_support => (a, decide (min_support ≤ a.2.1)),
    extract_variants := fun a => (a, if a.2.1 = 0 then [] else reported a.1),
    clear := fun a => a }

/-- The generator of the examples over `restoringOps`, with the one default k-mer size 4, as
three calls of `add_read(exampleRead)` leave it. -/
def restoringGenerator : AssemblerCandidateVariantGenerator (Nat × Nat × Nat) :=
  { reference_ := exampleReference,
    default_kmer_sizes_ := [4],
    fallback_kmer_sizes_ := [14, 24, 34, 44, 54, 64],
    assemblers_ := [(4, 3, 0)],
    region_assembled_ := some exampleRegion,
    sequence_buffer_ := [exampleRead.sequence, exampleRead.sequence, exampleRead.sequence],
    min_base_quality_ := 20,
    min_supporting_reads_ := 3,
    max_variant_size_ := 100 }

end Octopus

namespace octopus
namespace model

/-! ## Lemmas on the numeric helpers -/

theorem shifted_log_add (m a b : ℝ) :
    m + Real.log (Real.exp (a - m) + Real.exp (b - m)) = Real.log (Real.exp a + Real.exp b) := by
  have h : Real.exp (a - m) + Real.exp (b - m) = (Real.exp a + Real.exp b) * Real.exp (-m) := by
    rw [add_mul, ← Real.exp_add, ← Real.exp_add]; rfl
  have hpos : Real.exp a + Real.exp b ≠ 0 :=
    ne_of_gt (add_pos (Real.exp_pos a) (Real.exp_pos b))
  rw [h, Real.log_mul hpos (Real.exp_ne_zero _), Real.log_exp]
  ring

theorem log_sum_exp2_eq (a b : ℝ) :
    Maths.log_sum_exp2 a b = Real.log (Real.exp a + Real.exp b) := by
  unfold Maths.log_sum_exp2
  exact shifted_log_add _ a b

theorem log_sum_exp3_eq (a b c : ℝ) :
    Maths.log_sum_exp3 a b c = Real.log (Real.exp a + Real.exp b + Real.exp c) := by
  unfold Maths.log_sum_exp3
  simp only []
  generalize max a (max b c) = m
  have h : Real.exp (a - m) + Real.exp (b - m) + Real.exp (c - m)
      = (Real.exp a + Real.exp b + Real.exp c) * Real.exp (-m) := by
    rw [add_mul, add_mul, ← Real.exp_add, ← Real.exp_add, ← Real.exp_add]; rfl
  have hpos : Real.exp a + Real.exp b + Real.exp c ≠ 0 :=
    ne_of_gt (add_pos (add_pos (Real.exp_pos a) (Real.exp_pos b)) (Real.exp_pos c))
  rw [h, Real.log_mul hpos (Real.exp_ne_zero _), Real.log_exp]
  ring

theorem sum_map_exp_shift (m : ℝ) (xs : List ℝ) :
    (xs.map fun x => Real.exp (x - m)).sum = (xs.map Real.exp).sum * Real.exp (-m) := by
  induction xs with
  | nil => simp
  | cons x xs ih =>
    simp only [List.map_cons, List.sum_cons, ih, add_mul, ← Real.exp_add]
    rfl

theorem sum_map_exp_pos (xs : List ℝ) (h : xs ≠ []) : 0 < (xs.map Real.exp).sum := by
  induction xs with
  | nil => exact absurd rfl h
  | cons x xs ih =>
    simp only [List.map_cons, List.sum_cons]
    by_cases hx : xs = []
    · subst hx; simpa using Real.exp_pos x
    · exact add_pos (Real.exp_pos x) (ih hx)

theorem log_sum_exp_eq (xs : List ℝ) (h : xs ≠ []) :
    Maths.log_sum_exp xs = Real.log ((xs.map Real.exp).sum) := by
  unfold Maths.log_sum_exp
  simp only []
  generalize xs.foldl max (xs.headD 0) = m
  rw [sum_map_exp_shift, Real.log_mul (ne_of_gt (sum_map_exp_pos xs h)) (Real.exp_ne_zero _),
    Real.log_exp]
  ring

theorem accumulate_eq (xs : List ℝ) (init : ℝ) : accumulate xs init = init + xs.sum := by
  unfold accumulate
  induction xs generalizing init with
  | nil => simp
  | cons x xs ih => simp only [List.foldl_cons, ih, List.sum_cons]; ring

theorem inner_product_eq (g : ℝ → ℝ → ℝ) (xs ys : List ℝ) (init : ℝ)
    (hlen : xs.length ≤ ys.length) :
    inner_product xs ys init (fun a b => some (g a b))
      = some (init + ∑ r in Finset.range xs.length, g (xs.getD r 0) (ys.getD r 0)) := by
  induction xs generalizing ys init with
  | nil => simp [inner_product]
  | cons x xs ih =>
    cases ys with
    | nil => simp at hlen
    | cons y ys =>
      simp only [List.length_cons, Nat.add_le_add_iff_right] at hlen
      simp only [inner_product, ih ys _ hlen, List.length_cons, Finset.sum_range_succ',
        List.getD_cons_succ, List.getD_cons_zero]
      congr 1; ring

theorem inner_product3_eq (g : ℝ → ℝ → ℝ → ℝ) (xs ys zs : List ℝ) (init : ℝ)
    (hy : xs.length ≤ ys.length) (hz : xs.length ≤ zs.length) :
    Maths.inner_product3 xs ys zs init (fun a b c => some (g a b c))
      = some (init + ∑ r in Finset.range xs.length,
          g (xs.getD r 0) (ys.getD r 0) (zs.getD r 0)) := by
  induction xs generalizing ys zs init with
  | nil => simp [Maths.inner_product3]
  | cons x xs ih =>
    cases ys with
    | nil => simp at hy
    | cons y ys =>
      cases zs with
      | nil => simp at hz
      | cons z zs =>
        simp only [List.length_cons, Nat.add_le_add_iff_right] at hy hz
        simp only [Maths.inner_product3, ih ys zs _ hy hz, List.length_cons,
          Finset.sum_range_succ', List.getD_cons_succ, List.getD_cons_zero]
        congr 1; ring


theorem ln_of_table (n : Nat) (h1 : 1 ≤ n) (h10 : n ≤ 10) :
    ln n = some (Real.log (n : ℝ)) := by
  unfold ln
  rw [if_neg (by omega), if_pos h10]

theorem mem_copy_unique_ref (g : Genotype) (x : Haplotype) :
    x ∈ copy_unique_ref g ↔ x ∈ g := by
  induction g with
  | nil => simp [copy_unique_ref]
  | cons h t ih =>
    simp only [copy_unique_ref, List.mem_cons, List.mem_filter, ih, decide_eq_true_eq]
    by_cases hx : x = h
    · simp [hx]
    · simp [hx]

theorem nodup_copy_unique_ref (g : Genotype) : (copy_unique_ref g).Nodup := by
  induction g with
  | nil => simp [copy_unique_ref]
  | cons h t ih =>
    simp only [copy_unique_ref, List.nodup_cons, List.mem_filter, decide_eq_true_eq]
    exact ⟨fun hmem => hmem.2 rfl, ih.filter _⟩

theorem zygosity_eq_card (g : Genotype) : zygosity g = g.toFinset.card := by
  unfold zygosity
  rw [← List.toFinset_card_of_nodup (nodup_copy_unique_ref g)]
  congr 1
  ext x
  simp [mem_copy_unique_ref]

theorem copy_unique_ref_replicate (n : Nat) (h : Haplotype) :
    copy_unique_ref (List.replicate (n + 1) h) = [h] := by
  induction n with
  | zero => simp [copy_unique_ref]
  | succ n ih =>
    rw [List.replicate_succ, copy_unique_ref, ih]
    simp

theorem fill_tmp_eq (p : Nat) (lls : List LikelihoodVector) (i : Nat) (hp : lls.length = p)
    (hi : ∀ v ∈ lls, i < v.length) :
    fill_tmp p lls i = some (lls.map (fun v => v.getD i 0)) := by
  unfold fill_tmp
  rw [if_neg (by omega), if_pos (by simpa using hi)]
  simp [hp]

theorem polyploid_loop_eq (p : Nat) (lls : List LikelihoodVector) (num : Nat)
    (hp : lls.length = p) (h1 : 1 ≤ p) (h10 : p ≤ 10) (hlen : ∀ v ∈ lls, num ≤ v.length) :
    polyploid_loop p lls num
      = some (∑ i in Finset.range num,
          (Real.log ((lls.map fun v => Real.exp (v.getD i 0)).sum) - Real.log (p : ℝ))) := by
  unfold polyploid_loop
  induction num with
  | zero => simp
  | succ n ih =>
    have hne : lls.map (fun v => v.getD n 0) ≠ [] := by
      intro h
      have : lls.length = 0 := by simpa using congrArg List.length h
      omega
    rw [List.range_succ, List.foldlM_append, ih (fun v hv => by have := hlen v hv; omega)]
    simp only [List.foldlM_cons, List.foldlM_nil, Option.some_bind, Option.bind_eq_bind,
      fill_tmp_eq p lls n hp (fun v hv => by have := hlen v hv; omega), ln_of_table p h1 h10,
      log_sum_exp_eq _ hne, List.map_map, Finset.sum_range_succ, pure, Option.pure_def,
      bind_pure]
    rfl

/-! ## The likelihood model: claims -/

/-- C1: for ploidy 2 and a heterozygous genotype `{h0, h1}` whose cached vectors both have
length `R`, `log_likelihood` is the sum over `r < R` of `ln(exp L0[r] + exp L1[r]) - ln 2`. -/
theorem log_likelihood_diploid_heterozygous (cache : HaplotypeLikelihoodCache)
    (sample : SampleName) (h0 h1 : Haplotype) (st : Static) (R : Nat) (hne : h0 ≠ h1)
    (hL0 : (cache sample h0).length = R) (hL1 : (cache sample h1).length = R) :
    (log_likelihood 2 cache sample [h0, h1] st).1
      = some (∑ r in Finset.range R,
          (Real.log (Real.exp ((cache sample h0).getD r 0) + Real.exp ((cache sample h1).getD r 0))
            - Real.log 2)) := by
  have hne' : ¬ h1 = h0 := fun h => hne h.symm
  have hln : ln 2 = some (Real.log 2) := by
    have := ln_of_table 2 (by norm_num) (by norm_num)
    simpa using this
  have key := inner_product_eq (fun a b => Real.log (Real.exp a + Real.exp b) - Real.log 2)
    (cache sample h0) (cache sample h1) 0 (by omega)
  rw [hL0, zero_add] at key
  rw [← key]
  simp [log_likelihood, log_likelihood_diploid, is_homozygous, zygosity, copy_unique_ref, hne',
    hln, log_sum_exp2_eq]

/-- C1, at the input of scenario E6: `L[h1] = [-1, -2, -3]`, `L[h2] = [-2, -1, -4]` and the
genotype `{h1, h2}` give `logsumexp(-1,-2) + logsumexp(-2,-1) + logsumexp(-3,-4) - 3 ln 2`. -/
theorem log_likelihood_diploid_heterozygous_witness :
    (1 : Haplotype) ≠ 2 ∧ (cacheE6 "s" 1).length = 3 ∧ (cacheE6 "s" 2).length = 3 ∧
    (log_likelihood 2 cacheE6 "s" [1, 2] none).1
      = some (Real.log (Real.exp (-1) + Real.exp (-2)) + Real.log (Real.exp (-2) + Real.exp (-1))
          + Real.log (Real.exp (-3) + Real.exp (-4)) - 3 * Real.log 2) := by
  refine ⟨by decide, by simp [cacheE6], by simp [cacheE6], ?_⟩
  rw [log_likelihood_diploid_heterozygous cacheE6 "s" 1 2 none 3 (by decide) (by simp [cacheE6])
    (by simp [cacheE6])]
  simp [cacheE6, Finset.sum_range_succ]


/-- C6: for ploidy 1 and a genotype of the single haplotype `h`, `log_likelihood` is the sum of
the entries of the cached vector of `h` (0 when the vector is empty). -/
theorem log_likelihood_haploid_sum (cache : HaplotypeLikelihoodCache) (sample : SampleName)
    (h : Haplotype) (st : Static) :
    (log_likelihood 1 cache sample [h] st).1 = some ((cache sample h).sum)
      ∧ ((cache sample h = []) → (log_likelihood 1 cache sample [h] st).1 = some 0) := by
  have hmain : (log_likelihood 1 cache sample [h] st).1 = some ((cache sample h).sum) := by
    simp [log_likelihood, log_likelihood_haploid, accumulate_eq]
  refine ⟨hmain, fun hnil => ?_⟩
  rw [hmain, hnil]
  simp

/-- C5: for every ploidy `p ≥ 1` and every genotype of `p` haplotypes that are all equal to `h`,
`log_likelihood` is the plain sum of the cached vector of `h`, with no `ln p` term. -/
theorem log_likelihood_homozygous (p : Nat) (cache : HaplotypeLikelihoodCache)
    (sample : SampleName) (genotype : Genotype) (h : Haplotype) (st : Static) (hp : 1 ≤ p)
    (hlen : genotype.length = p) (hall : ∀ x ∈ genotype, x = h) :
    (log_likelihood p cache sample genotype st).1 = some ((cache sample h).sum) := by
  obtain ⟨n, rfl⟩ : ∃ n, p = n + 1 := ⟨p - 1, by omega⟩
  have hg : genotype = List.replicate (n + 1) h := List.eq_replicate_iff.mpr ⟨hlen, hall⟩
  subst hg
  have hz : zygosity (List.replicate (n + 1) h) = 1 := by
    simp [zygosity, copy_unique_ref_replicate]
  have h0 : (List.replicate (n + 1) h)[0]? = some h := by simp
  have hpoly : (log_likelihood_polyploid (n + 1) cache sample (List.replicate (n + 1) h) st).1
      = some ((cache sample h).sum) := by
    simp [log_likelihood_polyploid, hz, h0, accumulate_eq]
  unfold log_likelihood
  split
  · simp [log_likelihood_haploid, h0, accumulate_eq]
  · simp [log_likelihood_diploid, is_homozygous, hz, h0, accumulate_eq]
  · simp [log_likelihood_triploid, is_homozygous, hz, h0, accumulate_eq]
  · exact hpoly
  · exact hpoly

/-- C5, at ploidy 12 (above the table of `ln`) with haplotype 7 twelve times. -/
theorem log_likelihood_homozygous_witness :
    (log_likelihood 12 cacheE6 "s" (List.replicate 12 7) none).1
      = some ((cacheE6 "s" 7).sum) :=
  log_likelihood_homozygous 12 cacheE6 "s" (List.replicate 12 7) 7 none (by decide)
    (by simp) (fun x hx => (List.mem_replicate.mp hx).2)

/-- C4: for every ploidy `p` with `3 ≤ p ≤ 10` and every genotype of `p` haplotypes with at least
three distinct haplotypes, all of whose vectors have length `R`, `log_likelihood` is the general
form: the sum over `r < R` of `ln(Σ over the genotype elements of exp L[h][r]) - ln p`, with one
term for each read index. -/
theorem log_likelihood_general_form (p : Nat) (cache : HaplotypeLikelihoodCache)
    (sample : SampleName) (genotype : Genotype) (st : Static) (R : Nat)
    (h3 : 3 ≤ p) (h10 : p ≤ 10) (hlen : genotype.length = p)
    (hz : 3 ≤ genotype.toFinset.card) (hR : ∀ h ∈ genotype, (cache sample h).length = R) :
    (log_likelihood p cache sample genotype st).1
      = some (general_form p cache sample genotype R) := by
  have hzy : 3 ≤ zygosity genotype := by rw [zygosity_eq_card]; exact hz
  have hzle : zygosity genotype ≤ p := by
    rw [zygosity_eq_card, ← hlen]; exact List.toFinset_card_le genotype
  have hpoly : 4 ≤ p →
      (log_likelihood_polyploid p cache sample genotype st).1
        = some (general_form p cache sample genotype R) := by
    intro h4
    obtain ⟨g0, rest, rfl⟩ : ∃ g0 rest, genotype = g0 :: rest := by
      cases genotype with
      | nil => simp at hlen; omega
      | cons a t => exact ⟨a, t, rfl⟩
    have hz1 : (zygosity (g0 :: rest) == 1) = false := by
      simp only [beq_eq_false_iff_ne]; omega
    have hz2 : (zygosity (g0 :: rest) == 2) = false := by
      simp only [beq_eq_false_iff_ne]; omega
    have hloop := polyploid_loop_eq p ((g0 :: rest).map (fun h => cache sample h))
      (cache sample g0).length (by simpa using hlen) (by omega) h10
      (by
        intro v hv
        obtain ⟨h, hh, rfl⟩ := List.mem_map.mp hv
        rw [hR h hh, hR g0 (List.mem_cons_self _ _)])
    simp only [log_likelihood_polyploid, hz1, hz2, List.getElem?_cons_zero, List.map_cons,
      List.head?_cons, Bool.false_eq_true, if_false]
    simp only [List.map_cons] at hloop
    rw [hloop, hR g0 (List.mem_cons_self _ _)]
    simp [general_form, List.map_map, Function.comp_def]
  have h3case : p = 3 →
      log_likelihood_triploid cache sample genotype
        = some (general_form p cache sample genotype R) := by
    intro hp3
    subst hp3
    have hzeq : zygosity genotype = 3 := by omega
    match genotype, hlen with
    | [a, b, c], _ =>
      have hln : ln 3 = some (Real.log 3) := by
        have := ln_of_table 3 (by norm_num) (by norm_num)
        simpa using this
      have key := inner_product3_eq
        (fun x y z => Real.log (Real.exp x + Real.exp y + Real.exp z) - Real.log 3)
        (cache sample a) (cache sample b) (cache sample c) 0
        (by rw [hR a (by simp), hR b (by simp)]) (by rw [hR a (by simp), hR c (by simp)])
      rw [hR a (by simp), zero_add] at key
      have hgen : general_form 3 cache sample [a, b, c] R
          = ∑ r in Finset.range R,
              (Real.log (Real.exp ((cache sample a).getD r 0) + Real.exp ((cache sample b).getD r 0)
                + Real.exp ((cache sample c).getD r 0)) - Real.log 3) := by
        unfold general_form
        refine Finset.sum_congr rfl (fun r _ => ?_)
        simp [add_assoc]
      rw [hgen, ← key]
      simp [log_likelihood_triploid, is_homozygous, hzeq, hln, log_sum_exp3_eq]
  rcases Nat.lt_or_ge p 4 with hlt | hge
  · have hp3 : p = 3 := by omega
    have := h3case hp3
    subst hp3
    simpa [log_likelihood] using this
  · have := hpoly hge
    unfold log_likelihood
    split
    · omega
    · omega
    · omega
    · exact this
    · exact this

/-- C4, at ploidy 4 with the genotype `[1, 2, 3, 1]` and the vectors of scenario E6. -/
theorem log_likelihood_general_form_witness :
    (log_likelihood 4 cacheE6 "s" [1, 2, 3, 1] none).1
      = some (general_form 4 cacheE6 "s" [1, 2, 3, 1] 3) :=
  log_likelihood_general_form 4 cacheE6 "s" [1, 2, 3, 1] none 3 (by decide) (by decide)
    (by decide) (by decide) (by intro h _; simp only [cacheE6]; split <;> rfl)

theorem one_lt_exp_one : (1 : ℝ) < Real.exp 1 := Real.one_lt_exp_iff.mpr one_pos

/-- C2: at ploidy 4, with the genotype `[0, 0, 1, 1]` that holds each of its two haplotypes
twice, one read with `L[0] = [0]`, `L[1] = [1]` and the static `lnpm1` not yet initialised,
`log_likelihood` is `ln(3 + e) - ln 4`, the value of `logsumexp(ln 3 + a, b) - ln 4`, and the
general form is `ln(2 + 2e) - ln 4`, which is more. -/
theorem log_likelihood_tetraploid_two_two :
    (log_likelihood 4 cacheAB "s" [0, 0, 1, 1] none).1
        = some (Real.log (3 + Real.exp 1) - Real.log 4)
      ∧ general_form 4 cacheAB "s" [0, 0, 1, 1] 1 = Real.log (2 + 2 * Real.exp 1) - Real.log 4
      ∧ Real.log (3 + Real.exp 1) - Real.log 4 < general_form 4 cacheAB "s" [0, 0, 1, 1] 1 := by
  have hln : ln 4 = some (Real.log 4) := by
    have := ln_of_table 4 (by norm_num) (by norm_num)
    simpa using this
  have hlog : std_log (ploidy_minus_one 4) = some (Real.log 3) := by
    have h3 : ploidy_minus_one 4 = 3 := by decide
    rw [h3]
    simp [std_log]
  have hgen : general_form 4 cacheAB "s" [0, 0, 1, 1] 1
      = Real.log (2 + 2 * Real.exp 1) - Real.log 4 := by
    simp only [general_form, cacheAB, Finset.sum_range_one]
    norm_num
    congr 1
    ring
  refine ⟨?_, hgen, ?_⟩
  · simp [log_likelihood, log_likelihood_polyploid, lnpm1_after_declaration, zygosity,
      copy_unique_ref, count, hlog, cacheAB, inner_product, hln, log_sum_exp2_eq, Real.exp_add,
      Real.exp_log]
  · rw [hgen]
    have h := one_lt_exp_one
    have hlt : Real.log (3 + Real.exp 1) < Real.log (2 + 2 * Real.exp 1) :=
      Real.log_lt_log (by positivity) (by linarith)
    linarith

/-! ## The likelihood model: where the special cases agree with the general form -/

theorem sum_map_two (f : Haplotype → ℝ) (g : Genotype) (u0 u1 : Haplotype) (hne : u1 ≠ u0)
    (hall : ∀ x ∈ g, x = u0 ∨ x = u1) :
    (g.map f).sum = (List.count u0 g : ℝ) * f u0 + (List.count u1 g : ℝ) * f u1 := by
  induction g with
  | nil => simp
  | cons x xs ih =>
    have ih' := ih (fun y hy => hall y (List.mem_cons_of_mem _ hy))
    rcases hall x (List.mem_cons_self _ _) with rfl | rfl
    · simp only [List.map_cons, List.sum_cons, ih', List.count_cons, beq_self_eq_true, if_true,
        beq_iff_eq, hne, Ne.symm hne, if_false, Nat.cast_add, Nat.cast_one, add_zero]
      ring
    · simp only [List.map_cons, List.sum_cons, ih', List.count_cons, beq_self_eq_true, if_true,
        beq_iff_eq, hne, Ne.symm hne, if_false, Nat.cast_add, Nat.cast_one, add_zero]
      ring

theorem count_add_two (g : Genotype) (u0 u1 : Haplotype) (hne : u1 ≠ u0)
    (hall : ∀ x ∈ g, x = u0 ∨ x = u1) : List.count u0 g + List.count u1 g = g.length := by
  induction g with
  | nil => simp
  | cons x xs ih =>
    have ih' := ih (fun y hy => hall y (List.mem_cons_of_mem _ hy))
    rcases hall x (List.mem_cons_self _ _) with rfl | rfl
    · simp only [List.count_cons, beq_self_eq_true, if_true, beq_iff_eq, hne, Ne.symm hne,
        if_false, List.length_cons]
      omega
    · simp only [List.count_cons, beq_self_eq_true, if_true, beq_iff_eq, hne, Ne.symm hne,
        if_false, List.length_cons]
      omega

theorem copy_unique_ref_two (g0 u1 : Haplotype) (rest : Genotype) (hne : u1 ≠ g0)
    (hall : ∀ x ∈ rest, x = g0 ∨ x = u1) (hmem : u1 ∈ rest) :
    copy_unique_ref (g0 :: rest) = [g0, u1] := by
  have hnodup : ((copy_unique_ref rest).filter (fun x => decide (x ≠ g0))).Nodup :=
    (nodup_copy_unique_ref rest).filter _
  have hall' : ∀ x ∈ (copy_unique_ref rest).filter (fun x => decide (x ≠ g0)), x = u1 := by
    intro x hx
    have hx' := List.mem_filter.mp hx
    have hx0 : x ≠ g0 := by simpa using hx'.2
    rcases hall x ((mem_copy_unique_ref rest x).mp hx'.1) with h | h
    · exact absurd h hx0
    · exact h
  have hmem' : u1 ∈ (copy_unique_ref rest).filter (fun x => decide (x ≠ g0)) :=
    List.mem_filter.mpr ⟨(mem_copy_unique_ref rest u1).mpr hmem, by simpa using hne⟩
  have hrep := List.eq_replicate_iff.mpr ⟨rfl, hall'⟩
  have hle : ((copy_unique_ref rest).filter (fun x => decide (x ≠ g0))).length ≤ 1 := by
    rw [hrep] at hnodup
    exact List.nodup_replicate.mp hnodup
  have hpos := List.length_pos_of_mem hmem'
  have hone : ((copy_unique_ref rest).filter (fun x => decide (x ≠ g0))).length = 1 := by omega
  rw [hone] at hrep
  simp only [copy_unique_ref, hrep, List.replicate_one]

theorem ploidy_minus_one_eq (p : Nat) (h1 : 1 ≤ p) (h10 : p ≤ 10) : ploidy_minus_one p = p - 1 := by
  unfold ploidy_minus_one
  omega

theorem log_likelihood_polyploid_two_distinct (p : Nat) (cache : HaplotypeLikelihoodCache)
    (sample : SampleName) (g0 u1 : Haplotype) (rest : Genotype) (st : Static) (R : Nat)
    (h4 : 4 ≤ p) (h10 : p ≤ 10) (hlen : (g0 :: rest).length = p) (hne : u1 ≠ g0)
    (hall : ∀ x ∈ rest, x = g0 ∨ x = u1) (hmem : u1 ∈ rest)
    (hsplit : List.count g0 (g0 :: rest) = 1 ∨ List.count u1 (g0 :: rest) = 1)
    (hst : st = none ∨ st = some (Real.log ((p - 1 : Nat) : ℝ)))
    (hL0 : (cache sample g0).length = R) (hL1 : (cache sample u1).length = R) :
    (log_likelihood p cache sample (g0 :: rest) st).1
      = some (general_form p cache sample (g0 :: rest) R) := by
  have hallg : ∀ x ∈ g0 :: rest, x = g0 ∨ x = u1 := by
    intro x hx
    rcases List.mem_cons.mp hx with rfl | hx
    · exact Or.inl rfl
    · exact hall x hx
  have hcu := copy_unique_ref_two g0 u1 rest hne hall hmem
  have hcount := count_add_two (g0 :: rest) g0 u1 hne hallg
  rw [hlen] at hcount
  have hln : ln p = some (Real.log (p : ℝ)) := ln_of_table p (by omega) h10
  have hpm1 : (0 : ℝ) < ((p - 1 : Nat) : ℝ) := by
    have : 0 < p - 1 := by omega
    exact_mod_cast this
  have hinit : lnpm1_after_declaration p st = some (Real.log ((p - 1 : Nat) : ℝ)) := by
    rcases hst with rfl | rfl
    · simp only [lnpm1_after_declaration, ploidy_minus_one_eq p (by omega) h10, std_log]
      rw [if_neg (by omega)]
    · rfl
  have hgen : general_form p cache sample (g0 :: rest) R
      = ∑ r in Finset.range R,
          (Real.log ((List.count g0 (g0 :: rest) : ℝ) * Real.exp ((cache sample g0).getD r 0)
            + (List.count u1 (g0 :: rest) : ℝ) * Real.exp ((cache sample u1).getD r 0))
            - Real.log (p : ℝ)) := by
    unfold general_form
    refine Finset.sum_congr rfl (fun r _ => ?_)
    rw [sum_map_two (fun h => Real.exp ((cache sample h).getD r 0)) (g0 :: rest) g0 u1 hne hallg]
  have hpoly : (log_likelihood_polyploid p cache sample (g0 :: rest) st).1
      = some (general_form p cache sample (g0 :: rest) R) := by
    rw [hgen]
    by_cases hc : List.count g0 (g0 :: rest) = 1
    · have hc1 : List.count u1 (g0 :: rest) = p - 1 := by omega
      have key := inner_product_eq
        (fun x y => Real.log (Real.exp x + ((p - 1 : Nat) : ℝ) * Real.exp y) - Real.log (p : ℝ))
        (cache sample g0) (cache sample u1) 0 (by omega)
      rw [hL0, zero_add] at key
      simp only [hc, hc1, Nat.cast_one, one_mul]
      rw [← key]
      have hc' : List.count g0 rest = 0 := by simpa using hc
      simp only [log_likelihood_polyploid, zygosity, hcu, hinit, count, hc]
      simp [hln, log_sum_exp2_eq, Real.exp_add, Real.exp_log hpm1, hc']
    · have hc1 : List.count u1 (g0 :: rest) = 1 := by
        rcases hsplit with h | h
        · exact absurd h hc
        · exact h
      have hc0 : List.count g0 (g0 :: rest) = p - 1 := by omega
      have hbeq : (List.count g0 (g0 :: rest) == 1) = false := by
        simpa using hc
      have key := inner_product_eq
        (fun x y => Real.log (((p - 1 : Nat) : ℝ) * Real.exp x + Real.exp y) - Real.log (p : ℝ))
        (cache sample g0) (cache sample u1) 0 (by omega)
      rw [hL0, zero_add] at key
      simp only [hc0, hc1, Nat.cast_one, one_mul]
      rw [← key]
      have hc' : ¬ List.count g0 rest = 0 := by simpa using hc
      simp only [log_likelihood_polyploid, zygosity, hcu, hinit, count, hbeq]
      simp [hln, log_sum_exp2_eq, Real.exp_add, Real.exp_log hpm1, hc']
  unfold log_likelihood
  split
  · omega
  · omega
  · omega
  · exact hpoly
  · exact hpoly

/-! ## The likelihood model: ploidy 3 with one haplotype twice -/

/-- C25, as stated, fails: at ploidy 3, with the genotype `[0, 0, 1]` that holds haplotype 0 twice
and haplotype 1 once and one read with `L[0] = [0]`, `L[1] = [1]`, `log_likelihood` is
`ln(2 + e) - ln 3`, which doubles the duplicated haplotype, and the stated form
`logsumexp(a_r, ln 2 + b_r) - ln 3`, which doubles the singleton, is `ln(1 + 2e) - ln 3`. -/
theorem log_likelihood_triploid_duplicate_first :
    (log_likelihood 3 cacheAB "s" [0, 0, 1] none).1
        = some (Real.log (2 + Real.exp 1) - Real.log 3)
      ∧ triploid_duplicate_form cacheAB "s" 0 1 1 = Real.log (1 + 2 * Real.exp 1) - Real.log 3
      ∧ (log_likelihood 3 cacheAB "s" [0, 0, 1] none).1
        ≠ some (triploid_duplicate_form cacheAB "s" 0 1 1) := by
  have hln : ln 3 = some (Real.log 3) := by
    have := ln_of_table 3 (by norm_num) (by norm_num)
    simpa using this
  have hcode : (log_likelihood 3 cacheAB "s" [0, 0, 1] none).1
      = some (Real.log (2 + Real.exp 1) - Real.log 3) := by
    simp [log_likelihood, log_likelihood_triploid, is_homozygous, zygosity, copy_unique_ref,
      cacheAB, inner_product, hln, log_sum_exp2_eq, Real.exp_add, Real.exp_log]
  have hform : triploid_duplicate_form cacheAB "s" 0 1 1
      = Real.log (1 + 2 * Real.exp 1) - Real.log 3 := by
    simp [triploid_duplicate_form, cacheAB, log_sum_exp2_eq, Real.exp_add, Real.exp_log]
  refine ⟨hcode, hform, ?_⟩
  rw [hcode, hform]
  intro h
  have h' : Real.log (2 + Real.exp 1) = Real.log (1 + 2 * Real.exp 1) := by
    have := Option.some.inj h
    linarith
  have h1 := one_lt_exp_one
  have hlt : Real.log (2 + Real.exp 1) < Real.log (1 + 2 * Real.exp 1) :=
    Real.log_lt_log (by positivity) (by linarith)
  linarith

/-- C25, amended: for ploidy 3 and a genotype that holds the haplotype `a` twice, stored next to
each other, and another haplotype `b` once (`[a, a, b]` or `[b, a, a]`), with cached vectors of
length `R`, `log_likelihood` is the sum over `r < R` of `logsumexp(ln 2 + a_r, b_r)` minus
`R ln 3`: the `ln 2` stands with the duplicated haplotype. -/
theorem log_likelihood_triploid_duplicate (cache : HaplotypeLikelihoodCache)
    (sample : SampleName) (a b : Haplotype) (st : Static) (R : Nat) (hne : a ≠ b)
    (hLa : (cache sample a).length = R) (hLb : (cache sample b).length = R) :
    (log_likelihood 3 cache sample [a, a, b] st).1
        = some ((∑ r in Finset.range R,
            Maths.log_sum_exp2 (Real.log 2 + (cache sample a).getD r 0)
              ((cache sample b).getD r 0)) - R * Real.log 3)
      ∧ (log_likelihood 3 cache sample [b, a, a] st).1
        = some ((∑ r in Finset.range R,
            Maths.log_sum_exp2 (Real.log 2 + (cache sample a).getD r 0)
              ((cache sample b).getD r 0)) - R * Real.log 3) := by
  have hne' : ¬ b = a := fun h => hne h.symm
  have hln : ln 3 = some (Real.log 3) := by
    have := ln_of_table 3 (by norm_num) (by norm_num)
    simpa using this
  have hsum : ∀ f : ℕ → ℝ, (∑ r in Finset.range R, f r) - R * Real.log 3
      = ∑ r in Finset.range R, (f r - Real.log 3) := by
    intro f
    rw [Finset.sum_sub_distrib, Finset.sum_const, Finset.card_range, nsmul_eq_mul]
  rw [hsum]
  constructor
  · have key := inner_product_eq
      (fun x y => Maths.log_sum_exp2 (Real.log 2 + x) y - Real.log 3)
      (cache sample a) (cache sample b) 0 (by omega)
    rw [hLa, zero_add] at key
    rw [← key]
    simp [log_likelihood, log_likelihood_triploid, is_homozygous, zygosity, copy_unique_ref, hne,
      hne', hln]
  · have key := inner_product_eq
      (fun y x => Maths.log_sum_exp2 (Real.log 2 + x) y - Real.log 3)
      (cache sample b) (cache sample a) 0 (by omega)
    rw [hLb, zero_add] at key
    rw [← key]
    simp [log_likelihood, log_likelihood_triploid, is_homozygous, zygosity, copy_unique_ref, hne,
      hne', hln, log_sum_exp2_eq, add_comm]

/-- C25, amended, at the genotype `[0, 0, 1]` with one read, `L[0] = [0]` and `L[1] = [1]`: the
value is `logsumexp(ln 2 + 0, 1) - ln 3`. -/
theorem log_likelihood_triploid_duplicate_witness :
    (0 : Haplotype) ≠ 1 ∧ (cacheAB "s" 0).length = 1 ∧ (cacheAB "s" 1).length = 1
      ∧ (log_likelihood 3 cacheAB "s" [0, 0, 1] none).1
        = some (Maths.log_sum_exp2 (Real.log 2 + 0) 1 - Real.log 3) := by
  refine ⟨by decide, by simp [cacheAB], by simp [cacheAB], ?_⟩
  rw [(log_likelihood_triploid_duplicate cacheAB "s" 0 1 none 1 (by decide) (by simp [cacheAB])
    (by simp [cacheAB])).1]
  simp [cacheAB]


/-! ## The likelihood model: the value of scenario E6 -/

theorem log_likelihood_diploid_E6 :
    (log_likelihood 2 cacheE6 "s" [1, 2] none).1
      = some (3 * Real.log ((1 + Real.exp 1) / 2) - 8) := by
  have hln : ln 2 = some (Real.log 2) := by
    have := ln_of_table 2 (by norm_num) (by norm_num)
    simpa using this
  have hraw : (log_likelihood 2 cacheE6 "s" [1, 2] none).1
      = some (Real.log (Real.exp (-1) + Real.exp (-2)) - Real.log 2
          + (Real.log (Real.exp (-2) + Real.exp (-1)) - Real.log 2)
          + (Real.log (Real.exp (-3) + Real.exp (-4)) - Real.log 2)) := by
    simp [log_likelihood, log_likelihood_diploid, is_homozygous, zygosity, copy_unique_ref,
      cacheE6, inner_product, hln, log_sum_exp2_eq]
  have hpos : (0 : ℝ) < 1 + Real.exp 1 := by positivity
  have hshift : ∀ n : ℝ, Real.log (Real.exp (1 - n) + Real.exp (-n))
      = Real.log (1 + Real.exp 1) - n := by
    intro n
    have h : Real.exp (1 - n) + Real.exp (-n) = (1 + Real.exp 1) * Real.exp (-n) := by
      rw [add_mul, one_mul, ← Real.exp_add, add_comm, sub_eq_add_neg]
    rw [h, Real.log_mul (ne_of_gt hpos) (Real.exp_ne_zero _), Real.log_exp]
    ring
  have h1 : Real.log (Real.exp (-1) + Real.exp (-2)) = Real.log (1 + Real.exp 1) - 2 := by
    have := hshift 2
    norm_num at this
    exact this
  have h2 : Real.log (Real.exp (-2) + Real.exp (-1)) = Real.log (1 + Real.exp 1) - 2 := by
    rw [add_comm]; exact h1
  have h3 : Real.log (Real.exp (-3) + Real.exp (-4)) = Real.log (1 + Real.exp 1) - 4 := by
    have := hshift 4
    norm_num at this
    exact this
  have hdiv : Real.log ((1 + Real.exp 1) / 2) = Real.log (1 + Real.exp 1) - Real.log 2 :=
    Real.log_div (ne_of_gt hpos) (by norm_num)
  rw [hraw, h1, h2, h3, hdiv]
  congr 1
  ring

theorem exp_lt_half_one_add_exp_one : Real.exp 0.6197 < (1 + Real.exp 1) / 2 := by
  have hb := Real.exp_bound' (x := 0.6197) (by norm_num) (by norm_num) (n := 6) (by norm_num)
  have he := Real.exp_one_gt_d9
  have hs : (∑ m in Finset.range 6, (0.6197 : ℝ) ^ m / (m.factorial : ℝ))
      + (0.6197 : ℝ) ^ 6 * ((6 : ℕ) + 1) / ((Nat.factorial 6 : ℝ) * (6 : ℕ)) < 1.8591 := by
    simp only [Finset.sum_range_succ, Finset.sum_range_zero, Nat.factorial]
    norm_num
  linarith

theorem half_one_add_exp_one_lt_exp : (1 + Real.exp 1) / 2 < Real.exp 0.6203 := by
  have hb := Real.sum_le_exp_of_nonneg (x := 0.6203) (by norm_num) 7
  have he := Real.exp_one_lt_d9
  have hs : (1.8592 : ℝ) < ∑ m in Finset.range 7, (0.6203 : ℝ) ^ m / (m.factorial : ℝ) := by
    simp only [Finset.sum_range_succ, Finset.sum_range_zero, Nat.factorial]
    norm_num
  linarith

theorem log_half_one_add_exp_one_bounds :
    0.6197 < Real.log ((1 + Real.exp 1) / 2) ∧ Real.log ((1 + Real.exp 1) / 2) < 0.6203 := by
  have hpos : (0 : ℝ) < (1 + Real.exp 1) / 2 := by positivity
  exact ⟨(Real.lt_log_iff_exp_lt hpos).mpr exp_lt_half_one_add_exp_one,
    (Real.log_lt_iff_lt_exp hpos).mpr half_one_add_exp_one_lt_exp⟩

/-- C26, as stated, fails: for ploidy 2, `L[h1] = [-1, -2, -3]`, `L[h2] = [-2, -1, -4]` and the
genotype `{h1, h2}`, `log_likelihood` returns a value below `-6.139`, which is not within
`0.001` of `-5.393`. -/
theorem log_likelihood_E6_not_near_spec_value :
    ∃ x, (log_likelihood 2 cacheE6 "s" [1, 2] none).1 = some x
      ∧ x < -6.139 ∧ ¬ |x - (-5.393)| ≤ 0.001 := by
  refine ⟨_, log_likelihood_diploid_E6, ?_, ?_⟩
  · have := log_half_one_add_exp_one_bounds.2
    linarith
  · have := log_half_one_add_exp_one_bounds.2
    rw [abs_le]
    intro h
    linarith [h.1]

/-- C26, amended: for ploidy 2, `L[h1] = [-1, -2, -3]`, `L[h2] = [-2, -1, -4]` and the genotype
`{h1, h2}`, `log_likelihood` returns a value within `0.001` of `-6.140`. -/
theorem log_likelihood_E6_value :
    ∃ x, (log_likelihood 2 cacheE6 "s" [1, 2] none).1 = some x ∧ |x - (-6.140)| < 0.001 := by
  refine ⟨_, log_likelihood_diploid_E6, ?_⟩
  have h := log_half_one_add_exp_one_bounds
  rw [abs_lt]
  constructor <;> linarith [h.1, h.2]


/-! ## The likelihood model: inputs outside its contract -/

/-- C27, as stated, fails: a model constructed with ploidy 0 is not rejected. For the genotype of
the one haplotype 1 in scenario E6 `log_likelihood` returns the number `-6`; the empty genotype
has no `genotype[0]`, and for it `log_likelihood`, which reads `genotype[0]` first, has no
defined result: no failure is reported. -/
theorem log_likelihood_ploidy_zero_unchecked :
    (log_likelihood 0 cacheE6 "s" [1] none).1 = some (-6)
      ∧ ([] : Genotype)[0]? = none
      ∧ (log_likelihood 0 cacheE6 "s" [] none).1 = none := by
  refine ⟨?_, rfl, ?_⟩
  · simp [log_likelihood, log_likelihood_polyploid, zygosity, copy_unique_ref, cacheE6,
      accumulate]
    norm_num
  · simp [log_likelihood, log_likelihood_polyploid]

/-- C27, amended: for a model constructed with ploidy 0, `log_likelihood` of the empty genotype
returns no number, for every cache and sample: `log_likelihood_polyploid` begins by reading
`genotype[0]`, which the empty genotype does not have, and that read has no defined result. -/
theorem log_likelihood_empty_genotype (cache : HaplotypeLikelihoodCache) (sample : SampleName)
    (st : Static) : (log_likelihood 0 cache sample [] st).1 = none := by
  simp [log_likelihood, log_likelihood_polyploid]

theorem inner_product_short (f : ℝ → ℝ → Option ℝ) (xs : List ℝ) :
    ∀ (ys : List ℝ) (init : ℝ), ys.length < xs.length → inner_product xs ys init f = none := by
  induction xs with
  | nil => intro ys init h; simp at h
  | cons x xs ih =>
    intro ys init h
    cases ys with
    | nil => simp [inner_product]
    | cons y ys =>
      simp only [List.length_cons, Nat.add_lt_add_iff_right] at h
      unfold inner_product
      cases f x y with
      | none => rfl
      | some t => exact ih ys _ h

theorem inner_product3_short (f : ℝ → ℝ → ℝ → Option ℝ) (xs : List ℝ) :
    ∀ (ys zs : List ℝ) (init : ℝ), ys.length < xs.length ∨ zs.length < xs.length →
      Maths.inner_product3 xs ys zs init f = none := by
  induction xs with
  | nil => intro ys zs init h; simp at h
  | cons x xs ih =>
    intro ys zs init h
    cases ys with
    | nil => simp [Maths.inner_product3]
    | cons y ys =>
      cases zs with
      | nil => simp [Maths.inner_product3]
      | cons z zs =>
        simp only [List.length_cons, Nat.add_lt_add_iff_right] at h
        unfold Maths.inner_product3
        cases f x y z with
        | none => rfl
        | some t => exact ih ys zs _ h

theorem fill_tmp_short (p : Nat) (lls : List LikelihoodVector) (i : Nat)
    (h : ∃ v ∈ lls, v.length ≤ i) : fill_tmp p lls i = none := by
  obtain ⟨v, hv, hi⟩ := h
  unfold fill_tmp
  split
  · rfl
  · rw [if_neg]
    intro hall
    have := List.all_eq_true.mp hall v hv
    simp only [decide_eq_true_eq] at this
    omega

theorem polyploid_loop_short (p : Nat) (lls : List LikelihoodVector) (num : Nat)
    (h : ∃ v ∈ lls, v.length < num) : polyploid_loop p lls num = none := by
  obtain ⟨v, hv, hi⟩ := h
  unfold polyploid_loop
  induction num with
  | zero => omega
  | succ n ih =>
    rw [List.range_succ, List.foldlM_append]
    by_cases hn : v.length < n
    · rw [ih hn]
      rfl
    · have hfill : fill_tmp p lls n = none := fill_tmp_short p lls n ⟨v, hv, by omega⟩
      simp only [List.foldlM_cons, List.foldlM_nil, hfill, Option.bind_eq_bind,
        Option.none_bind, Option.bind_none]

theorem zygosity_ne_one (genotype : Genotype) (g0 h : Haplotype) (h0 : g0 ∈ genotype)
    (hmem : h ∈ genotype) (hne : h ≠ g0) : zygosity genotype ≠ 1 := by
  intro hz
  obtain ⟨x, hx⟩ := List.length_eq_one.mp hz
  have h1 : g0 = x := by
    have := (mem_copy_unique_ref genotype g0).mpr h0
    simpa [hx] using this
  have h2 : h = x := by
    have := (mem_copy_unique_ref genotype h).mpr hmem
    simpa [hx] using this
  exact hne (h2.trans h1.symm)

theorem copy_unique_ref_of_zygosity_two (g0 h : Haplotype) (rest : Genotype)
    (hmem : h ∈ g0 :: rest) (hne : h ≠ g0) (hz : zygosity (g0 :: rest) = 2) :
    copy_unique_ref (g0 :: rest) = [g0, h] := by
  have hin := (mem_copy_unique_ref (g0 :: rest) h).mpr hmem
  unfold zygosity at hz
  rw [copy_unique_ref] at hz hin ⊢
  simp only [List.length_cons, Nat.add_right_cancel_iff] at hz
  have hz1 : ((copy_unique_ref rest).filter (fun x => decide (x ≠ g0))).length = 1 := by omega
  obtain ⟨x, hx⟩ := List.length_eq_one.mp hz1
  rw [hx] at hin ⊢
  simp only [List.mem_cons, List.mem_singleton, List.not_mem_nil, or_false] at hin
  rcases hin with h1 | h1
  · exact absurd h1 hne
  · rw [h1]

theorem log_likelihood_polyploid_short (p : Nat) (cache : HaplotypeLikelihoodCache)
    (sample : SampleName) (g0 h : Haplotype) (rest : Genotype) (st : Static)
    (hmem : h ∈ g0 :: rest)
    (hshort : (cache sample h).length < (cache sample g0).length) :
    (log_likelihood_polyploid p cache sample (g0 :: rest) st).1 = none := by
  have hne : h ≠ g0 := by
    rintro rfl
    omega
  have hz1 := zygosity_ne_one (g0 :: rest) g0 h (List.mem_cons_self _ _) hmem hne
  unfold log_likelihood_polyploid
  simp only [List.getElem?_cons_zero, beq_iff_eq, hz1, if_false]
  by_cases hz2 : zygosity (g0 :: rest) = 2
  · simp only [hz2, if_true]
    have hcu := copy_unique_ref_of_zygosity_two g0 h rest hmem hne hz2
    cases lnpm1_after_declaration p st with
    | none => rfl
    | some lnpm1 =>
      simp only [hcu, List.getLast?_cons_cons, List.getLast?_singleton, List.head?_cons]
      split <;> exact inner_product_short _ _ _ _ hshort
  · simp only [hz2, if_false, List.map_cons, List.head?_cons]
    exact polyploid_loop_short p _ _
      ⟨cache sample h, by
        rw [← List.map_cons (fun haplotype => cache sample haplotype)]
        exact List.mem_map_of_mem _ hmem, hshort⟩

theorem log_likelihood_diploid_short (cache : HaplotypeLikelihoodCache)
    (sample : SampleName) (g0 g1 h : Haplotype) (hmem : h ∈ [g0, g1])
    (hshort : (cache sample h).length < (cache sample g0).length) :
    log_likelihood_diploid cache sample [g0, g1] = none := by
  have hne : h ≠ g0 := by
    rintro rfl
    omega
  have hz1 := zygosity_ne_one [g0, g1] g0 h (List.mem_cons_self _ _) hmem hne
  have hh : h = g1 := by
    simp only [List.mem_cons, List.mem_singleton, List.not_mem_nil, or_false] at hmem
    rcases hmem with h1 | h1
    · exact absurd h1 hne
    · exact h1
  subst hh
  simp only [log_likelihood_diploid, is_homozygous, beq_iff_eq, hz1, List.getElem?_cons_zero,
    List.getElem?_cons_succ, Option.bind_eq_bind, Option.some_bind, if_false,
    Bool.false_eq_true]
  exact inner_product_short _ _ _ _ hshort

theorem log_likelihood_triploid_short (cache : HaplotypeLikelihoodCache)
    (sample : SampleName) (g0 g1 g2 h : Haplotype) (hmem : h ∈ [g0, g1, g2])
    (hshort : (cache sample h).length < (cache sample g0).length) :
    log_likelihood_triploid cache sample [g0, g1, g2] = none := by
  have hne : h ≠ g0 := by
    rintro rfl
    omega
  have hz1 := zygosity_ne_one [g0, g1, g2] g0 h (List.mem_cons_self _ _) hmem hne
  simp only [List.mem_cons, List.mem_singleton, List.not_mem_nil, or_false] at hmem
  simp only [log_likelihood_triploid, is_homozygous, beq_iff_eq, hz1, List.getElem?_cons_zero,
    List.getElem?_cons_succ, Option.bind_eq_bind, Option.some_bind, if_false,
    Bool.false_eq_true]
  by_cases hz3 : zygosity [g0, g1, g2] = 3
  · simp only [hz3, if_true]
    refine inner_product3_short _ _ _ _ _ ?_
    rcases hmem with h1 | h1 | h1
    · exact absurd h1 hne
    · subst h1; exact Or.inl hshort
    · subst h1; exact Or.inr hshort
  · simp only [hz3, if_false]
    by_cases h01 : g0 = g1
    · have hh : h = g2 := by
        rcases hmem with h1 | h1 | h1
        · exact absurd h1 hne
        · exact absurd (h1.trans h01.symm) hne
        · exact h1
      subst hh
      simp only [h01, ne_eq, not_true_eq_false, if_false]
      rw [← h01]
      exact inner_product_short _ _ _ _ hshort
    · have hh : h = g1 := by
        rcases hmem with h1 | h1 | h1
        · exact absurd h1 hne
        · exact h1
        · subst h1
          by_contra hc
          apply hz3
          have hc' : ¬ g1 = h := fun e => hc e.symm
          have h01' : ¬ g1 = g0 := fun e => h01 e.symm
          simp [zygosity, copy_unique_ref, hne, hc, hc', h01, h01']
      subst hh
      simp only [ne_eq, h01, not_false_eq_true, if_true]
      exact inner_product_short _ _ _ _ hshort

/-- C28, as stated, fails: for ploidy 2 and the genotype `[0, 1]` with `L[0] = [0]` of length 1
and `L[1] = [1, 1]` of length 2, `log_likelihood` returns the number `ln(1 + e) - ln 2`, the sum
over the one index of the first vector. -/
theorem log_likelihood_longer_second_vector :
    (0 : Haplotype) ≠ 1 ∧ (cacheUneven "s" 0).length ≠ (cacheUneven "s" 1).length
      ∧ (log_likelihood 2 cacheUneven "s" [0, 1] none).1
        = some (Real.log (1 + Real.exp 1) - Real.log 2) := by
  have hln : ln 2 = some (Real.log 2) := by
    have := ln_of_table 2 (by norm_num) (by norm_num)
    simpa using this
  refine ⟨by decide, by simp [cacheUneven], ?_⟩
  simp [log_likelihood, log_likelihood_diploid, is_homozygous, zygosity, copy_unique_ref,
    cacheUneven, inner_product, hln, log_sum_exp2_eq]

/-- C28, amended: for every ploidy `p >= 2` and every genotype of `p` haplotypes that holds a
haplotype `h` whose cached vector is shorter than the vector of `genotype[0]`, `log_likelihood`
returns no number: it reads a vector past its end, which has no defined result. -/
theorem log_likelihood_short_vector (p : Nat) (cache : HaplotypeLikelihoodCache)
    (sample : SampleName) (genotype : Genotype) (st : Static) (g0 h : Haplotype)
    (hp : 2 ≤ p) (hlen : genotype.length = p) (h0 : genotype[0]? = some g0)
    (hmem : h ∈ genotype)
    (hshort : (cache sample h).length < (cache sample g0).length) :
    (log_likelihood p cache sample genotype st).1 = none := by
  cases genotype with
  | nil => simp at h0
  | cons a rest =>
    simp only [List.getElem?_cons_zero, Option.some.injEq] at h0
    subst h0
    have hpoly := log_likelihood_polyploid_short p cache sample a h rest st hmem hshort
    unfold log_likelihood
    split
    · omega
    · match rest, hlen with
      | [g1], _ => exact log_likelihood_diploid_short cache sample a g1 h hmem hshort
    · match rest, hlen with
      | [g1, g2], _ => exact log_likelihood_triploid_short cache sample a g1 g2 h hmem hshort
    · exact hpoly
    · exact hpoly

/-- C28, amended, at ploidy 2 and the genotype `[1, 0]` with `L[1] = [1, 1]` and `L[0] = [0]`:
no number is returned. -/
theorem log_likelihood_short_vector_witness :
    (cacheUneven "s" 0).length < (cacheUneven "s" 1).length
      ∧ (log_likelihood 2 cacheUneven "s" [1, 0] none).1 = none :=
  ⟨by simp [cacheUneven],
    log_likelihood_short_vector 2 cacheUneven "s" [1, 0] none 1 0 (by norm_num) rfl rfl
      (by simp) (by simp [cacheUneven])⟩

/-- C29: the lookup `ln(11)` is outside the table `Ln` of 11 entries, and at ploidy 11, for the
genotype of haplotype 0 once and haplotype 1 ten times with one read, `log_likelihood`, which
subtracts `ln(ploidy_)` for that read, returns no number. -/
theorem ln_outside_table :
    ln 11 = none
      ∧ (log_likelihood 11 cacheAB "s" [0, 1, 1, 1, 1, 1, 1, 1, 1, 1, 1] none).1 = none := by
  have hln : ln 11 = none := by
    unfold ln
    rw [if_neg (by norm_num), if_neg (by norm_num)]
  have hlog : std_log (ploidy_minus_one 11) = some (Real.log 10) := by
    have h10 : ploidy_minus_one 11 = 10 := by decide
    rw [h10]
    simp [std_log]
  refine ⟨hln, ?_⟩
  simp [log_likelihood, log_likelihood_polyploid, lnpm1_after_declaration, zygosity,
    copy_unique_ref, count, hlog, cacheAB, inner_product, hln]

/-! ## The likelihood model: the static `lnpm1` -/

/-- C36: with the static `lnpm1` not yet initialised, a model of ploidy 4 evaluated on the genotype
`[0, 1, 1, 1]` leaves `lnpm1` at `ln 3`; a model of ploidy 5 evaluated after it on
`[0, 1, 1, 1, 1]`, with `L[0] = [0]` and `L[1] = [1]`, returns `ln(1 + 3e) - ln 5`, with the
weight `ln 3` of the first model, where the same call as the first of its process returns
`ln(1 + 4e) - ln 5`. -/
theorem log_likelihood_polyploid_static_kept :
    (log_likelihood_polyploid 4 cacheAB "s" [0, 1, 1, 1] none).2 = some (Real.log 3)
      ∧ (log_likelihood_polyploid 5 cacheAB "s" [0, 1, 1, 1, 1]
          (log_likelihood_polyploid 4 cacheAB "s" [0, 1, 1, 1] none).2).1
        = some (Real.log (1 + 3 * Real.exp 1) - Real.log 5)
      ∧ (log_likelihood_polyploid 5 cacheAB "s" [0, 1, 1, 1, 1] none).1
        = some (Real.log (1 + 4 * Real.exp 1) - Real.log 5)
      ∧ (log_likelihood_polyploid 5 cacheAB "s" [0, 1, 1, 1, 1]
          (log_likelihood_polyploid 4 cacheAB "s" [0, 1, 1, 1] none).2).1
        ≠ (log_likelihood_polyploid 5 cacheAB "s" [0, 1, 1, 1, 1] none).1 := by
  have hln5 : ln 5 = some (Real.log 5) := by
    have := ln_of_table 5 (by norm_num) (by norm_num)
    simpa using this
  have hlog3 : std_log (ploidy_minus_one 4) = some (Real.log 3) := by
    have h3 : ploidy_minus_one 4 = 3 := by decide
    rw [h3]
    simp [std_log]
  have hlog4 : std_log (ploidy_minus_one 5) = some (Real.log 4) := by
    have h4 : ploidy_minus_one 5 = 4 := by decide
    rw [h4]
    simp [std_log]
  have hst : (log_likelihood_polyploid 4 cacheAB "s" [0, 1, 1, 1] none).2
      = some (Real.log 3) := by
    simp [log_likelihood_polyploid, lnpm1_after_declaration, zygosity, copy_unique_ref, count,
      hlog3]
  have hkept : (log_likelihood_polyploid 5 cacheAB "s" [0, 1, 1, 1, 1] (some (Real.log 3))).1
      = some (Real.log (1 + 3 * Real.exp 1) - Real.log 5) := by
    simp [log_likelihood_polyploid, lnpm1_after_declaration, zygosity, copy_unique_ref, count,
      cacheAB, inner_product, hln5, log_sum_exp2_eq, Real.exp_add, Real.exp_log]
  have hfresh : (log_likelihood_polyploid 5 cacheAB "s" [0, 1, 1, 1, 1] none).1
      = some (Real.log (1 + 4 * Real.exp 1) - Real.log 5) := by
    simp [log_likelihood_polyploid, lnpm1_after_declaration, zygosity, copy_unique_ref, count,
      hlog4, cacheAB, inner_product, hln5, log_sum_exp2_eq, Real.exp_add, Real.exp_log]
  refine ⟨hst, by rw [hst]; exact hkept, hfresh, ?_⟩
  rw [hst, hkept, hfresh]
  intro h
  have h' : Real.log (1 + 3 * Real.exp 1) = Real.log (1 + 4 * Real.exp 1) := by
    have := Option.some.inj h
    linarith
  have hpos := Real.exp_pos 1
  have hlt : Real.log (1 + 3 * Real.exp 1) < Real.log (1 + 4 * Real.exp 1) :=
    Real.log_lt_log (by positivity) (by linarith)
  linarith

end model

namespace CallFiltering

/-! ## The records written by `filter` -/

theorem filter_records {F Header VcfRecord Builder MeasureVector : Type}
    (ops : Collaborators F Header VcfRecord Builder MeasureVector) (self : F)
    (source : VcfReader Header VcfRecord) (dest : VcfWriter Header VcfRecord) :
    (filter ops self source dest).2.records
      = dest.records ++ source.records.map (fun call =>
          ops.build_once
            (if (ops.classify (filter ops self source dest).1 ops.empty_measures).category
                = Category.Filtered
              then ops.set_passed (ops.make_builder call)
              else ops.set_filter (ops.make_builder call) ["FAIL"])) := by
  have hcall : ∀ s : F, filter_call ops s = fun call =>
      ops.build_once
        (if (ops.classify s ops.empty_measures).category = Category.Filtered
          then ops.set_passed (ops.make_builder call)
          else ops.set_filter (ops.make_builder call) ["FAIL"]) := by
    intro s
    funext call
    simp only [filter_call, measure, pass, fail, ne_eq, ite_not]
  simp only [filter, hcall]
  split <;> rfl

/-- C37: over the collaborators of the examples, a call whose classification is not `Filtered` is
written with the FILTER column `FAIL`, and a call whose classification is `Filtered` is written
with the FILTER column `PASS`. -/
theorem filter_marks_swapped :
    (filter (exampleCollaborators Category.Unfiltered) ()
        { header := (), records := [{ id := 1, filter := [] }] }
        { header := none, records := [] }).2.records = [{ id := 1, filter := ["FAIL"] }]
      ∧ (filter (exampleCollaborators Category.Filtered) ()
        { header := (), records := [{ id := 1, filter := [] }] }
        { header := none, records := [] }).2.records = [{ id := 1, filter := ["PASS"] }] := by
  constructor
  · decide
  · decide

end CallFiltering
end octopus

namespace Octopus

/-! ## Lemmas on the standard library calls -/

theorem mem_sorted_insert {α : Type} (comp : α → α → Bool) (x y : α) (l : List α) :
    y ∈ sorted_insert comp x l ↔ y = x ∨ y ∈ l := by
  induction l with
  | nil => simp [sorted_insert]
  | cons z zs ih =>
    unfold sorted_insert
    split
    · simp
    · simp only [List.mem_cons, ih]
      tauto

theorem mem_std_sort {α : Type} (comp : α → α → Bool) (y : α) (l : List α) :
    y ∈ std_sort comp l ↔ y ∈ l := by
  induction l with
  | nil => simp [std_sort]
  | cons x xs ih => simp [std_sort, mem_sorted_insert, ih]

theorem mem_unique_from {α : Type} (eq : α → α → Bool) (y : α) (l : List α) :
    ∀ a, y ∈ unique_from eq a l → y ∈ l := by
  induction l with
  | nil => intro a h; simp [unique_from] at h
  | cons b bs ih =>
    intro a h
    unfold unique_from at h
    split at h
    · exact List.mem_cons_of_mem _ (ih a h)
    · rcases List.mem_cons.mp h with rfl | h
      · exact List.mem_cons_self _ _
      · exact List.mem_cons_of_mem _ (ih b h)

theorem mem_std_unique {α : Type} (eq : α → α → Bool) (y : α) (l : List α)
    (h : y ∈ std_unique eq l) : y ∈ l := by
  cases l with
  | nil => simp [std_unique] at h
  | cons a as =>
    rcases List.mem_cons.mp h with rfl | h
    · exact List.mem_cons_self _ _
    · exact List.mem_cons_of_mem _ (mem_unique_from eq y as a h)

theorem mem_merge_next {α : Type} (comp : α → α → Bool) (x y : α) (xs : List α)
    (merge_rest : List α → List α) (hrest : ∀ ys, y ∈ merge_rest ys ↔ y ∈ xs ∨ y ∈ ys)
    (ys : List α) : y ∈ merge_next comp x merge_rest ys ↔ y = x ∨ y ∈ xs ∨ y ∈ ys := by
  induction ys with
  | nil => simp [merge_next, hrest]
  | cons z zs ih =>
    unfold merge_next
    split
    · simp only [List.mem_cons, ih]
      tauto
    · simp only [List.mem_cons, hrest]

theorem mem_std_inplace_merge {α : Type} (comp : α → α → Bool) (y : α) (xs ys : List α) :
    y ∈ std_inplace_merge comp xs ys ↔ y ∈ xs ∨ y ∈ ys := by
  induction xs generalizing ys with
  | nil => simp [std_inplace_merge]
  | cons x xs ih =>
    unfold std_inplace_merge
    rw [mem_merge_next comp x y xs _ (fun ys => ih ys) ys]
    simp only [List.mem_cons]
    tauto

/-! ## Lemmas on trimming and splitting -/

theorem trim_reference_length (v : Assembler.Variant) :
    (trim_reference v).ref.length ≤ v.ref.length ∧ (trim_reference v).alt.length ≤ v.alt.length := by
  simp only [trim_reference, List.length_take, List.length_drop]
  omega

theorem split_mnv_loop_some (begin_pos : Nat) (ref : SequenceType) :
    ∀ (i : Nat) (alt : SequenceType), ref.length ≤ alt.length →
      ∃ l, split_mnv_loop begin_pos i ref alt = some l
        ∧ ∀ x ∈ l, x.ref.length = 1 ∧ x.alt.length = 1 := by
  induction ref with
  | nil => intro i alt _; exact ⟨[], by simp [split_mnv_loop]⟩
  | cons r rs ih =>
    intro i alt hlen
    cases alt with
    | nil => simp at hlen
    | cons a as =>
      obtain ⟨l, hl, hx⟩ := ih (i + 1) as (by simpa using hlen)
      by_cases hra : r = a
      · exact ⟨l, by simp [split_mnv_loop, hl, hra], hx⟩
      · refine ⟨⟨begin_pos + (i + 1), [r], [a]⟩ :: l, by simp [split_mnv_loop, hl, hra], ?_⟩
        intro x hxm
        rcases List.mem_cons.mp hxm with rfl | hxm
        · simp
        · exact hx x hxm

theorem split_mnv_some (v : Assembler.Variant) (h : is_mnv v = true) :
    ∃ l, split_mnv v = some l ∧ ∀ x ∈ l, x.ref.length = 1 ∧ x.alt.length = 1 := by
  obtain ⟨begin_pos, ref, alt⟩ := v
  simp only [is_mnv, Bool.and_eq_true, decide_eq_true_eq] at h
  obtain ⟨hgt, heq⟩ := h
  match ref, alt, hgt, heq with
  | r0 :: r1 :: rs, a0 :: a1 :: as, _, heq =>
    simp only [List.length_cons, Nat.add_right_cancel_iff] at heq
    obtain ⟨l, hl, hx⟩ := split_mnv_loop_some begin_pos
      (((r0 :: r1 :: rs).drop 1).take ((r0 :: r1 :: rs).length - 2)) 1
      ((a0 :: a1 :: as).drop 1)
      (by simp only [List.drop_succ_cons, List.drop_zero, List.length_take, List.length_cons]
          omega)
    refine ⟨⟨begin_pos, [r0], [a0]⟩ :: l ++
      [⟨begin_pos + (r0 :: r1 :: rs).length - 1, (r0 :: r1 :: rs).drop ((r0 :: r1 :: rs).length - 1),
        (a0 :: a1 :: as).drop ((a0 :: a1 :: as).length - 1)⟩], ?_, ?_⟩
    · simp only [split_mnv, List.head?_cons, Option.bind_eq_bind, Option.some_bind, hl]
      simp
    · intro x hxm
      simp only [List.cons_append, List.mem_cons, List.mem_append, List.not_mem_nil,
        or_false] at hxm
      rcases hxm with rfl | hxm | rfl
      · simp
      · exact hx x hxm
      · simp only [List.length_cons, List.length_drop]
        omega

theorem split_all_some (mnvs : List Assembler.Variant) (h : ∀ v ∈ mnvs, is_mnv v = true) :
    ∃ l, split_all mnvs = some l
      ∧ ∀ x ∈ l, x.ref.length = 1 ∧ x.alt.length = 1 ∧ ∃ m, m ∈ mnvs := by
  induction mnvs with
  | nil => exact ⟨[], by simp [split_all]⟩
  | cons m ms ih =>
    obtain ⟨l1, hl1, hx1⟩ := split_mnv_some m (h m (List.mem_cons_self _ _))
    obtain ⟨l2, hl2, hx2⟩ := ih (fun v hv => h v (List.mem_cons_of_mem _ hv))
    refine ⟨l1 ++ l2, by simp [split_all, hl1, hl2], ?_⟩
    intro x hxm
    rcases List.mem_append.mp hxm with hxm | hxm
    · exact ⟨(hx1 x hxm).1, (hx1 x hxm).2, m, List.mem_cons_self _ _⟩
    · exact ⟨(hx2 x hxm).1, (hx2 x hxm).2.1, m, List.mem_cons_self _ _⟩

theorem split_mnvs_some (candidates : List Assembler.Variant) :
    ∃ l, split_mnvs candidates = some l
      ∧ ∀ x ∈ l, (x ∈ candidates ∧ is_mnv x = false)
          ∨ (x.ref.length = 1 ∧ x.alt.length = 1 ∧ ∃ m ∈ candidates, is_mnv m = true) := by
  obtain ⟨snps, hsnps, hx⟩ := split_all_some
    (candidates.filter (fun candidate => !(!is_mnv candidate)))
    (fun v hv => by simpa using (List.mem_filter.mp hv).2)
  have hsnp : ∀ x, x ∈ std_unique (fun a b => decide (a = b)) (std_sort variant_less snps) →
      x.ref.length = 1 ∧ x.alt.length = 1 ∧ ∃ m ∈ candidates, is_mnv m = true := by
    intro x hxm
    have hxs : x ∈ snps := (mem_std_sort _ _ _).mp (mem_std_unique _ _ _ hxm)
    obtain ⟨h1, h2, m, hm⟩ := hx x hxs
    have hm' := List.mem_filter.mp hm
    exact ⟨h1, h2, m, hm'.1, by simpa using hm'.2⟩
  have hnon : ∀ x, x ∈ candidates.filter (fun candidate => !is_mnv candidate) →
      x ∈ candidates ∧ is_mnv x = false := by
    intro x hxm
    have := List.mem_filter.mp hxm
    exact ⟨this.1, by simpa using this.2⟩
  simp only [split_mnvs, hsnps, Option.bind_eq_bind, Option.some_bind]
  split
  · refine ⟨_, rfl, ?_⟩
    intro x hxm
    rcases (mem_std_inplace_merge _ _ _ _).mp hxm with hxm | hxm
    · exact Or.inl (hnon x hxm)
    · exact Or.inr (hsnp x hxm)
  · refine ⟨_, rfl, ?_⟩
    intro x hxm
    rcases (mem_std_inplace_merge _ _ _ _).mp hxm with hxm | hxm
    · rcases List.mem_append.mp hxm with hxm | hxm
      · exact Or.inl (hnon x hxm)
      · exact Or.inr (hsnp x (List.mem_of_mem_take hxm))
    · exact Or.inr (hsnp x (List.mem_of_mem_drop hxm))

/-! ## Lemmas on `generate_candidates` -/

theorem mem_remove_nonoverlapping (candidates : List Variant) (region : GenomicRegion)
    (v : Variant) :
    v ∈ remove_nonoverlapping candidates region ↔ v ∈ candidates ∧ overlaps v region = true := by
  simp [remove_nonoverlapping, List.mem_filter]

theorem early_return_result (P : Variant → Prop) (result : List Variant) (region : GenomicRegion)
    (hres : ∀ v ∈ result, P v) :
    (∀ v ∈ (if !result.isEmpty then remove_nonoverlapping result region else result), P v)
      ∧ ∀ v ∈ (if !result.isEmpty then remove_nonoverlapping result region else result),
          overlaps v region = true := by
  cases result with
  | nil => simp
  | cons a as =>
    simp only [List.isEmpty_cons, Bool.not_false, if_true]
    exact ⟨fun v hv => hres v ((mem_remove_nonoverlapping _ _ _).mp hv).1,
      fun v hv => ((mem_remove_nonoverlapping _ _ _).mp hv).2⟩

theorem try_assemble_region_some {A : Type} (ops : AssemblerOps A) (P : Variant → Prop)
    (hnew : ∀ (a : A) (rr : GenomicRegion) (vs : List Assembler.Variant),
      split_mnvs (trim_reference_all (ops.extract_variants a).2) = some vs →
      ∀ av ∈ vs, P (Variant.make rr.contig_name (rr.begin_ + av.begin_pos) av.ref av.alt))
    (min_supporting_reads : Nat) (assembler : A) (reference_sequence : SequenceType)
    (reference_region : GenomicRegion) (result : List Variant) (hres : ∀ v ∈ result, P v) :
    ∃ r, try_assemble_region ops min_supporting_reads assembler reference_sequence
        reference_region result = some r ∧ ∀ v ∈ r.2.2, P v := by
  unfold try_assemble_region
  simp only []
  split
  · exact ⟨_, rfl, hres⟩
  · obtain ⟨vs, hvs, _⟩ := split_mnvs_some (trim_reference_all (ops.extract_variants
      (ops.prune (ops.remove_trivial_nonreference_cycles assembler) min_supporting_reads).1).2)
    rw [hvs]
    refine ⟨_, rfl, ?_⟩
    intro v hv
    simp only [add_to_mapped_variants] at hv
    rcases List.mem_append.mp (mem_std_unique _ _ _ hv) with hv | hv
    · exact hres v hv
    · obtain ⟨av, hav, rfl⟩ := List.mem_map.mp ((mem_std_sort _ _ _).mp hv)
      exact hnew _ reference_region vs hvs av hav

theorem default_loop_some {A : Type} (ops : AssemblerOps A) (P : Variant → Prop)
    (hnew : ∀ (a : A) (rr : GenomicRegion) (vs : List Assembler.Variant),
      split_mnvs (trim_reference_all (ops.extract_variants a).2) = some vs →
      ∀ av ∈ vs, P (Variant.make rr.contig_name (rr.begin_ + av.begin_pos) av.ref av.alt))
    (DEBUG_MODE : Bool) (self : AssemblerCandidateVariantGenerator A)
    (region_assembled region : GenomicRegion) (assemblers : List A) :
    ∀ (result : List Variant) (n : Nat), (∀ v ∈ result, P v) →
      ∃ s, default_loop ops DEBUG_MODE self region_assembled region assemblers result n = some s
        ∧ (∀ v ∈ s.result, P v)
        ∧ (s.returned = true → ∀ v ∈ s.result, overlaps v region = true) := by
  induction assemblers with
  | nil =>
    intro result n hres
    exact ⟨_, rfl, hres, fun h => by simp at h⟩
  | cons assembler rest ih =>
    intro result n hres
    unfold default_loop
    simp only []
    split
    · exact ⟨_, rfl, (early_return_result P result region hres).1,
        fun _ => (early_return_result P result region hres).2⟩
    · obtain ⟨r, hr, hP⟩ := try_assemble_region_some ops P hnew self.min_supporting_reads_
        (ops.insert_reference assembler
          (self.reference_ (expand region_assembled (ops.kmer_size assembler))))
        (self.reference_ (expand region_assembled (ops.kmer_size assembler)))
        (expand region_assembled (ops.kmer_size assembler)) result hres
      obtain ⟨a1, ok, result1⟩ := r
      rw [hr]
      simp only []
      obtain ⟨s, hs, hsP, hso⟩ := ih result1
        (if ok = true then n else if DEBUG_MODE = true then n + 1 else n) hP
      rw [hs]
      exact ⟨_, rfl, hsP, hso⟩

theorem fallback_loop_some {A : Type} (ops : AssemblerOps A) (P : Variant → Prop)
    (hnew : ∀ (a : A) (rr : GenomicRegion) (vs : List Assembler.Variant),
      split_mnvs (trim_reference_all (ops.extract_variants a).2) = some vs →
      ∀ av ∈ vs, P (Variant.make rr.contig_name (rr.begin_ + av.begin_pos) av.ref av.alt))
    (self : AssemblerCandidateVariantGenerator A)
    (region_assembled region : GenomicRegion) (kmer_sizes : List Nat) :
    ∀ (result : List Variant), (∀ v ∈ result, P v) →
      ∃ r, fallback_loop ops self region_assembled region kmer_sizes result = some r
        ∧ (∀ v ∈ r.1, P v)
        ∧ (r.2 = true → ∀ v ∈ r.1, overlaps v region = true) := by
  induction kmer_sizes with
  | nil =>
    intro result hres
    exact ⟨_, rfl, hres, fun h => by simp at h⟩
  | cons k rest ih =>
    intro result hres
    unfold fallback_loop
    simp only []
    split
    · exact ⟨_, rfl, (early_return_result P result region hres).1,
        fun _ => (early_return_result P result region hres).2⟩
    · obtain ⟨r, hr, hP⟩ := try_assemble_region_some ops P hnew self.min_supporting_reads_
        (self.sequence_buffer_.foldl
          (fun assembler read_sequence => ops.insert_read assembler read_sequence)
          (ops.make_with_reference k (self.reference_ (expand region_assembled k))))
        (self.reference_ (expand region_assembled k))
        (expand region_assembled k) result hres
      obtain ⟨a1, ok, result1⟩ := r
      rw [hr]
      simp only []
      split
      · exact ⟨_, rfl, hP, fun h => by simp at h⟩
      · exact ih result1 hP

theorem generate_candidates_some {A : Type} (ops : AssemblerOps A) (P : Variant → Prop)
    (hnew : ∀ (a : A) (rr : GenomicRegion) (vs : List Assembler.Variant),
      split_mnvs (trim_reference_all (ops.extract_variants a).2) = some vs →
      ∀ av ∈ vs, P (Variant.make rr.contig_name (rr.begin_ + av.begin_pos) av.ref av.alt))
    (DEBUG_MODE : Bool) (self : AssemblerCandidateVariantGenerator A) (region : GenomicRegion) :
    ∃ r, self.generate_candidates ops DEBUG_MODE region = some r
      ∧ (∀ v ∈ r.2, P v) ∧ (∀ v ∈ r.2, overlaps v region = true) := by
  unfold AssemblerCandidateVariantGenerator.generate_candidates
  split
  · exact ⟨_, rfl, by simp, by simp⟩
  · rename_i region_assembled _
    obtain ⟨s, hs, hsP, hso⟩ := default_loop_some ops P hnew DEBUG_MODE self region_assembled
      region self.assemblers_ [] 0 (by simp)
    rw [hs]
    simp only []
    split
    · rename_i hret
      exact ⟨_, rfl, hsP, hso hret⟩
    · split
      · obtain ⟨r, hr, hrP, hro⟩ := fallback_loop_some ops P hnew self region_assembled region
          self.fallback_kmer_sizes_ s.result hsP
        obtain ⟨result, returned⟩ := r
        rw [hr]
        simp only []
        split
        · rename_i hret
          exact ⟨_, rfl, hrP, hro hret⟩
        · exact ⟨_, rfl, fun v hv => hrP v ((mem_remove_nonoverlapping _ _ _).mp hv).1,
            fun v hv => ((mem_remove_nonoverlapping _ _ _).mp hv).2⟩
      · exact ⟨_, rfl, fun v hv => hsP v ((mem_remove_nonoverlapping _ _ _).mp hv).1,
          fun v hv => ((mem_remove_nonoverlapping _ _ _).mp hv).2⟩

/-! ## The candidate generator: claims -/

/-- C7: for every generator state and every region, `generate_candidates(region)` returns, and
every variant of the returned vector overlaps `region`, whichever `return` is taken. -/
theorem generate_candidates_overlaps_region {A : Type} (ops : AssemblerOps A)
    (DEBUG_MODE : Bool) (self : AssemblerCandidateVariantGenerator A) (region : GenomicRegion) :
    ∃ after result, self.generate_candidates ops DEBUG_MODE region = some (after, result)
      ∧ ∀ v ∈ result, overlaps v region = true := by
  obtain ⟨⟨after, result⟩, hr, _, ho⟩ := generate_candidates_some ops (fun _ => True)
    (fun _ _ _ _ _ _ => trivial) DEBUG_MODE self region
  exact ⟨after, result, hr, ho⟩

/-- C8: with the two default k-mer sizes 4 and 5, both assemblers succeeding and both reporting
the same two single-base variants at `1:104` and `1:107`, the vector returned by
`generate_candidates` holds each of the two variants twice: the second pair is appended after the
first, only the appended range is sorted, and `std::unique` finds no two equal neighbours. -/
theorem generate_candidates_repeats_variants :
    exampleCandidates twoSnvs false [4, 5] 100
        = some [Variant.make "1" 104 ['A'] ['G'], Variant.make "1" 107 ['T'] ['C'],
            Variant.make "1" 104 ['A'] ['G'], Variant.make "1" 107 ['T'] ['C']]
      ∧ ¬ [Variant.make "1" 104 ['A'] ['G'], Variant.make "1" 107 ['T'] ['C'],
            Variant.make "1" 104 ['A'] ['G'], Variant.make "1" 107 ['T'] ['C']].Nodup := by
  constructor
  · decide
  · decide

/-- C9: with the two default k-mer sizes 4 and 5, both assemblers succeeding and both reporting
the same two single-base variants, the returned vector has the variant at `1:107` before the
variant at `1:104`, so it is not in non-decreasing order of (region, ref, alt). -/
theorem generate_candidates_not_sorted :
    ∃ result, exampleCandidates twoSnvs true [4, 5] 100 = some result
      ∧ ¬ result.Pairwise (fun a b => Variant.lex_lt b a = false) := by
  refine ⟨[Variant.make "1" 104 ['A'] ['G'], Variant.make "1" 107 ['T'] ['C'],
    Variant.make "1" 104 ['A'] ['G'], Variant.make "1" 107 ['T'] ['C']], by decide, ?_⟩
  decide

/-- C10, as stated, fails: a generator constructed with `max_variant_size` 1, whose assembler
reports an insertion of two bases, returns that insertion, with an alt sequence of length 2. -/
theorem generate_candidates_exceeds_max_variant_size :
    ¬ ∀ result, exampleCandidates oneInsertion false [4] 1 = some result →
        ∀ v ∈ result, v.reference_allele_sequence_.length ≤ 1
          ∧ v.alternative_allele_sequence_.length ≤ 1 := by
  intro h
  have hval : exampleCandidates oneInsertion false [4] 1
      = some [Variant.make "1" 104 [] ['A', 'A']] := by decide
  have := (h _ hval (Variant.make "1" 104 [] ['A', 'A']) (List.mem_singleton.mpr rfl)).2
  simp [Variant.make] at this

/-- C10, amended: when every variant that the assemblers report through `extract_variants` has a
ref and an alt of length at most `max_variant_size`, `generate_candidates` returns, and every
returned variant has a ref and an alt of length at most `max_variant_size`. The method itself
does not read `max_variant_size_`. -/
theorem generate_candidates_within_reported_size {A : Type} (ops : AssemblerOps A)
    (DEBUG_MODE : Bool) (self : AssemblerCandidateVariantGenerator A) (region : GenomicRegion)
    (hreported : ∀ (a : A) (av : Assembler.Variant), av ∈ (ops.extract_variants a).2 →
      av.ref.length ≤ self.max_variant_size_ ∧ av.alt.length ≤ self.max_variant_size_) :
    ∃ after result, self.generate_candidates ops DEBUG_MODE region = some (after, result)
      ∧ ∀ v ∈ result, v.reference_allele_sequence_.length ≤ self.max_variant_size_
          ∧ v.alternative_allele_sequence_.length ≤ self.max_variant_size_ := by
  obtain ⟨⟨after, result⟩, hr, hP, _⟩ := generate_candidates_some ops
    (fun v => v.reference_allele_sequence_.length ≤ self.max_variant_size_
      ∧ v.alternative_allele_sequence_.length ≤ self.max_variant_size_)
    (by
      intro a rr vs hvs av hav
      obtain ⟨l, hl, hx⟩ := split_mnvs_some (trim_reference_all (ops.extract_variants a).2)
      rw [hvs] at hl
      cases hl
      have htrim : ∀ t ∈ trim_reference_all (ops.extract_variants a).2,
          t.ref.length ≤ self.max_variant_size_ ∧ t.alt.length ≤ self.max_variant_size_ := by
        intro t ht
        obtain ⟨u, hu, rfl⟩ := List.mem_map.mp ht
        have hb := hreported a u hu
        have hlen := trim_reference_length u
        exact ⟨le_trans hlen.1 hb.1, le_trans hlen.2 hb.2⟩
      show av.ref.length ≤ self.max_variant_size_ ∧ av.alt.length ≤ self.max_variant_size_
      rcases hx av hav with ⟨hmem, _⟩ | ⟨h1, h2, m, hm, hmnv⟩
      · exact htrim av hmem
      · have hb := htrim m hm
        simp only [is_mnv, Bool.and_eq_true, decide_eq_true_eq] at hmnv
        omega)
    DEBUG_MODE self region
  exact ⟨after, result, hr, hP⟩

/-- C10, amended, at the generator of the examples with `max_variant_size` 2 and an assembler
that reports an insertion of two bases. -/
theorem generate_candidates_within_reported_size_witness :
    ∃ after result,
      (exampleGenerator 2).generate_candidates (exampleOps oneInsertion) false exampleRegion
          = some (after, result)
        ∧ ∀ v ∈ result, v.reference_allele_sequence_.length ≤ 2
            ∧ v.alternative_allele_sequence_.length ≤ 2 :=
  generate_candidates_within_reported_size (exampleOps oneInsertion) false (exampleGenerator 2)
    exampleRegion (by
      intro a av hav
      simp only [exampleOps, oneInsertion, List.mem_singleton] at hav
      subst hav
      exact ⟨Nat.zero_le _, Nat.le_refl 2⟩)

/-! ## More lemmas on trimming and splitting -/

theorem mem_unique_from_of_mem {α : Type} (eq : α → α → Bool)
    (heq : ∀ a b, eq a b = true ↔ a = b) (y : α) (l : List α) :
    ∀ a, y ∈ l → y = a ∨ y ∈ unique_from eq a l := by
  induction l with
  | nil => intro a h; simp at h
  | cons b bs ih =>
    intro a h
    unfold unique_from
    split
    · rename_i hab
      have hab' : a = b := (heq a b).mp hab
      rcases List.mem_cons.mp h with rfl | h
      · exact Or.inl hab'.symm
      · exact ih a h
    · rcases List.mem_cons.mp h with rfl | h
      · exact Or.inr (List.mem_cons_self _ _)
      · rcases ih b h with rfl | h
        · exact Or.inr (List.mem_cons_self _ _)
        · exact Or.inr (List.mem_cons_of_mem _ h)

theorem mem_std_unique_iff {α : Type} (eq : α → α → Bool)
    (heq : ∀ a b, eq a b = true ↔ a = b) (y : α) (l : List α) :
    y ∈ std_unique eq l ↔ y ∈ l := by
  refine ⟨mem_std_unique eq y l, fun h => ?_⟩
  cases l with
  | nil => simp at h
  | cons a as =>
    unfold std_unique
    rcases List.mem_cons.mp h with rfl | h
    · exact List.mem_cons_self _ _
    · rcases mem_unique_from_of_mem eq heq y as a h with rfl | h
      · exact List.mem_cons_self _ _
      · exact List.mem_cons_of_mem _ h

theorem mismatch_spec (xs : SequenceType) :
    ∀ ys : SequenceType, xs.drop (mismatch xs ys) = [] ∨ ys.drop (mismatch xs ys) = []
      ∨ (xs.drop (mismatch xs ys)).head? ≠ (ys.drop (mismatch xs ys)).head? := by
  induction xs with
  | nil => intro ys; left; simp [mismatch]
  | cons a as ih =>
    intro ys
    cases ys with
    | nil => right; left; simp [mismatch]
    | cons b bs =>
      by_cases hab : a = b
      · simp only [mismatch, hab, if_true, List.drop_succ_cons]
        exact ih bs
      · right; right
        simp [mismatch, hab]

theorem trim_reference_trimmed (v : Assembler.Variant) :
    trimmed (trim_reference v).ref (trim_reference v).alt := by
  have h1 := mismatch_spec v.ref v.alt
  have h2 := mismatch_spec (v.ref.drop (mismatch v.ref v.alt)).reverse
    (v.alt.drop (mismatch v.ref v.alt)).reverse
  simp only [trim_reference, trimmed]
  generalize v.ref.drop (mismatch v.ref v.alt) = r at h1 h2 ⊢
  generalize v.alt.drop (mismatch v.ref v.alt) = a at h1 h2 ⊢
  generalize mismatch r.reverse a.reverse = p2 at h2 ⊢
  rw [List.drop_reverse, List.drop_reverse] at h2
  by_cases hr : r.take (r.length - p2) = []
  · exact Or.inl hr
  by_cases ha : a.take (a.length - p2) = []
  · exact Or.inr (Or.inl ha)
  right; right
  have hr0 : r.length - p2 ≠ 0 := fun h => hr (by rw [h, List.take_zero])
  have ha0 : a.length - p2 ≠ 0 := fun h => ha (by rw [h, List.take_zero])
  have hrne : r ≠ [] := fun h => hr (by rw [h, List.take_nil])
  have hane : a ≠ [] := fun h => ha (by rw [h, List.take_nil])
  constructor
  · rw [List.head?_take, List.head?_take, if_neg hr0, if_neg ha0]
    rcases h1 with h | h | h
    · exact absurd h hrne
    · exact absurd h hane
    · exact h
  · rcases h2 with h | h | h
    · exact absurd (by simpa using h) hr
    · exact absurd (by simpa using h) ha
    · simpa using h

theorem split_mnv_loop_mem (begin_pos : Nat) (ref : SequenceType) :
    ∀ (i : Nat) (alt : SequenceType) (l : List Assembler.Variant),
      split_mnv_loop begin_pos i ref alt = some l →
      ∀ x ∈ l, ∃ r a, x.ref = [r] ∧ x.alt = [a] ∧ r ≠ a := by
  induction ref with
  | nil =>
    intro i alt l h x hx
    simp only [split_mnv_loop, Option.some.injEq] at h
    subst h
    simp at hx
  | cons r rs ih =>
    intro i alt l h x hx
    cases alt with
    | nil => simp [split_mnv_loop] at h
    | cons a as =>
      simp only [split_mnv_loop, Option.map_eq_some'] at h
      obtain ⟨rest, hrest, hl⟩ := h
      by_cases hra : r = a
      · rw [if_pos hra] at hl
        subst hl
        exact ih (i + 1) as rest hrest x hx
      · rw [if_neg hra] at hl
        subst hl
        rcases List.mem_cons.mp hx with rfl | hx
        · exact ⟨r, a, rfl, rfl, hra⟩
        · exact ih (i + 1) as rest hrest x hx

theorem drop_length_sub_one {α : Type} (l : List α) (a : α) (h : l.getLast? = some a) :
    l.drop (l.length - 1) = [a] := by
  obtain ⟨ys, rfl⟩ := List.getLast?_eq_some_iff.mp h
  simp

theorem split_mnv_mem (v : Assembler.Variant) (l : List Assembler.Variant)
    (h : split_mnv v = some l) :
    ∀ x ∈ l, ∃ r a, x.ref = [r] ∧ x.alt = [a]
      ∧ (r ≠ a ∨ (v.ref.head? = some r ∧ v.alt.head? = some a)
          ∨ (v.ref.getLast? = some r ∧ v.alt.getLast? = some a)) := by
  obtain ⟨begin_pos, ref, alt⟩ := v
  cases href : ref.head? with
  | none => simp [split_mnv, href] at h
  | some r0 =>
    cases halt : alt.head? with
    | none => simp [split_mnv, href, halt] at h
    | some a0 =>
      have hrne : ref ≠ [] := by intro hnil; simp [hnil] at href
      have hane : alt ≠ [] := by intro hnil; simp [hnil] at halt
      by_cases hlen : ref.length < 2
      · simp [split_mnv, href, halt, hlen] at h
      · cases hloop : split_mnv_loop begin_pos 1 ((ref.drop 1).take (ref.length - 2))
            (alt.drop 1) with
        | none =>
          simp only [split_mnv, href, halt, hlen, hloop, Option.bind_eq_bind, Option.some_bind,
            Option.none_bind, if_false, pure] at h
          exact absurd h (by simp)
        | some middle =>
          simp only [split_mnv, href, halt, hlen, hloop, Option.bind_eq_bind, Option.some_bind,
            if_false, pure, Option.some.injEq] at h
          subst h
          intro x hx
          simp only [List.cons_append, List.mem_cons, List.mem_append, List.not_mem_nil,
            or_false] at hx
          rcases hx with rfl | hx | rfl
          · exact ⟨r0, a0, rfl, rfl, Or.inr (Or.inl ⟨rfl, rfl⟩)⟩
          · obtain ⟨r, a, h1, h2, h3⟩ := split_mnv_loop_mem begin_pos _ 1 _ middle hloop x hx
            exact ⟨r, a, h1, h2, Or.inl h3⟩
          · refine ⟨ref.getLast hrne, alt.getLast hane, ?_, ?_, Or.inr (Or.inr ⟨?_, ?_⟩)⟩
            · exact drop_length_sub_one ref _ (List.getLast?_eq_getLast ref hrne)
            · exact drop_length_sub_one alt _ (List.getLast?_eq_getLast alt hane)
            · exact List.getLast?_eq_getLast ref hrne
            · exact List.getLast?_eq_getLast alt hane

theorem split_all_mem (mnvs : List Assembler.Variant) :
    ∀ l, split_all mnvs = some l →
      ∀ x, x ∈ l ↔ ∃ m ∈ mnvs, ∃ lm, split_mnv m = some lm ∧ x ∈ lm := by
  induction mnvs with
  | nil =>
    intro l h x
    simp only [split_all, Option.some.injEq] at h
    subst h
    simp
  | cons m ms ih =>
    intro l h x
    cases hm : split_mnv m with
    | none => simp [split_all, hm] at h
    | some lm =>
      cases hms : split_all ms with
      | none => simp [split_all, hm, hms] at h
      | some ls =>
        simp only [split_all, hm, hms, Option.bind_eq_bind, Option.some_bind, pure,
          Option.some.injEq] at h
        subst h
        rw [List.mem_append, ih ls hms x]
        constructor
        · rintro (hx | ⟨m', hm', lm', hlm', hx⟩)
          · exact ⟨m, List.mem_cons_self _ _, lm, hm, hx⟩
          · exact ⟨m', List.mem_cons_of_mem _ hm', lm', hlm', hx⟩
        · rintro ⟨m', hm', lm', hlm', hx⟩
          rcases List.mem_cons.mp hm' with rfl | hm'
          · rw [hm] at hlm'
            cases hlm'
            exact Or.inl hx
          · exact Or.inr ⟨m', hm', lm', hlm', hx⟩

theorem split_mnvs_mem (candidates l : List Assembler.Variant)
    (h : split_mnvs candidates = some l) (x : Assembler.Variant) :
    x ∈ l ↔ (x ∈ candidates ∧ is_mnv x = false)
      ∨ ∃ m ∈ candidates, is_mnv m = true ∧ ∃ lm, split_mnv m = some lm ∧ x ∈ lm := by
  cases hs : split_all (candidates.filter (fun candidate => !(!is_mnv candidate))) with
  | none =>
    simp only [split_mnvs, hs, Option.bind_eq_bind, Option.none_bind] at h
    exact absurd h (by simp)
  | some snps =>
    have hall := split_all_mem _ snps hs
    have hsnp : ∀ y, y ∈ std_unique (fun a b => decide (a = b)) (std_sort variant_less snps) ↔
        ∃ m ∈ candidates, is_mnv m = true ∧ ∃ lm, split_mnv m = some lm ∧ y ∈ lm := by
      intro y
      rw [mem_std_unique_iff _ (by simp), mem_std_sort, hall y]
      constructor
      · rintro ⟨m, hm, lm, hlm, hy⟩
        have hm' := List.mem_filter.mp hm
        exact ⟨m, hm'.1, by simpa using hm'.2, lm, hlm, hy⟩
      · rintro ⟨m, hm, hmnv, lm, hlm, hy⟩
        exact ⟨m, List.mem_filter.mpr ⟨hm, by simpa using hmnv⟩, lm, hlm, hy⟩
    have hnon : ∀ y, y ∈ candidates.filter (fun candidate => !is_mnv candidate) ↔
        (y ∈ candidates ∧ is_mnv y = false) := by
      intro y
      simp [List.mem_filter]
    simp only [split_mnvs, hs, Option.bind_eq_bind, Option.some_bind] at h
    split at h
    · simp only [pure, Option.some.injEq] at h
      subst h
      rw [mem_std_inplace_merge, hnon, hsnp]
    · simp only [pure, Option.some.injEq] at h
      subst h
      rw [mem_std_inplace_merge, List.mem_append, hnon, ← hsnp, or_assoc]
      constructor
      · rintro (hx | hx | hx)
        · exact Or.inl hx
        · exact Or.inr (List.mem_of_mem_take hx)
        · exact Or.inr (List.mem_of_mem_drop hx)
      · rintro (hx | hx)
        · exact Or.inl hx
        · rw [← List.take_append_drop
            (candidates.filter (fun candidate => !(!is_mnv candidate))).length
            (std_unique (fun a b => decide (a = b)) (std_sort variant_less snps))] at hx
          rcases List.mem_append.mp hx with hx | hx
          · exact Or.inr (Or.inl hx)
          · exact Or.inr (Or.inr hx)

theorem not_mnv_of_split (candidates l : List Assembler.Variant)
    (h : split_mnvs candidates = some l) :
    ∀ x ∈ l, ¬ (x.ref.length = x.alt.length ∧ 1 < x.ref.length) := by
  obtain ⟨l', hl', hx⟩ := split_mnvs_some candidates
  rw [h] at hl'
  cases hl'
  intro x hxm
  rcases hx x hxm with ⟨_, hnot⟩ | ⟨h1, _, _⟩
  · intro hmnv
    have : is_mnv x = true := by
      simp only [is_mnv, Bool.and_eq_true, decide_eq_true_eq]
      exact ⟨hmnv.2, hmnv.1⟩
    rw [hnot] at this
    exact absurd this (by simp)
  · omega

theorem trimmed_of_trim_split (reported l : List Assembler.Variant)
    (h : split_mnvs (trim_reference_all reported) = some l) :
    ∀ x ∈ l, trimmed x.ref x.alt := by
  intro x hxm
  rcases (split_mnvs_mem _ l h x).mp hxm with ⟨hmem, _⟩ | ⟨m, hm, hmnv, lm, hlm, hxl⟩
  · obtain ⟨u, _, rfl⟩ := List.mem_map.mp hmem
    exact trim_reference_trimmed u
  · obtain ⟨u, _, rfl⟩ := List.mem_map.mp hm
    have ht := trim_reference_trimmed u
    simp only [is_mnv, Bool.and_eq_true, decide_eq_true_eq] at hmnv
    have hrne : (trim_reference u).ref ≠ [] := by
      intro hnil
      have hgt := hmnv.1
      rw [hnil, List.length_nil] at hgt
      omega
    have hane : (trim_reference u).alt ≠ [] := by
      intro hnil
      have hlen := hmnv.2
      rw [hnil, List.length_nil] at hlen
      omega
    have hdiff : (trim_reference u).ref.head? ≠ (trim_reference u).alt.head?
        ∧ (trim_reference u).ref.getLast? ≠ (trim_reference u).alt.getLast? := by
      rcases ht with h1 | h1 | h1
      · exact absurd h1 hrne
      · exact absurd h1 hane
      · exact h1
    obtain ⟨r, a, hr, ha, hcase⟩ := split_mnv_mem _ lm hlm x hxl
    have hra : r ≠ a := by
      rcases hcase with h1 | ⟨h1, h2⟩ | ⟨h1, h2⟩
      · exact h1
      · intro heq
        exact hdiff.1 (by rw [h1, h2, heq])
      · intro heq
        exact hdiff.2 (by rw [h1, h2, heq])
    right; right
    rw [hr, ha]
    simp [hra]

/-- C11: for every list of assembler variants `split_mnvs` returns, and no element of what it
returns has a ref and an alt of equal length greater than 1; hence `generate_candidates` returns
no variant whose ref and alt have equal length greater than 1. -/
theorem split_mnvs_leaves_no_mnv {A : Type} (ops : AssemblerOps A) (DEBUG_MODE : Bool)
    (self : AssemblerCandidateVariantGenerator A) (region : GenomicRegion)
    (candidates : List Assembler.Variant) :
    (∃ l, split_mnvs candidates = some l
        ∧ ∀ x ∈ l, ¬ (x.ref.length = x.alt.length ∧ 1 < x.ref.length))
      ∧ ∃ after result, self.generate_candidates ops DEBUG_MODE region = some (after, result)
        ∧ ∀ v ∈ result, ¬ (v.reference_allele_sequence_.length
              = v.alternative_allele_sequence_.length
            ∧ 1 < v.reference_allele_sequence_.length) := by
  constructor
  · obtain ⟨l, hl, _⟩ := split_mnvs_some candidates
    exact ⟨l, hl, not_mnv_of_split candidates l hl⟩
  · obtain ⟨⟨after, result⟩, hr, hP, _⟩ := generate_candidates_some ops
      (fun v => ¬ (v.reference_allele_sequence_.length = v.alternative_allele_sequence_.length
        ∧ 1 < v.reference_allele_sequence_.length))
      (fun a _ vs hvs av hav => not_mnv_of_split _ vs hvs av hav)
      DEBUG_MODE self region
    exact ⟨after, result, hr, hP⟩

/-- C12: for every list of variants reported by the assembler, `trim_reference` followed by
`split_mnvs` returns, and every variant of what it returns has an empty ref, or an empty alt, or
a ref and an alt that differ in their first base and differ in their last base; so has every
variant returned by `generate_candidates`. -/
theorem trim_and_split_leave_trimmed {A : Type} (ops : AssemblerOps A) (DEBUG_MODE : Bool)
    (self : AssemblerCandidateVariantGenerator A) (region : GenomicRegion)
    (reported : List Assembler.Variant) :
    (∃ l, split_mnvs (trim_reference_all reported) = some l ∧ ∀ x ∈ l, trimmed x.ref x.alt)
      ∧ ∃ after result, self.generate_candidates ops DEBUG_MODE region = some (after, result)
        ∧ ∀ v ∈ result,
            trimmed v.reference_allele_sequence_ v.alternative_allele_sequence_ := by
  constructor
  · obtain ⟨l, hl, _⟩ := split_mnvs_some (trim_reference_all reported)
    exact ⟨l, hl, trimmed_of_trim_split reported l hl⟩
  · obtain ⟨⟨after, result⟩, hr, hP, _⟩ := generate_candidates_some ops
      (fun v => trimmed v.reference_allele_sequence_ v.alternative_allele_sequence_)
      (fun a _ vs hvs av hav => trimmed_of_trim_split _ vs hvs av hav)
      DEBUG_MODE self region
    exact ⟨after, result, hr, hP⟩

/-! ## Lemmas on the recorded calls -/

theorem default_loop_traced_fst {A : Type} (ops : AssemblerOps A) (DEBUG_MODE : Bool)
    (self : AssemblerCandidateVariantGenerator A) (region_assembled region : GenomicRegion)
    (assemblers : List A) :
    ∀ (result : List Variant) (n : Nat),
      (default_loop_traced ops DEBUG_MODE self region_assembled region assemblers result n).map
          (fun s => s.1)
        = default_loop ops DEBUG_MODE self region_assembled region assemblers result n := by
  induction assemblers with
  | nil => intro result n; rfl
  | cons assembler rest ih =>
    intro result n
    unfold default_loop_traced default_loop
    simp only []
    split
    · rfl
    · split
      · rfl
      · rename_i a1 ok result1 _
        rw [← ih result1 (if ok = true then n else if DEBUG_MODE = true then n + 1 else n)]
        simp only [Option.map_map]
        rfl

theorem fallback_loop_traced_fst {A : Type} (ops : AssemblerOps A)
    (self : AssemblerCandidateVariantGenerator A) (region_assembled region : GenomicRegion)
    (kmer_sizes : List Nat) :
    ∀ (result : List Variant),
      (fallback_loop_traced ops self region_assembled region kmer_sizes result).map
          (fun r => r.1)
        = fallback_loop ops self region_assembled region kmer_sizes result := by
  induction kmer_sizes with
  | nil => intro result; rfl
  | cons k rest ih =>
    intro result
    unfold fallback_loop_traced fallback_loop
    simp only []
    split
    · rfl
    · split
      · rfl
      · rename_i a1 ok result1 _
        split
        · rfl
        · rw [← ih result1]
          simp only [Option.map_map]
          rfl

theorem generate_candidates_traced_fst {A : Type} (ops : AssemblerOps A) (DEBUG_MODE : Bool)
    (self : AssemblerCandidateVariantGenerator A) (region : GenomicRegion) :
    (self.generate_candidates_traced ops DEBUG_MODE region).map (fun r => r.1)
      = self.generate_candidates ops DEBUG_MODE region := by
  unfold AssemblerCandidateVariantGenerator.generate_candidates_traced
    AssemblerCandidateVariantGenerator.generate_candidates
  cases hra : self.region_assembled_ with
  | none => rfl
  | some region_assembled =>
    simp only []
    rw [← default_loop_traced_fst ops DEBUG_MODE self region_assembled region
      self.assemblers_ [] 0]
    cases hd : default_loop_traced ops DEBUG_MODE self region_assembled region
        self.assemblers_ [] 0 with
    | none => rfl
    | some sev =>
      obtain ⟨s, events⟩ := sev
      simp only [Option.map_some']
      cases hret : s.returned with
      | true => simp
      | false =>
        simp only [Bool.false_eq_true, if_false]
        cases hnum : (s.num_defaults_unsuccessful == s.assemblers.length) with
        | false => simp
        | true =>
          simp only [if_true]
          rw [← fallback_loop_traced_fst ops self region_assembled region
            self.fallback_kmer_sizes_ s.result]
          cases hf : fallback_loop_traced ops self region_assembled region
              self.fallback_kmer_sizes_ s.result with
          | none => rfl
          | some rev =>
            obtain ⟨⟨result, returned⟩, fallback_events⟩ := rev
            cases returned <;> simp

theorem generate_candidates_traced_some {A : Type} (ops : AssemblerOps A) (DEBUG_MODE : Bool)
    (self : AssemblerCandidateVariantGenerator A) (region : GenomicRegion) :
    ∃ r events, self.generate_candidates_traced ops DEBUG_MODE region = some (r, events) := by
  obtain ⟨r, hr, _⟩ := generate_candidates_some ops (fun _ => True)
    (fun _ _ _ _ _ _ => trivial) DEBUG_MODE self region
  have h := generate_candidates_traced_fst ops DEBUG_MODE self region
  rw [hr] at h
  cases hrun : self.generate_candidates_traced ops DEBUG_MODE region with
  | none => rw [hrun] at h; simp at h
  | some rev => exact ⟨rev.1, rev.2, rfl⟩

theorem default_loop_traced_count {A : Type} (ops : AssemblerOps A) (DEBUG_MODE : Bool)
    (self : AssemblerCandidateVariantGenerator A) (region_assembled region : GenomicRegion)
    (assemblers : List A) :
    ∀ (result : List Variant) (n : Nat) (s : LoopState A) (events : List Event),
      default_loop_traced ops DEBUG_MODE self region_assembled region assemblers result n
          = some (s, events) →
      s.assemblers.length = assemblers.length
        ∧ s.num_defaults_unsuccessful ≤ n + assemblers.length
        ∧ ((∃ k, Event.default_assembly k true ∈ events) →
            s.num_defaults_unsuccessful < n + assemblers.length)
        ∧ (DEBUG_MODE = false → s.num_defaults_unsuccessful = n)
        ∧ (∀ k, Event.fallback_constructed k ∉ events) := by
  induction assemblers with
  | nil =>
    intro result n s events h
    simp only [default_loop_traced, Option.some.injEq, Prod.mk.injEq] at h
    obtain ⟨rfl, rfl⟩ := h
    simp
  | cons assembler rest ih =>
    intro result n s events h
    unfold default_loop_traced at h
    simp only [] at h
    split at h
    · simp only [Option.some.injEq, Prod.mk.injEq] at h
      obtain ⟨rfl, rfl⟩ := h
      simp
    · split at h
      · exact absurd h (by simp)
      · rename_i a1 ok result1 _
        simp only [Option.map_eq_some'] at h
        obtain ⟨⟨s1, events1⟩, hrest, hs⟩ := h
        simp only [Prod.mk.injEq] at hs
        obtain ⟨rfl, rfl⟩ := hs
        obtain ⟨h1, h2, h3, h4, h5⟩ := ih result1 _ s1 events1 hrest
        refine ⟨by simp [h1], ?_, ?_, ?_, ?_⟩
        · simp only [List.length_cons]
          split at h2 <;> [skip; split at h2] <;> omega
        · intro hex
          simp only [List.length_cons]
          obtain ⟨k, hk⟩ := hex
          simp only [List.mem_cons, Event.default_assembly.injEq, reduceCtorEq, false_or] at hk
          rcases hk with ⟨_, hok⟩ | hk
          · rw [← hok] at h2
            simp only [if_true] at h2
            omega
          · have := h3 ⟨k, hk⟩
            split at this <;> [skip; split at this] <;> omega
        · intro hD
          have := h4 hD
          rw [hD] at this
          simp only [Bool.false_eq_true, if_false, ite_self] at this
          exact this
        · intro k hk
          simp only [List.mem_cons, reduceCtorEq, false_or] at hk
          exact h5 k hk

theorem fallback_loop_traced_no_default {A : Type} (ops : AssemblerOps A)
    (self : AssemblerCandidateVariantGenerator A) (region_assembled region : GenomicRegion)
    (kmer_sizes : List Nat) :
    ∀ (result : List Variant) (r : List Variant × Bool) (events : List Event),
      fallback_loop_traced ops self region_assembled region kmer_sizes result
          = some (r, events) →
      ∀ k b, Event.default_assembly k b ∉ events := by
  induction kmer_sizes with
  | nil =>
    intro result r events h
    simp only [fallback_loop_traced, Option.some.injEq, Prod.mk.injEq] at h
    obtain ⟨_, rfl⟩ := h
    simp
  | cons k rest ih =>
    intro result r events h
    unfold fallback_loop_traced at h
    simp only [] at h
    split at h
    · simp only [Option.some.injEq, Prod.mk.injEq] at h
      obtain ⟨_, rfl⟩ := h
      simp
    · split at h
      · exact absurd h (by simp)
      · rename_i a1 ok result1 _
        split at h
        · simp only [Option.some.injEq, Prod.mk.injEq] at h
          obtain ⟨_, rfl⟩ := h
          simp
        · simp only [Option.map_eq_some'] at h
          obtain ⟨⟨r1, events1⟩, hrest, hs⟩ := h
          simp only [Prod.mk.injEq] at hs
          obtain ⟨_, rfl⟩ := hs
          intro k' b hk
          simp only [List.mem_cons, reduceCtorEq, false_or] at hk
          exact ih result1 r1 events1 hrest k' b hk

theorem default_loop_traced_append {A : Type} (ops : AssemblerOps A) (DEBUG_MODE : Bool)
    (self : AssemblerCandidateVariantGenerator A) (region_assembled region : GenomicRegion)
    (pre rest : List A) :
    ∀ (result : List Variant) (n : Nat) (s : LoopState A) (events : List Event),
      default_loop_traced ops DEBUG_MODE self region_assembled region pre result n
          = some (s, events) →
      s.returned = false →
      default_loop_traced ops DEBUG_MODE self region_assembled region (pre ++ rest) result n
        = (default_loop_traced ops DEBUG_MODE self region_assembled region rest s.result
            s.num_defaults_unsuccessful).map
          (fun t => ({ t.1 with assemblers := s.assemblers ++ t.1.assemblers }, events ++ t.2)) := by
  induction pre with
  | nil =>
    intro result n s events h _
    simp only [default_loop_traced, Option.some.injEq, Prod.mk.injEq] at h
    obtain ⟨rfl, rfl⟩ := h
    simp only [List.nil_append]
    cases default_loop_traced ops DEBUG_MODE self region_assembled region rest result n with
    | none => rfl
    | some t => rfl
  | cons assembler pre ih =>
    intro result n s events h hret
    unfold default_loop_traced at h
    simp only [] at h
    split at h
    · simp only [Option.some.injEq, Prod.mk.injEq] at h
      obtain ⟨rfl, _⟩ := h
      simp at hret
    · rename_i hns
      split at h
      · exact absurd h (by simp)
      · rename_i a1 ok result1 htry
        simp only [Option.map_eq_some'] at h
        obtain ⟨⟨s1, events1⟩, hrest, hs⟩ := h
        simp only [Prod.mk.injEq] at hs
        obtain ⟨rfl, rfl⟩ := hs
        have hih := ih result1 _ s1 events1 hrest hret
        rw [List.cons_append]
        conv_lhs => unfold default_loop_traced
        simp only [hns, htry, if_false, Bool.false_eq_true]
        rw [hih]
        cases default_loop_traced ops DEBUG_MODE self region_assembled region rest s1.result
            s1.num_defaults_unsuccessful with
        | none => rfl
        | some t => rfl

/-! ## The fallback loop and the early return: claims -/

/-- C13: with the one default k-mer size 4, whose assembler fails, and fallback assemblers that
succeed, `generate_candidates` with `DEBUG_MODE` off fetches the reference for `k = 4`, runs the
default assembler and returns the empty vector without constructing a fallback assembler; with
`DEBUG_MODE` on it goes on to the fallback k-mer size 14 and returns the two variants. -/
theorem fallback_needs_debug_mode :
    exampleRun (pruningOps twoSnvs 10) exampleReference false [4]
        = some ([], [Event.get_sequence ⟨"1", 96, 114⟩, Event.default_assembly 4 false])
      ∧ exampleRun (pruningOps twoSnvs 10) exampleReference true [4]
        = some ([Variant.make "1" 104 ['A'] ['G'], Variant.make "1" 107 ['T'] ['C']],
            [Event.get_sequence ⟨"1", 96, 114⟩, Event.default_assembly 4 false,
              Event.get_sequence ⟨"1", 86, 124⟩, Event.fallback_constructed 14,
              Event.fallback_assembly 14 true]) := by
  constructor
  · decide
  · decide

theorem generate_candidates_traced_events {A : Type} (ops : AssemblerOps A)
    (DEBUG_MODE : Bool) (self : AssemblerCandidateVariantGenerator A)
    (region region_assembled : GenomicRegion) (s : LoopState A) (ev : List Event)
    (r : AssemblerCandidateVariantGenerator A × List Variant) (events : List Event)
    (hra : self.region_assembled_ = some region_assembled)
    (hloop : default_loop_traced ops DEBUG_MODE self region_assembled region self.assemblers_
      [] 0 = some (s, ev))
    (hrun : self.generate_candidates_traced ops DEBUG_MODE region = some (r, events)) :
    events = ev
      ∨ (s.returned = false ∧ s.num_defaults_unsuccessful = s.assemblers.length
          ∧ ∃ rf fallback_events,
              fallback_loop_traced ops self region_assembled region self.fallback_kmer_sizes_
                  s.result = some (rf, fallback_events)
                ∧ events = ev ++ fallback_events) := by
  unfold AssemblerCandidateVariantGenerator.generate_candidates_traced at hrun
  simp only [hra, hloop] at hrun
  cases hret : s.returned with
  | true =>
    simp only [hret, if_true, Option.some.injEq, Prod.mk.injEq] at hrun
    exact Or.inl hrun.2.symm
  | false =>
    simp only [hret, Bool.false_eq_true, if_false] at hrun
    cases hnum : (s.num_defaults_unsuccessful == s.assemblers.length) with
    | false =>
      simp only [hnum, Bool.false_eq_true, if_false, Option.some.injEq, Prod.mk.injEq] at hrun
      exact Or.inl hrun.2.symm
    | true =>
      simp only [hnum, if_true] at hrun
      cases hfall : fallback_loop_traced ops self region_assembled region
          self.fallback_kmer_sizes_ s.result with
      | none =>
        simp only [hfall] at hrun
        exact absurd hrun (by simp)
      | some rev =>
        obtain ⟨⟨result, returned⟩, fallback_events⟩ := rev
        simp only [hfall] at hrun
        refine Or.inr ⟨rfl, by simpa using hnum, (result, returned), fallback_events, rfl, ?_⟩
        cases returned with
        | true =>
          simp only [if_true, Option.some.injEq, Prod.mk.injEq] at hrun
          exact hrun.2.symm
        | false =>
          simp only [Bool.false_eq_true, if_false, Option.some.injEq, Prod.mk.injEq] at hrun
          exact hrun.2.symm

theorem generate_candidates_traced_loop {A : Type} (ops : AssemblerOps A)
    (DEBUG_MODE : Bool) (self : AssemblerCandidateVariantGenerator A)
    (region : GenomicRegion) (r : AssemblerCandidateVariantGenerator A × List Variant)
    (events : List Event)
    (hrun : self.generate_candidates_traced ops DEBUG_MODE region = some (r, events)) :
    (self.region_assembled_ = none ∧ events = [])
      ∨ ∃ region_assembled s ev, self.region_assembled_ = some region_assembled
          ∧ default_loop_traced ops DEBUG_MODE self region_assembled region self.assemblers_
              [] 0 = some (s, ev) := by
  cases hra : self.region_assembled_ with
  | none =>
    unfold AssemblerCandidateVariantGenerator.generate_candidates_traced at hrun
    simp only [hra, Option.some.injEq, Prod.mk.injEq] at hrun
    exact Or.inl ⟨rfl, hrun.2.symm⟩
  | some region_assembled =>
    cases hloop : default_loop_traced ops DEBUG_MODE self region_assembled region
        self.assemblers_ [] 0 with
    | none =>
      unfold AssemblerCandidateVariantGenerator.generate_candidates_traced at hrun
      simp only [hra, hloop] at hrun
      exact absurd hrun (by simp)
    | some sev => exact Or.inr ⟨region_assembled, sev.1, sev.2, rfl, hloop⟩

theorem no_fallback_without_debug_mode {A : Type} (ops : AssemblerOps A)
    (self : AssemblerCandidateVariantGenerator A) (region : GenomicRegion)
    (hne : self.assemblers_ ≠ []) :
    ∃ r events, self.generate_candidates_traced ops false region = some (r, events)
      ∧ ∀ k, Event.fallback_constructed k ∉ events := by
  obtain ⟨r, events, hrun⟩ := generate_candidates_traced_some ops false self region
  refine ⟨r, events, hrun, ?_⟩
  rcases generate_candidates_traced_loop ops false self region r events hrun with
    ⟨_, rfl⟩ | ⟨region_assembled, s, ev, hra, hloop⟩
  · simp
  · obtain ⟨h1, _, _, h4, h5⟩ := default_loop_traced_count ops false self region_assembled
      region self.assemblers_ [] 0 s ev hloop
    rcases generate_candidates_traced_events ops false self region region_assembled s ev r
      events hra hloop hrun with rfl | ⟨_, hnum, _⟩
    · exact h5
    · have hpos : 0 < self.assemblers_.length := List.length_pos.mpr hne
      have := h4 rfl
      omega

/-- C14: `generate_candidates` returns, and when `try_assemble_region` has succeeded for a
default assembler during the call, no fallback assembler has been constructed in the call. -/
theorem no_fallback_after_default_success {A : Type} (ops : AssemblerOps A)
    (DEBUG_MODE : Bool) (self : AssemblerCandidateVariantGenerator A) (region : GenomicRegion) :
    ∃ r events, self.generate_candidates_traced ops DEBUG_MODE region = some (r, events)
      ∧ ((∃ k, Event.default_assembly k true ∈ events) →
          ∀ k, Event.fallback_constructed k ∉ events) := by
  obtain ⟨r, events, hrun⟩ := generate_candidates_traced_some ops DEBUG_MODE self region
  refine ⟨r, events, hrun, ?_⟩
  intro hsuccess
  rcases generate_candidates_traced_loop ops DEBUG_MODE self region r events hrun with
    ⟨_, rfl⟩ | ⟨region_assembled, s, ev, hra, hloop⟩
  · simp
  · obtain ⟨h1, _, h3, _, h5⟩ := default_loop_traced_count ops DEBUG_MODE self region_assembled
      region self.assemblers_ [] 0 s ev hloop
    rcases generate_candidates_traced_events ops DEBUG_MODE self region region_assembled s ev r
      events hra hloop hrun with rfl | ⟨_, hnum, rf, fallback_events, hfall, rfl⟩
    · exact h5
    · exfalso
      obtain ⟨k, hk⟩ := hsuccess
      rcases List.mem_append.mp hk with hk | hk
      · have hlt := h3 ⟨k, hk⟩
        omega
      · exact fallback_loop_traced_no_default ops self region_assembled region _ _ rf
          fallback_events hfall k true hk

/-- C14, at the generator of the examples, whose default assembler of k-mer size 4 succeeds. -/
theorem no_fallback_after_default_success_witness :
    ∃ r events,
      (exampleGenerator 100).generate_candidates_traced (exampleOps twoSnvs) true exampleRegion
          = some (r, events)
        ∧ Event.default_assembly 4 true ∈ events
        ∧ ∀ k, Event.fallback_constructed k ∉ events := by
  obtain ⟨r, events, hrun, hno⟩ := no_fallback_after_default_success (exampleOps twoSnvs) true
    (exampleGenerator 100) exampleRegion
  have hmem : Event.default_assembly 4 true ∈ events := by
    have hev : ((exampleGenerator 100).generate_candidates_traced (exampleOps twoSnvs) true
        exampleRegion).map (fun r => r.2)
        = some [Event.get_sequence ⟨"1", 96, 114⟩, Event.default_assembly 4 true] := by decide
    rw [hrun] at hev
    simp only [Option.map_some', Option.some.injEq] at hev
    rw [hev]
    simp
  exact ⟨r, events, hrun, hmem, hno ⟨4, hmem⟩⟩

/-- C15: when the default assemblers before the i-th have been walked without a reference
sequence that contains `N`, leaving `result` as `s.result`, and the reference sequence fetched
for the i-th contains `N`, `generate_candidates` returns the variants of `s.result` that overlap
`region`; the fetch of that reference sequence is its last call, and the i-th and the later
default assemblers are left as they were. -/
theorem stops_at_reference_with_n {A : Type} (ops : AssemblerOps A) (DEBUG_MODE : Bool)
    (self : AssemblerCandidateVariantGenerator A) (region region_assembled : GenomicRegion)
    (pre post : List A) (assembler : A) (s : LoopState A) (events : List Event)
    (hra : self.region_assembled_ = some region_assembled)
    (hsplit : self.assemblers_ = pre ++ assembler :: post)
    (hpre : default_loop_traced ops DEBUG_MODE self region_assembled region pre [] 0
      = some (s, events))
    (hnot : s.returned = false)
    (hN : has_ns (self.reference_ (expand region_assembled (ops.kmer_size assembler))) = true) :
    self.generate_candidates_traced ops DEBUG_MODE region
      = some (({ self with assemblers_ := s.assemblers ++ assembler :: post },
            remove_nonoverlapping s.result region),
          events ++ [Event.get_sequence (expand region_assembled (ops.kmer_size assembler))]) := by
  have happ := default_loop_traced_append ops DEBUG_MODE self region_assembled region pre
    (assembler :: post) [] 0 s events hpre hnot
  have hstep : default_loop_traced ops DEBUG_MODE self region_assembled region
      (assembler :: post) s.result s.num_defaults_unsuccessful
      = some (⟨assembler :: post,
          if !s.result.isEmpty then remove_nonoverlapping s.result region else s.result,
          s.num_defaults_unsuccessful, true⟩,
        [Event.get_sequence (expand region_assembled (ops.kmer_size assembler))]) := by
    unfold default_loop_traced
    simp only [hN, if_true]
  have hres : (if !s.result.isEmpty then remove_nonoverlapping s.result region else s.result)
      = remove_nonoverlapping s.result region := by
    cases hs : s.result with
    | nil => rfl
    | cons v vs => rfl
  rw [hstep, hres] at happ
  unfold AssemblerCandidateVariantGenerator.generate_candidates_traced
  simp only [hra, hsplit, happ, Option.map_some', if_true]

/-- C15, at the generator of the examples with the default k-mer sizes 4 and 5 over a reference
with an `N` at position 95, which the region expanded by 5 reaches and the region expanded by 4
does not: the two variants of `k = 4` are returned, and nothing is run for `k = 5`. -/
theorem stops_at_reference_with_n_witness :
    (exampleGeneratorWithN.generate_candidates_traced (exampleOps twoSnvs) false
        exampleRegion).map (fun r => (r.1.1.assemblers_, r.1.2, r.2))
      = some ([4, 5], [Variant.make "1" 104 ['A'] ['G'], Variant.make "1" 107 ['T'] ['C']],
          [Event.get_sequence ⟨"1", 96, 114⟩, Event.default_assembly 4 true,
            Event.get_sequence ⟨"1", 95, 115⟩]) := by
  rw [stops_at_reference_with_n (exampleOps twoSnvs) false exampleGeneratorWithN exampleRegion
    exampleRegion [4] [] 5
    ⟨[4], [Variant.make "1" 104 ['A'] ['G'], Variant.make "1" 107 ['T'] ['C']], 0, false⟩
    [Event.get_sequence ⟨"1", 96, 114⟩, Event.default_assembly 4 true]
    rfl rfl (by rfl) rfl (by decide)]
  decide

/-! ## Two calls in a row -/

/-- C16, as stated, fails: on a generator with the default k-mer size 4 that `add_read` was
called on once, over an assembler that reports two variants while it holds a read and that
`clear` empties, the first call returns the two variants and the second call, run on the
assembler that the first call cleared, returns the empty vector. -/
theorem generate_candidates_twice_differs :
    ¬ ∀ first second, exampleTwoCalls false = some (first, second) → first = second := by
  intro h
  have hval : exampleTwoCalls false
      = some ([Variant.make "1" 104 ['A'] ['G'], Variant.make "1" 107 ['T'] ['C']], []) := by
    decide
  have := h _ _ hval
  simp at this

theorem try_assemble_region_related {A : Type} (ops : AssemblerOps A) (E : A → A → Prop)
    (hE : Restoring ops E) (a b : A) (hab : E a b) (min_supporting_reads : Nat)
    (r rs : SequenceType) (reference_region : GenomicRegion) (result : List Variant) :
    (try_assemble_region ops min_supporting_reads (ops.insert_reference a r) rs
        reference_region result).map (fun x => x.2)
      = (try_assemble_region ops min_supporting_reads (ops.insert_reference b r) rs
        reference_region result).map (fun x => x.2) := by
  unfold try_assemble_region
  simp only [hE.prune a b r min_supporting_reads hab,
    hE.extract_variants a b r min_supporting_reads hab]
  split
  · rfl
  · simp only [Option.map_map]
    rfl

theorem try_assemble_region_restores {A : Type} (ops : AssemblerOps A) (E : A → A → Prop)
    (hE : Restoring ops E) (a : A) (min_supporting_reads : Nat) (r rs : SequenceType)
    (reference_region : GenomicRegion) (result : List Variant) (out : A × Bool × List Variant)
    (h : try_assemble_region ops min_supporting_reads (ops.insert_reference a r) rs
        reference_region result = some out) : E out.1 a := by
  unfold try_assemble_region at h
  simp only [] at h
  split at h
  · simp only [Option.some.injEq] at h
    rw [← h]
    exact hE.after_failure a r min_supporting_reads
  · cases hs : split_mnvs (trim_reference_all (ops.extract_variants (ops.prune
        (ops.remove_trivial_nonreference_cycles (ops.insert_reference a r))
        min_supporting_reads).1).2) with
    | none => rw [hs] at h; simp at h
    | some vs =>
      rw [hs] at h
      simp only [Option.map_some', Option.some.injEq] at h
      rw [← h]
      exact hE.after_clear a r min_supporting_reads

theorem default_loop_related {A : Type} (ops : AssemblerOps A) (E : A → A → Prop)
    (hE : Restoring ops E) (DEBUG_MODE : Bool)
    (self other : AssemblerCandidateVariantGenerator A)
    (href : other.reference_ = self.reference_)
    (hmin : other.min_supporting_reads_ = self.min_supporting_reads_)
    (region_assembled region : GenomicRegion) (as bs : List A) (h : List.Forall₂ E as bs) :
    ∀ (result : List Variant) (n : Nat),
      (default_loop ops DEBUG_MODE other region_assembled region as result n).map
          (fun s => (s.result, s.num_defaults_unsuccessful, s.returned))
        = (default_loop ops DEBUG_MODE self region_assembled region bs result n).map
          (fun s => (s.result, s.num_defaults_unsuccessful, s.returned)) := by
  induction h with
  | nil => intro result n; rfl
  | @cons a b as bs hab _ ih =>
    intro result n
    unfold default_loop
    simp only [href, hmin, hE.kmer_size a b hab]
    split
    · rfl
    · have hrel := try_assemble_region_related ops E hE a b hab self.min_supporting_reads_
        (self.reference_ (expand region_assembled (ops.kmer_size b)))
        (self.reference_ (expand region_assembled (ops.kmer_size b)))
        (expand region_assembled (ops.kmer_size b)) result
      cases ha : try_assemble_region ops self.min_supporting_reads_
          (ops.insert_reference a (self.reference_ (expand region_assembled (ops.kmer_size b))))
          (self.reference_ (expand region_assembled (ops.kmer_size b)))
          (expand region_assembled (ops.kmer_size b)) result with
      | none =>
        rw [ha] at hrel
        cases hb : try_assemble_region ops self.min_supporting_reads_
            (ops.insert_reference b (self.reference_ (expand region_assembled (ops.kmer_size b))))
            (self.reference_ (expand region_assembled (ops.kmer_size b)))
            (expand region_assembled (ops.kmer_size b)) result with
        | none => rfl
        | some y => rw [hb] at hrel; simp at hrel
      | some x =>
        rw [ha] at hrel
        cases hb : try_assemble_region ops self.min_supporting_reads_
            (ops.insert_reference b (self.reference_ (expand region_assembled (ops.kmer_size b))))
            (self.reference_ (expand region_assembled (ops.kmer_size b)))
            (expand region_assembled (ops.kmer_size b)) result with
        | none => rw [hb] at hrel; simp at hrel
        | some y =>
          rw [hb] at hrel
          obtain ⟨a1, ok1, res1⟩ := x
          obtain ⟨b1, ok2, res2⟩ := y
          simp only [Option.map_some', Option.some.injEq, Prod.mk.injEq] at hrel
          obtain ⟨rfl, rfl⟩ := hrel
          simp only [Option.map_map]
          exact ih res1 _

theorem default_loop_restores {A : Type} (ops : AssemblerOps A) (E : A → A → Prop)
    (hE : Restoring ops E) (DEBUG_MODE : Bool) (self : AssemblerCandidateVariantGenerator A)
    (region_assembled region : GenomicRegion) (as : List A) :
    ∀ (result : List Variant) (n : Nat) (s : LoopState A),
      default_loop ops DEBUG_MODE self region_assembled region as result n = some s →
      List.Forall₂ E s.assemblers as := by
  induction as with
  | nil =>
    intro result n s h
    simp only [default_loop, Option.some.injEq] at h
    rw [← h]
    exact List.Forall₂.nil
  | cons a rest ih =>
    intro result n s h
    unfold default_loop at h
    simp only [] at h
    split at h
    · simp only [Option.some.injEq] at h
      rw [← h]
      exact List.forall₂_same.mpr (fun x _ => hE.same x)
    · split at h
      · simp at h
      · rename_i a1 ok res1 htry
        have hrest := try_assemble_region_restores ops E hE a _ _ _ _ _ _ htry
        cases hloop : default_loop ops DEBUG_MODE self region_assembled region rest res1
            (if ok = true then n else if DEBUG_MODE = true then n + 1 else n) with
        | none => rw [hloop] at h; simp at h
        | some s1 =>
          rw [hloop] at h
          simp only [Option.map_some', Option.some.injEq] at h
          rw [← h]
          exact List.Forall₂.cons hrest (ih _ _ _ hloop)

theorem fallback_loop_same_fields {A : Type} (ops : AssemblerOps A)
    (self other : AssemblerCandidateVariantGenerator A)
    (href : other.reference_ = self.reference_)
    (hmin : other.min_supporting_reads_ = self.min_supporting_reads_)
    (hbuf : other.sequence_buffer_ = self.sequence_buffer_)
    (region_assembled region : GenomicRegion) (kmer_sizes : List Nat) :
    ∀ result : List Variant,
      fallback_loop ops other region_assembled region kmer_sizes result
        = fallback_loop ops self region_assembled region kmer_sizes result := by
  induction kmer_sizes with
  | nil => intro result; rfl
  | cons k rest ih =>
    intro result
    unfold fallback_loop
    simp only [href, hmin, hbuf, ih]

theorem generate_candidates_after {A : Type} (ops : AssemblerOps A) (DEBUG_MODE : Bool)
    (self after : AssemblerCandidateVariantGenerator A) (region : GenomicRegion)
    (result : List Variant)
    (hr : self.generate_candidates ops DEBUG_MODE region = some (after, result)) :
    (after = self ∧ self.region_assembled_ = none)
      ∨ ∃ region_assembled s, self.region_assembled_ = some region_assembled
        ∧ default_loop ops DEBUG_MODE self region_assembled region self.assemblers_ [] 0 = some s
        ∧ after = { self with assemblers_ := s.assemblers } := by
  unfold AssemblerCandidateVariantGenerator.generate_candidates at hr
  rcases hopt : self.region_assembled_ with _ | region_assembled
  · simp only [hopt, Option.some.injEq, Prod.mk.injEq] at hr
    exact Or.inl ⟨hr.1.symm, rfl⟩
  · right
    simp only [hopt] at hr
    cases hloop : default_loop ops DEBUG_MODE self region_assembled region self.assemblers_
        [] 0 with
    | none =>
      simp only [hloop] at hr
      exact absurd hr (by simp)
    | some s =>
      refine ⟨region_assembled, s, rfl, hloop, ?_⟩
      simp only [hloop] at hr
      cases hret : s.returned with
      | true =>
        simp only [hret, if_true, Option.some.injEq, Prod.mk.injEq] at hr
        exact hr.1.symm
      | false =>
        simp only [hret, Bool.false_eq_true, if_false] at hr
        cases hnum : (s.num_defaults_unsuccessful == s.assemblers.length) with
        | false =>
          simp only [hnum, Bool.false_eq_true, if_false, Option.some.injEq,
            Prod.mk.injEq] at hr
          exact hr.1.symm
        | true =>
          simp only [hnum, if_true] at hr
          cases hfall : fallback_loop ops self region_assembled region
              self.fallback_kmer_sizes_ s.result with
          | none =>
            simp only [hfall] at hr
            exact absurd hr (by simp)
          | some rf =>
            obtain ⟨result1, returned⟩ := rf
            simp only [hfall] at hr
            cases returned with
            | true =>
              simp only [if_true, Option.some.injEq, Prod.mk.injEq] at hr
              exact hr.1.symm
            | false =>
              simp only [Bool.false_eq_true, if_false, Option.some.injEq,
                Prod.mk.injEq] at hr
              exact hr.1.symm

theorem generate_candidates_related {A : Type} (ops : AssemblerOps A) (E : A → A → Prop)
    (hE : Restoring ops E) (DEBUG_MODE : Bool)
    (self other : AssemblerCandidateVariantGenerator A) (region : GenomicRegion)
    (href : other.reference_ = self.reference_)
    (hmin : other.min_supporting_reads_ = self.min_supporting_reads_)
    (hbuf : other.sequence_buffer_ = self.sequence_buffer_)
    (hfb : other.fallback_kmer_sizes_ = self.fallback_kmer_sizes_)
    (hra : other.region_assembled_ = self.region_assembled_)
    (hasm : List.Forall₂ E other.assemblers_ self.assemblers_) :
    (other.generate_candidates ops DEBUG_MODE region).map (fun r => r.2)
      = (self.generate_candidates ops DEBUG_MODE region).map (fun r => r.2) := by
  unfold AssemblerCandidateVariantGenerator.generate_candidates
  rw [hra, hfb]
  cases self.region_assembled_ with
  | none => rfl
  | some region_assembled =>
    simp only []
    have hrel := default_loop_related ops E hE DEBUG_MODE self other href hmin
      region_assembled region other.assemblers_ self.assemblers_ hasm [] 0
    cases ho : default_loop ops DEBUG_MODE other region_assembled region other.assemblers_
        [] 0 with
    | none =>
      rw [ho] at hrel
      cases hs : default_loop ops DEBUG_MODE self region_assembled region self.assemblers_
          [] 0 with
      | none => rfl
      | some s => rw [hs] at hrel; simp at hrel
    | some so =>
      rw [ho] at hrel
      cases hs : default_loop ops DEBUG_MODE self region_assembled region self.assemblers_
          [] 0 with
      | none => rw [hs] at hrel; simp at hrel
      | some s =>
        rw [hs] at hrel
        simp only [Option.map_some', Option.some.injEq, Prod.mk.injEq] at hrel
        obtain ⟨hres, hnum, hret⟩ := hrel
        have h1 := (default_loop_restores ops E hE DEBUG_MODE other region_assembled region
          other.assemblers_ [] 0 so ho).length_eq
        have h2 := (default_loop_restores ops E hE DEBUG_MODE self region_assembled region
          self.assemblers_ [] 0 s hs).length_eq
        have hlen : so.assemblers.length = s.assemblers.length := by
          rw [h1, h2, hasm.length_eq]
        simp only [hres, hnum, hret, hlen,
          fallback_loop_same_fields ops self other href hmin hbuf region_assembled region]
        cases s.returned with
        | true => rfl
        | false =>
          simp only [Bool.false_eq_true, if_false]
          cases (s.num_defaults_unsuccessful == s.assemblers.length) with
          | false => rfl
          | true =>
            simp only [if_true]
            cases fallback_loop ops self region_assembled region self.fallback_kmer_sizes_
                s.result with
            | none => rfl
            | some rf =>
              obtain ⟨result1, returned⟩ := rf
              cases returned <;> rfl

theorem generate_candidates_second_call {A : Type} (ops : AssemblerOps A) (E : A → A → Prop)
    (hE : Restoring ops E) (DEBUG_MODE : Bool) (self : AssemblerCandidateVariantGenerator A)
    (region : GenomicRegion) :
    ∃ after result after2,
      self.generate_candidates ops DEBUG_MODE region = some (after, result)
        ∧ after = { self with assemblers_ := after.assemblers_ }
        ∧ List.Forall₂ E after.assemblers_ self.assemblers_
        ∧ after.generate_candidates ops DEBUG_MODE region = some (after2, result) := by
  obtain ⟨⟨after, result⟩, hr, _⟩ := generate_candidates_some ops (fun _ => True)
    (fun _ _ _ _ _ _ => trivial) DEBUG_MODE self region
  obtain ⟨⟨after2, result2⟩, hr2, _⟩ := generate_candidates_some ops (fun _ => True)
    (fun _ _ _ _ _ _ => trivial) DEBUG_MODE after region
  have hframe : after = { self with assemblers_ := after.assemblers_ }
      ∧ List.Forall₂ E after.assemblers_ self.assemblers_ := by
    rcases generate_candidates_after ops DEBUG_MODE self after region result hr with
      ⟨h, _⟩ | ⟨region_assembled, s, _, hloop, h⟩
    · rw [h]
      exact ⟨rfl, List.forall₂_same.mpr (fun x _ => hE.same x)⟩
    · rw [h]
      exact ⟨rfl, default_loop_restores ops E hE DEBUG_MODE self region_assembled region
        self.assemblers_ [] 0 s hloop⟩
  have hrel := generate_candidates_related ops E hE DEBUG_MODE self after region
    (by rw [hframe.1]) (by rw [hframe.1]) (by rw [hframe.1]) (by rw [hframe.1])
    (by rw [hframe.1]) hframe.2
  rw [hr, hr2] at hrel
  simp only [Option.map_some', Option.some.injEq] at hrel
  subst hrel
  exact ⟨after, result2, after2, hr, hframe.1, hframe.2, hr2⟩

theorem restoringOps_restoring (reported : Nat → List Assembler.Variant) :
    Restoring (restoringOps reported) (fun a b => a.1 = b.1 ∧ a.2.1 = b.2.1) where
  same := fun _ => ⟨rfl, rfl⟩
  kmer_size := fun _ _ h => h.1
  prune := fun a b _ n h => by
    simp only [restoringOps, h.2]
  extract_variants := fun a b _ _ h => by
    simp only [restoringOps, h.1, h.2]
  after_failure := fun _ _ _ => ⟨rfl, rfl⟩
  after_clear := fun _ _ _ => ⟨rfl, rfl⟩

/-- C16, amended: `generate_candidates` returns and changes nothing of the generator but the
default assemblers, and when the assemblers restore themselves, each default assembler behaving
after the call as before it (`Restoring`), a second call in a row, run on the assemblers the
first call left, returns the same vector. -/
theorem generate_candidates_twice_restoring {A : Type} (ops : AssemblerOps A)
    (E : A → A → Prop) (hE : Restoring ops E) (DEBUG_MODE : Bool)
    (self : AssemblerCandidateVariantGenerator A) (region : GenomicRegion) :
    ∃ after result after2,
      self.generate_candidates ops DEBUG_MODE region = some (after, result)
        ∧ after = { self with assemblers_ := after.assemblers_ }
        ∧ List.Forall₂ E after.assemblers_ self.assemblers_
        ∧ after.generate_candidates ops DEBUG_MODE region = some (after2, result) :=
  generate_candidates_second_call ops E hE DEBUG_MODE self region

/-- C16, amended, at the generator of the examples over an assembler that counts the reference
sequences inserted and keeps its reads on `clear()`: the first call changes the default assembler
from `(4, 3, 0)` to `(4, 3, 1)`, and both calls return the two variants. -/
theorem generate_candidates_twice_restoring_witness :
    ∃ after after2,
      restoringGenerator.generate_candidates (restoringOps twoSnvs) false exampleRegion
          = some (after, [Variant.make "1" 104 ['A'] ['G'], Variant.make "1" 107 ['T'] ['C']])
        ∧ restoringGenerator.assemblers_ = [(4, 3, 0)]
        ∧ after.assemblers_ = [(4, 3, 1)]
        ∧ after.generate_candidates (restoringOps twoSnvs) false exampleRegion
          = some (after2, [Variant.make "1" 104 ['A'] ['G'], Variant.make "1" 107 ['T'] ['C']]) := by
  obtain ⟨after, result, after2, h1, _, _, h2⟩ := generate_candidates_twice_restoring
    (restoringOps twoSnvs) (fun a b => a.1 = b.1 ∧ a.2.1 = b.2.1)
    (restoringOps_restoring twoSnvs) false restoringGenerator exampleRegion
  have hval : (restoringGenerator.generate_candidates (restoringOps twoSnvs) false
      exampleRegion).map (fun r => (r.1.assemblers_, r.2))
      = some ([(4, 3, 1)],
          [Variant.make "1" 104 ['A'] ['G'], Variant.make "1" 107 ['T'] ['C']]) := by
    decide
  rw [h1] at hval
  simp only [Option.map_some', Option.some.injEq, Prod.mk.injEq] at hval
  obtain ⟨hasm, hres⟩ := hval
  subst hres
  exact ⟨after, after2, h1, rfl, hasm, h2⟩

/-! ## The constructor -/

theorem sorted_insert_sorted (x : Nat) (l : List Nat) (h : l.Pairwise (fun a b => a ≤ b)) :
    (sorted_insert (fun a b => decide (a < b)) x l).Pairwise (fun a b => a ≤ b) := by
  induction l with
  | nil => simp [sorted_insert]
  | cons y ys ih =>
    have hy := List.pairwise_cons.mp h
    unfold sorted_insert
    by_cases hxy : x < y
    · simp only [hxy, decide_True, if_true]
      refine List.pairwise_cons.mpr ⟨?_, h⟩
      intro z hz
      rcases List.mem_cons.mp hz with rfl | hz
      · omega
      · have := hy.1 z hz
        omega
    · simp only [hxy, decide_False, Bool.false_eq_true, if_false]
      refine List.pairwise_cons.mpr ⟨?_, ih hy.2⟩
      intro z hz
      rcases (mem_sorted_insert _ x z ys).mp hz with rfl | hz
      · omega
      · exact hy.1 z hz

theorem std_sort_sorted (l : List Nat) :
    (std_sort (fun a b => decide (a < b)) l).Pairwise (fun a b => a ≤ b) := by
  induction l with
  | nil => simp [std_sort]
  | cons x xs ih => exact sorted_insert_sorted x _ ih

theorem unique_from_strict (l : List Nat) :
    ∀ a, (a :: l).Pairwise (fun a b => a ≤ b) →
      (a :: unique_from (fun a b => a == b) a l).Pairwise (fun a b => a < b) := by
  induction l with
  | nil => intro a _; simp [unique_from]
  | cons b bs ih =>
    intro a h
    have ha := List.pairwise_cons.mp h
    have hb := List.pairwise_cons.mp ha.2
    unfold unique_from
    by_cases hab : a = b
    · subst hab
      simp only [beq_self_eq_true, if_true]
      exact ih a (List.pairwise_cons.mpr ⟨fun z hz => ha.1 z (List.mem_cons_of_mem _ hz), hb.2⟩)
    · have hne : (a == b) = false := by simpa using hab
      simp only [hne, Bool.false_eq_true, if_false]
      have hlt : a < b := by
        have := ha.1 b (List.mem_cons_self _ _)
        omega
      have hrest := ih b ha.2
      refine List.pairwise_cons.mpr ⟨?_, hrest⟩
      intro z hz
      rcases List.mem_cons.mp hz with rfl | hz
      · exact hlt
      · have := (List.pairwise_cons.mp hrest).1 z hz
        omega

theorem std_unique_strict (l : List Nat) (h : l.Pairwise (fun a b => a ≤ b)) :
    (std_unique (fun a b => a == b) l).Pairwise (fun a b => a < b) := by
  cases l with
  | nil => simp [std_unique]
  | cons a as => exact unique_from_strict as a h

/-- C20: for every list `ks` given to the constructor, over an assembler whose `kmer_size()` is
the `k` it was made with, the stored default k-mer sizes are strictly increasing and have the
values of `ks`, and the k-mer sizes of the assemblers, in order, are the stored sizes, one
assembler for each. -/
theorem constructor_default_kmer_sizes {A : Type} (ops : AssemblerOps A)
    (reference : GenomicRegion → SequenceType) (ks : List Nat)
    (min_base_quality min_supporting_reads max_variant_size : Nat)
    (hkmer : ∀ k, ops.kmer_size (ops.make k) = k) :
    (AssemblerCandidateVariantGenerator.make ops reference ks min_base_quality
        min_supporting_reads max_variant_size).default_kmer_sizes_.Pairwise (fun a b => a < b)
      ∧ (∀ k, k ∈ (AssemblerCandidateVariantGenerator.make ops reference ks min_base_quality
          min_supporting_reads max_variant_size).default_kmer_sizes_ ↔ k ∈ ks)
      ∧ (AssemblerCandidateVariantGenerator.make ops reference ks min_base_quality
          min_supporting_reads max_variant_size).assemblers_.length
        = (AssemblerCandidateVariantGenerator.make ops reference ks min_base_quality
          min_supporting_reads max_variant_size).default_kmer_sizes_.length
      ∧ (AssemblerCandidateVariantGenerator.make ops reference ks min_base_quality
          min_supporting_reads max_variant_size).assemblers_.map ops.kmer_size
        = (AssemblerCandidateVariantGenerator.make ops reference ks min_base_quality
          min_supporting_reads max_variant_size).default_kmer_sizes_ := by
  cases ks with
  | nil => simp [AssemblerCandidateVariantGenerator.make]
  | cons k0 rest =>
    simp only [AssemblerCandidateVariantGenerator.make, List.isEmpty_cons, Bool.false_eq_true,
      if_false]
    refine ⟨std_unique_strict _ (std_sort_sorted _), ?_, by simp, ?_⟩
    · intro k
      rw [mem_std_unique_iff _ (by simp), mem_std_sort]
    · rw [List.map_map]
      have hfun : (ops.kmer_size ∘ ops.make) = id := by
        funext k
        exact hkmer k
      rw [hfun, List.map_id]

/-- C20, at the list `[5, 4, 5]` over the assembler of the examples: the stored sizes are
`[4, 5]`, as are the k-mer sizes of the two assemblers. -/
theorem constructor_default_kmer_sizes_witness :
    (AssemblerCandidateVariantGenerator.make (exampleOps twoSnvs) exampleReference [5, 4, 5]
        20 3 100).default_kmer_sizes_ = [4, 5]
      ∧ (AssemblerCandidateVariantGenerator.make (exampleOps twoSnvs) exampleReference [5, 4, 5]
        20 3 100).assemblers_.map (exampleOps twoSnvs).kmer_size = [4, 5] := by
  have h := constructor_default_kmer_sizes (exampleOps twoSnvs) exampleReference [5, 4, 5]
    20 3 100 (fun _ => rfl)
  have hval : (AssemblerCandidateVariantGenerator.make (exampleOps twoSnvs) exampleReference
      [5, 4, 5] 20 3 100).default_kmer_sizes_ = [4, 5] := by decide
  exact ⟨hval, by rw [h.2.2.2, hval]⟩

/-! ## The method `add_read` -/

theorem transform_bases_spec (min_quality : Nat) (sequence : SequenceType) :
    ∀ qualities : List Nat, qualities.length = sequence.length →
      ∃ out, transform_bases min_quality sequence qualities = some out
        ∧ out.length = sequence.length
        ∧ (∀ i, i < sequence.length →
            out.getD i 'N'
              = if min_quality ≤ qualities.getD i 0 then sequence.getD i 'N' else 'N')
        ∧ (out = sequence ↔ ∀ i, i < sequence.length →
            qualities.getD i 0 < min_quality → sequence.getD i 'N' = 'N') := by
  induction sequence with
  | nil =>
    intro qualities _
    exact ⟨[], by simp [transform_bases], rfl, by simp, by simp⟩
  | cons base bases ih =>
    intro qualities hlen
    cases qualities with
    | nil => simp at hlen
    | cons quality rest =>
      obtain ⟨out, hout, hl, hpos, hiff⟩ := ih rest (by simpa using hlen)
      refine ⟨(if quality ≥ min_quality then base else 'N') :: out,
        by simp [transform_bases, hout], by simp [hl], ?_, ?_⟩
      · intro i hi
        cases i with
        | zero => simp
        | succ j =>
          simp only [List.getD_cons_succ]
          exact hpos j (by simpa using hi)
      · constructor
        · intro heq i hi hlow
          simp only [List.cons.injEq] at heq
          cases i with
          | zero =>
            simp only [List.getD_cons_zero] at hlow ⊢
            have h0 := heq.1
            rw [if_neg (by omega)] at h0
            exact h0.symm
          | succ j =>
            simp only [List.getD_cons_succ] at hlow ⊢
            exact hiff.mp heq.2 j (by simpa using hi) hlow
        · intro hall
          have htail : out = bases := hiff.mpr (fun j hj hlow => by
            have := hall (j + 1) (by simpa using hj) (by simpa using hlow)
            simpa using this)
          have hhead : (if quality ≥ min_quality then base else 'N') = base := by
            by_cases hq : quality ≥ min_quality
            · rw [if_pos hq]
            · rw [if_neg hq]
              have := hall 0 (by simp) (by simpa using hq)
              simpa using this.symm
          rw [hhead, htail]

theorem to_char_good (quality min_quality : Nat)
    (h : to_char quality ≥ (min_quality : Int)) : min_quality ≤ quality := by
  unfold to_char at h
  split at h
  · have hmod : quality % 256 ≤ quality := Nat.mod_le _ _
    omega
  · omega

/-- C19, as stated, fails: for the read of the one base `N` with quality 0 and the threshold 20,
`add_read` appends the read sequence unchanged to the buffer, although a quality is below the
threshold. -/
theorem add_read_keeps_low_quality_n :
    ((exampleGenerator 100).add_read (exampleOps twoSnvs) lowQualityN).map
        (fun after => after.sequence_buffer_)
        = some ((exampleGenerator 100).sequence_buffer_ ++ [lowQualityN.sequence])
      ∧ ¬ ∀ quality ∈ lowQualityN.qualities, (exampleGenerator 100).min_base_quality_ ≤ quality := by
  constructor
  · decide
  · decide

theorem add_read_some {A : Type} (ops : AssemblerOps A)
    (self : AssemblerCandidateVariantGenerator A) (read : AlignedRead)
    (hlen : read.qualities.length = read.sequence.length) :
    ∃ sequence,
      self.add_read ops read
          = some { self with
              assemblers_ := self.assemblers_.map
                (fun assembler => ops.insert_read assembler sequence),
              sequence_buffer_ := self.sequence_buffer_ ++ [sequence],
              region_assembled_ := some (match self.region_assembled_ with
                | some region => encompassing_region read.region region
                | none => read.region) }
        ∧ sequence.length = read.sequence.length
        ∧ (∀ i, i < read.sequence.length →
            sequence.getD i 'N'
              = if self.min_base_quality_ ≤ read.qualities.getD i 0
                then read.sequence.getD i 'N' else 'N')
        ∧ (sequence = read.sequence ↔ ∀ i, i < read.sequence.length →
            read.qualities.getD i 0 < self.min_base_quality_ →
            read.sequence.getD i 'N' = 'N') := by
  obtain ⟨out, hout, hl, hpos, hiff⟩ := transform_bases_spec self.min_base_quality_
    read.sequence read.qualities hlen
  refine ⟨out, ?_, hl, hpos, hiff⟩
  by_cases hgood : are_all_bases_good_quality read self.min_base_quality_ = true
  · have hall : ∀ quality ∈ read.qualities, self.min_base_quality_ ≤ quality := by
      intro quality hq
      simp only [are_all_bases_good_quality, List.all_eq_true, decide_eq_true_eq] at hgood
      exact to_char_good quality _ (hgood quality hq)
    have hsame : out = read.sequence := by
      refine hiff.mpr (fun i hi hlow => ?_)
      have hi' : i < read.qualities.length := by omega
      have hmem : read.qualities.getD i 0 ∈ read.qualities := by
        rw [List.getD_eq_getElem _ _ hi']
        exact List.getElem_mem hi'
      have := hall _ hmem
      omega
    subst hsame
    simp only [AssemblerCandidateVariantGenerator.add_read, hgood, if_true,
      Option.bind_eq_bind, Option.some_bind, pure]
  · simp only [AssemblerCandidateVariantGenerator.add_read, hgood, Bool.false_eq_true, if_false,
      transform_low_base_qualities_to_n, hout, Option.bind_eq_bind, Option.some_bind, pure]

/-- C19, amended: for every read whose sequence and quality vectors have the same length,
`add_read` returns, having inserted into every default assembler and appended to the buffer one
sequence, of the length of the read sequence, that holds at each position `i` the base of the
read when `quality[i] >= min_base_quality` and `N` otherwise; that sequence is the read sequence
unchanged exactly when every base whose quality is below the threshold is `N` already. -/
theorem add_read_masks_low_qualities {A : Type} (ops : AssemblerOps A)
    (self : AssemblerCandidateVariantGenerator A) (read : AlignedRead)
    (hlen : read.qualities.length = read.sequence.length) :
    ∃ sequence,
      self.add_read ops read
          = some { self with
              assemblers_ := self.assemblers_.map
                (fun assembler => ops.insert_read assembler sequence),
              sequence_buffer_ := self.sequence_buffer_ ++ [sequence],
              region_assembled_ := some (match self.region_assembled_ with
                | some region => encompassing_region read.region region
                | none => read.region) }
        ∧ sequence.length = read.sequence.length
        ∧ (∀ i, i < read.sequence.length →
            sequence.getD i 'N'
              = if self.min_base_quality_ ≤ read.qualities.getD i 0
                then read.sequence.getD i 'N' else 'N')
        ∧ (sequence = read.sequence ↔ ∀ i, i < read.sequence.length →
            read.qualities.getD i 0 < self.min_base_quality_ →
            read.sequence.getD i 'N' = 'N') :=
  add_read_some ops self read hlen

/-- C19, amended, at the read of the examples with the quality of its base at offset 4 lowered
to 10: the sequence appended to the buffer has `N` at offset 4 and the bases of the read
elsewhere. -/
theorem add_read_masks_low_qualities_witness :
    ∃ sequence,
      ((exampleGenerator 100).add_read (exampleOps twoSnvs)
          { exampleRead with qualities := [30, 30, 30, 30, 10, 30, 30, 30, 30, 30] }).map
          (fun after => after.sequence_buffer_)
        = some ((exampleGenerator 100).sequence_buffer_ ++ [sequence])
      ∧ sequence = ['A', 'C', 'G', 'T', 'N', 'C', 'G', 'C', 'A', 'C'] := by
  obtain ⟨sequence, hadd, _, _, _⟩ := add_read_masks_low_qualities (exampleOps twoSnvs)
    (exampleGenerator 100)
    { exampleRead with qualities := [30, 30, 30, 30, 10, 30, 30, 30, 30, 30] } (by decide)
  have hval : ((exampleGenerator 100).add_read (exampleOps twoSnvs)
      { exampleRead with qualities := [30, 30, 30, 30, 10, 30, 30, 30, 30, 30] }).map
      (fun after => after.sequence_buffer_)
      = some [exampleRead.sequence, ['A', 'C', 'G', 'T', 'N', 'C', 'G', 'C', 'A', 'C']] := by
    decide
  refine ⟨sequence, by rw [hadd]; rfl, ?_⟩
  rw [hadd] at hval
  simp only [Option.map_some', Option.some.injEq] at hval
  have hlast := congrArg List.getLast? hval
  simpa using hlast

theorem add_reads_from_some {A : Type} (ops : AssemblerOps A) (contig : String)
    (reads : List AlignedRead) :
    ∀ (self : AssemblerCandidateVariantGenerator A) (region0 : GenomicRegion),
      self.region_assembled_ = some region0 → region0.contig_name = contig →
      (∀ r ∈ reads, r.region.contig_name = contig) →
      (∀ r ∈ reads, r.qualities.length = r.sequence.length) →
      ∃ after region, self.add_reads ops reads = some after
        ∧ after.region_assembled_ = some region
        ∧ region.contig_name = contig
        ∧ region.begin_ ≤ region0.begin_ ∧ region0.end_ ≤ region.end_
        ∧ (∀ r ∈ reads, region.begin_ ≤ r.region.begin_ ∧ r.region.end_ ≤ region.end_)
        ∧ (region.begin_ = region0.begin_ ∨ ∃ r ∈ reads, r.region.begin_ = region.begin_)
        ∧ (region.end_ = region0.end_ ∨ ∃ r ∈ reads, r.region.end_ = region.end_) := by
  induction reads with
  | nil =>
    intro self region0 hra hc _ _
    exact ⟨self, region0, rfl, hra, hc, Nat.le_refl _, Nat.le_refl _, by simp, Or.inl rfl,
      Or.inl rfl⟩
  | cons read rest ih =>
    intro self region0 hra hc hcontig hquality
    obtain ⟨sequence, hadd, -⟩ := add_read_some ops self read
      (hquality read (List.mem_cons_self _ _))
    rw [hra] at hadd
    obtain ⟨after, region, hrest, hreg, hcn, hb, he, hall, hbmin, hemax⟩ := ih
      { self with
        assemblers_ := self.assemblers_.map
          (fun assembler => ops.insert_read assembler sequence),
        sequence_buffer_ := self.sequence_buffer_ ++ [sequence],
        region_assembled_ := some (encompassing_region read.region region0) }
      (encompassing_region read.region region0) rfl
      (hcontig read (List.mem_cons_self _ _))
      (fun r hr => hcontig r (List.mem_cons_of_mem _ hr))
      (fun r hr => hquality r (List.mem_cons_of_mem _ hr))
    simp only [encompassing_region] at hb he hbmin hemax
    have hb1 : region.begin_ ≤ read.region.begin_ := le_trans hb (Nat.min_le_left _ _)
    have hb2 : region.begin_ ≤ region0.begin_ := le_trans hb (Nat.min_le_right _ _)
    have he1 : read.region.end_ ≤ region.end_ := le_trans (Nat.le_max_left _ _) he
    have he2 : region0.end_ ≤ region.end_ := le_trans (Nat.le_max_right _ _) he
    refine ⟨after, region, by simp only [AssemblerCandidateVariantGenerator.add_reads, hadd,
      hrest], hreg, hcn, hb2, he2, ?_, ?_, ?_⟩
    · intro r hr
      rcases List.mem_cons.mp hr with rfl | hr
      · exact ⟨hb1, he1⟩
      · exact hall r hr
    · rcases hbmin with h | ⟨r, hr, h⟩
      · rcases min_choice read.region.begin_ region0.begin_ with hm | hm
        · exact Or.inr ⟨read, List.mem_cons_self _ _, by rw [h, hm]⟩
        · exact Or.inl (by rw [h, hm])
      · exact Or.inr ⟨r, List.mem_cons_of_mem _ hr, h⟩
    · rcases hemax with h | ⟨r, hr, h⟩
      · rcases max_choice read.region.end_ region0.end_ with hm | hm
        · exact Or.inr ⟨read, List.mem_cons_self _ _, by rw [h, hm]⟩
        · exact Or.inl (by rw [h, hm])
      · exact Or.inr ⟨r, List.mem_cons_of_mem _ hr, h⟩

theorem add_reads_from_none {A : Type} (ops : AssemblerOps A) (contig : String)
    (self : AssemblerCandidateVariantGenerator A) (reads : List AlignedRead)
    (hnone : self.region_assembled_ = none) (hne : reads ≠ [])
    (hcontig : ∀ r ∈ reads, r.region.contig_name = contig)
    (hquality : ∀ r ∈ reads, r.qualities.length = r.sequence.length) :
    ∃ after region, self.add_reads ops reads = some after
      ∧ after.region_assembled_ = some region
      ∧ region.contig_name = contig
      ∧ (∀ r ∈ reads, region.begin_ ≤ r.region.begin_ ∧ r.region.end_ ≤ region.end_)
      ∧ (∃ r ∈ reads, r.region.begin_ = region.begin_)
      ∧ (∃ r ∈ reads, r.region.end_ = region.end_) := by
  cases reads with
  | nil => exact absurd rfl hne
  | cons read rest =>
    obtain ⟨sequence, hadd, -⟩ := add_read_some ops self read
      (hquality read (List.mem_cons_self _ _))
    rw [hnone] at hadd
    obtain ⟨after, region, hrest, hreg, hcn, hb, he, hall, hbmin, hemax⟩ :=
      add_reads_from_some ops contig rest
        { self with
          assemblers_ := self.assemblers_.map
            (fun assembler => ops.insert_read assembler sequence),
          sequence_buffer_ := self.sequence_buffer_ ++ [sequence],
          region_assembled_ := some read.region }
        read.region rfl
        (hcontig read (List.mem_cons_self _ _))
        (fun r hr => hcontig r (List.mem_cons_of_mem _ hr))
        (fun r hr => hquality r (List.mem_cons_of_mem _ hr))
    refine ⟨after, region, by simp only [AssemblerCandidateVariantGenerator.add_reads, hadd,
      hrest], hreg, hcn, ?_, ?_, ?_⟩
    · intro r hr
      rcases List.mem_cons.mp hr with rfl | hr
      · exact ⟨hb, he⟩
      · exact hall r hr
    · rcases hbmin with h | ⟨r, hr, h⟩
      · exact ⟨read, List.mem_cons_self _ _, h.symm⟩
      · exact ⟨r, List.mem_cons_of_mem _ hr, h⟩
    · rcases hemax with h | ⟨r, hr, h⟩
      · exact ⟨read, List.mem_cons_self _ _, h.symm⟩
      · exact ⟨r, List.mem_cons_of_mem _ hr, h⟩

/-- C18: after `add_read` has been called on the reads `r1..rn` (`n ≥ 1`, all on one contig,
each with one quality for every base) from a generator whose `region_assembled_` is unset, as the
constructor and `clear()` leave it, `region_assembled_` is set to a region of that contig whose
begin is the least begin and whose end is the greatest end of the mapped regions of the reads;
the calls made in any other order set it to the same region. -/
theorem region_assembled_encompasses_reads {A : Type} (ops : AssemblerOps A) (contig : String)
    (self : AssemblerCandidateVariantGenerator A) (reads : List AlignedRead)
    (hnone : self.region_assembled_ = none) (hne : reads ≠ [])
    (hcontig : ∀ r ∈ reads, r.region.contig_name = contig)
    (hquality : ∀ r ∈ reads, r.qualities.length = r.sequence.length) :
    ∃ after region, self.add_reads ops reads = some after
      ∧ after.region_assembled_ = some region
      ∧ region.contig_name = contig
      ∧ (∀ r ∈ reads, region.begin_ ≤ r.region.begin_ ∧ r.region.end_ ≤ region.end_)
      ∧ (∃ r ∈ reads, r.region.begin_ = region.begin_)
      ∧ (∃ r ∈ reads, r.region.end_ = region.end_)
      ∧ ∀ permuted : List AlignedRead, permuted.Perm reads →
          ∃ after_permuted, self.add_reads ops permuted = some after_permuted
            ∧ after_permuted.region_assembled_ = some region := by
  obtain ⟨after, region, hadd, hreg, hcn, hall, hbmin, hemax⟩ :=
    add_reads_from_none ops contig self reads hnone hne hcontig hquality
  refine ⟨after, region, hadd, hreg, hcn, hall, hbmin, hemax, ?_⟩
  intro permuted hperm
  have hne' : permuted ≠ [] := by
    intro hnil
    rw [hnil] at hperm
    exact hne (List.Perm.nil_eq hperm).symm
  obtain ⟨after', region', hadd', hreg', hcn', hall', hbmin', hemax'⟩ :=
    add_reads_from_none ops contig self permuted hnone hne'
      (fun r hr => hcontig r (hperm.mem_iff.mp hr))
      (fun r hr => hquality r (hperm.mem_iff.mp hr))
  refine ⟨after', hadd', ?_⟩
  rw [hreg']
  obtain ⟨r1, hr1, hb1⟩ := hbmin
  obtain ⟨r2, hr2, hb2⟩ := hbmin'
  obtain ⟨r3, hr3, he3⟩ := hemax
  obtain ⟨r4, hr4, he4⟩ := hemax'
  have h1 := hall' r1 (hperm.mem_iff.mpr hr1)
  have h2 := hall r2 (hperm.mem_iff.mp hr2)
  have h3 := hall' r3 (hperm.mem_iff.mpr hr3)
  have h4 := hall r4 (hperm.mem_iff.mp hr4)
  obtain ⟨c, b, e⟩ := region
  obtain ⟨c', b', e'⟩ := region'
  simp only at hcn hcn' hb1 hb2 he3 he4 h1 h2 h3 h4
  have hb : b' = b := by omega
  have he : e' = e := by omega
  rw [hcn, hcn', hb, he]

/-- C18, at the two reads of the examples, mapped to `1:100-110` and `1:104-112`, given to a
newly constructed generator: `region_assembled_` is set to `1:100-112`, in both orders. -/
theorem region_assembled_encompasses_reads_witness :
    ((AssemblerCandidateVariantGenerator.make (exampleOps twoSnvs) exampleReference [4] 20 3
        100).add_reads (exampleOps twoSnvs) [exampleRead, exampleRead2]).map
        (fun after => after.region_assembled_)
        = some (some ⟨"1", 100, 112⟩)
      ∧ ((AssemblerCandidateVariantGenerator.make (exampleOps twoSnvs) exampleReference [4] 20 3
        100).add_reads (exampleOps twoSnvs) [exampleRead2, exampleRead]).map
        (fun after => after.region_assembled_)
        = some (some ⟨"1", 100, 112⟩) := by
  obtain ⟨after, region, hadd, hreg, _, _, _, _, hperm⟩ :=
    region_assembled_encompasses_reads (exampleOps twoSnvs) "1"
      (AssemblerCandidateVariantGenerator.make (exampleOps twoSnvs) exampleReference [4] 20 3 100)
      [exampleRead, exampleRead2] rfl (by simp)
      (by intro r hr; simp only [List.mem_cons, List.mem_singleton, List.not_mem_nil,
            or_false] at hr; rcases hr with rfl | rfl <;> rfl)
      (by intro r hr; simp only [List.mem_cons, List.mem_singleton, List.not_mem_nil,
            or_false] at hr; rcases hr with rfl | rfl <;> rfl)
  obtain ⟨after', hadd', hreg'⟩ := hperm [exampleRead2, exampleRead] (List.Perm.swap _ _ _)
  have hval : ((AssemblerCandidateVariantGenerator.make (exampleOps twoSnvs) exampleReference
      [4] 20 3 100).add_reads (exampleOps twoSnvs) [exampleRead, exampleRead2]).map
      (fun after => after.region_assembled_) = some (some ⟨"1", 100, 112⟩) := by decide
  refine ⟨hval, ?_⟩
  rw [hadd] at hval
  simp only [Option.map_some', Option.some.injEq] at hval
  rw [hadd', Option.map_some', hreg', ← hreg, hval]

/-! ## The order of the reads -/

theorem same_but_buffer_order_refl {A : Type} (s : AssemblerCandidateVariantGenerator A) :
    same_but_buffer_order s s := ⟨rfl, List.Perm.refl _⟩

theorem same_but_buffer_order_trans {A : Type} (s t u : AssemblerCandidateVariantGenerator A)
    (h1 : same_but_buffer_order s t) (h2 : same_but_buffer_order t u) :
    same_but_buffer_order s u := by
  obtain ⟨ht, hp1⟩ := h1
  obtain ⟨hu, hp2⟩ := h2
  refine ⟨?_, hp2.trans hp1⟩
  rw [hu, ht]

theorem same_outcome_trans {A : Type}
    (a b c : Option (AssemblerCandidateVariantGenerator A))
    (h1 : same_outcome a b) (h2 : same_outcome b c) : same_outcome a c := by
  rcases h1 with ⟨ha, hb⟩ | ⟨s, t, ha, hb, hst⟩
  · rcases h2 with ⟨_, hc⟩ | ⟨t', u, hb', _, _⟩
    · exact Or.inl ⟨ha, hc⟩
    · rw [hb] at hb'
      exact absurd hb' (by simp)
  · rcases h2 with ⟨hb', _⟩ | ⟨t', u, hb', hc, htu⟩
    · rw [hb] at hb'
      exact absurd hb' (by simp)
    · rw [hb] at hb'
      cases hb'
      exact Or.inr ⟨s, u, ha, hc, same_but_buffer_order_trans s t u hst htu⟩

theorem add_read_eq {A : Type} (ops : AssemblerOps A)
    (self : AssemblerCandidateVariantGenerator A) (read : AlignedRead) :
    self.add_read ops read
      = (if are_all_bases_good_quality read self.min_base_quality_ then some read.sequence
          else transform_low_base_qualities_to_n read self.min_base_quality_).map
        (fun sequence => { self with
          assemblers_ := self.assemblers_.map
            (fun assembler => ops.insert_read assembler sequence),
          sequence_buffer_ := self.sequence_buffer_ ++ [sequence],
          region_assembled_ := some (match self.region_assembled_ with
            | some region => encompassing_region read.region region
            | none => read.region) }) := by
  unfold AssemblerCandidateVariantGenerator.add_read
  by_cases hgood : are_all_bases_good_quality read self.min_base_quality_ = true
  · simp only [hgood, if_true, Option.bind_eq_bind, Option.some_bind, pure, Option.map_some']
  · simp only [hgood, Bool.false_eq_true, if_false]
    cases transform_low_base_qualities_to_n read self.min_base_quality_ with
    | none => rfl
    | some sequence => rfl

theorem add_read_same_outcome {A : Type} (ops : AssemblerOps A)
    (s t : AssemblerCandidateVariantGenerator A) (read : AlignedRead)
    (h : same_but_buffer_order s t) :
    same_outcome (s.add_read ops read) (t.add_read ops read) := by
  obtain ⟨ht, hp⟩ := h
  rw [add_read_eq ops s read, add_read_eq ops t read]
  have hq : t.min_base_quality_ = s.min_base_quality_ := by rw [ht]
  rw [hq]
  cases (if are_all_bases_good_quality read s.min_base_quality_ then some read.sequence
      else transform_low_base_qualities_to_n read s.min_base_quality_) with
  | none => exact Or.inl ⟨rfl, rfl⟩
  | some sequence =>
    refine Or.inr ⟨_, _, rfl, rfl, ?_, ?_⟩
    · simp only []
      conv_lhs => rw [ht]
    · simp only []
      exact List.Perm.append_right _ hp

theorem add_reads_same_outcome {A : Type} (ops : AssemblerOps A) (reads : List AlignedRead) :
    ∀ s t : AssemblerCandidateVariantGenerator A, same_but_buffer_order s t →
      same_outcome (s.add_reads ops reads) (t.add_reads ops reads) := by
  induction reads with
  | nil => intro s t h; exact Or.inr ⟨s, t, rfl, rfl, h⟩
  | cons read rest ih =>
    intro s t h
    rcases add_read_same_outcome ops s t read h with ⟨hs, ht⟩ | ⟨s1, t1, hs, ht, h1⟩
    · exact Or.inl ⟨by simp only [AssemblerCandidateVariantGenerator.add_reads, hs],
        by simp only [AssemblerCandidateVariantGenerator.add_reads, ht]⟩
    · simp only [AssemblerCandidateVariantGenerator.add_reads, hs, ht]
      exact ih s1 t1 h1

theorem add_read_swap {A : Type} (ops : AssemblerOps A)
    (hcomm : ∀ a s t, ops.insert_read (ops.insert_read a s) t
      = ops.insert_read (ops.insert_read a t) s)
    (self : AssemblerCandidateVariantGenerator A) (x y : AlignedRead)
    (hxy : x.region.contig_name = y.region.contig_name) :
    same_outcome (self.add_reads ops [y, x]) (self.add_reads ops [x, y]) := by
  simp only [AssemblerCandidateVariantGenerator.add_reads]
  rw [add_read_eq ops self x, add_read_eq ops self y]
  cases hx : (if are_all_bases_good_quality x self.min_base_quality_ then some x.sequence
      else transform_low_base_qualities_to_n x self.min_base_quality_) with
  | none =>
    cases hy : (if are_all_bases_good_quality y self.min_base_quality_ then some y.sequence
        else transform_low_base_qualities_to_n y self.min_base_quality_) with
    | none => exact Or.inl ⟨rfl, rfl⟩
    | some sy =>
      simp only [Option.map_some', Option.map_none']
      rw [add_read_eq]
      simp only [hx, Option.map_none']
      exact Or.inl ⟨rfl, rfl⟩
  | some sx =>
    cases hy : (if are_all_bases_good_quality y self.min_base_quality_ then some y.sequence
        else transform_low_base_qualities_to_n y self.min_base_quality_) with
    | none =>
      simp only [Option.map_some', Option.map_none']
      rw [add_read_eq]
      simp only [hy, Option.map_none']
      exact Or.inl ⟨rfl, rfl⟩
    | some sy =>
      simp only [Option.map_some', Option.map_none']
      rw [add_read_eq, add_read_eq]
      simp only [hx, hy, Option.map_some']
      refine Or.inr ⟨_, _, rfl, rfl, ?_, ?_⟩
      · simp only [List.map_map, AssemblerCandidateVariantGenerator.mk.injEq, true_and, and_true,
          Option.some.injEq]
        refine ⟨?_, ?_⟩
        · apply List.map_congr_left
          intro a _
          exact hcomm a sx sy
        · cases self.region_assembled_ with
          | none =>
            simp only [encompassing_region, hxy, GenomicRegion.mk.injEq, true_and]
            exact ⟨Nat.min_comm _ _, Nat.max_comm _ _⟩
          | some region =>
            simp only [encompassing_region, hxy, GenomicRegion.mk.injEq, true_and]
            exact ⟨by rw [Nat.min_left_comm], by rw [Nat.max_left_comm]⟩
      · simp only [List.append_assoc, List.singleton_append]
        exact List.Perm.append_left _ (List.Perm.swap _ _ _)

theorem default_loop_buffer {A : Type} (ops : AssemblerOps A) (DEBUG_MODE : Bool)
    (self : AssemblerCandidateVariantGenerator A) (buffer : List SequenceType)
    (region_assembled region : GenomicRegion) (assemblers : List A) :
    ∀ (result : List Variant) (n : Nat),
      default_loop ops DEBUG_MODE { self with sequence_buffer_ := buffer } region_assembled
          region assemblers result n
        = default_loop ops DEBUG_MODE self region_assembled region assemblers result n := by
  induction assemblers with
  | nil => intro result n; rfl
  | cons assembler rest ih =>
    intro result n
    unfold default_loop
    simp only []
    split
    · rfl
    · split
      · rfl
      · rename_i a1 ok result1 _
        rw [ih]

theorem fallback_loop_buffer {A : Type} (ops : AssemblerOps A)
    (hcomm : ∀ a s t, ops.insert_read (ops.insert_read a s) t
      = ops.insert_read (ops.insert_read a t) s)
    (self : AssemblerCandidateVariantGenerator A) (buffer : List SequenceType)
    (hperm : buffer.Perm self.sequence_buffer_)
    (region_assembled region : GenomicRegion) (kmer_sizes : List Nat) :
    ∀ (result : List Variant),
      fallback_loop ops { self with sequence_buffer_ := buffer } region_assembled region
          kmer_sizes result
        = fallback_loop ops self region_assembled region kmer_sizes result := by
  induction kmer_sizes with
  | nil => intro result; rfl
  | cons k rest ih =>
    intro result
    have hfold := List.Perm.foldl_eq'
      (f := fun assembler read_sequence => ops.insert_read assembler read_sequence) hperm
      (fun x _ y _ z => hcomm z x y)
      (ops.make_with_reference k (self.reference_ (expand region_assembled k)))
    unfold fallback_loop
    simp only [hfold, ih]

theorem generate_candidates_buffer {A : Type} (ops : AssemblerOps A)
    (hcomm : ∀ a s t, ops.insert_read (ops.insert_read a s) t
      = ops.insert_read (ops.insert_read a t) s)
    (DEBUG_MODE : Bool) (s t : AssemblerCandidateVariantGenerator A) (region : GenomicRegion)
    (h : same_but_buffer_order s t) :
    (t.generate_candidates ops DEBUG_MODE region).map (fun r => r.2)
      = (s.generate_candidates ops DEBUG_MODE region).map (fun r => r.2) := by
  obtain ⟨ht, hp⟩ := h
  rw [ht]
  generalize t.sequence_buffer_ = buffer at hp
  unfold AssemblerCandidateVariantGenerator.generate_candidates
  simp only [default_loop_buffer, fallback_loop_buffer ops hcomm s buffer hp]
  cases s.region_assembled_ with
  | none => rfl
  | some region_assembled =>
    simp only []
    cases default_loop ops DEBUG_MODE s region_assembled region s.assemblers_ [] 0 with
    | none => rfl
    | some l =>
      simp only []
      cases l.returned with
      | true => rfl
      | false =>
        simp only [Bool.false_eq_true, if_false]
        cases (l.num_defaults_unsuccessful == l.assemblers.length) with
        | false => rfl
        | true =>
          simp only [if_true]
          cases fallback_loop ops s region_assembled region s.fallback_kmer_sizes_
              l.result with
          | none => rfl
          | some rf =>
            obtain ⟨result, returned⟩ := rf
            cases returned <;> rfl

theorem add_reads_perm {A : Type} (ops : AssemblerOps A)
    (hcomm : ∀ a s t, ops.insert_read (ops.insert_read a s) t
      = ops.insert_read (ops.insert_read a t) s)
    (contig : String) (l1 l2 : List AlignedRead) (hperm : l1.Perm l2) :
    (∀ r ∈ l1, r.region.contig_name = contig) →
    ∀ s : AssemblerCandidateVariantGenerator A,
      same_outcome (s.add_reads ops l1) (s.add_reads ops l2) := by
  induction hperm with
  | nil => intro _ s; exact Or.inr ⟨s, s, rfl, rfl, same_but_buffer_order_refl s⟩
  | cons x _ ih =>
    intro hcontig s
    simp only [AssemblerCandidateVariantGenerator.add_reads]
    cases s.add_read ops x with
    | none => exact Or.inl ⟨rfl, rfl⟩
    | some s1 => exact ih (fun r hr => hcontig r (List.mem_cons_of_mem _ hr)) s1
  | swap x y l =>
    intro hcontig s
    have hx : x.region.contig_name = contig :=
      hcontig x (List.mem_cons_of_mem _ (List.mem_cons_self _ _))
    have hy : y.region.contig_name = contig := hcontig y (List.mem_cons_self _ _)
    have hswap := add_read_swap ops hcomm s x y (by rw [hx, hy])
    simp only [AssemblerCandidateVariantGenerator.add_reads] at hswap ⊢
    cases hyx : (match s.add_read ops y with
        | none => none
        | some after => match after.add_read ops x with
          | none => none
          | some after => some after) with
    | none =>
      cases hxy : (match s.add_read ops x with
          | none => none
          | some after => match after.add_read ops y with
            | none => none
            | some after => some after) with
      | none =>
        cases h1 : s.add_read ops y with
        | none =>
          cases h2 : s.add_read ops x with
          | none => exact Or.inl ⟨rfl, rfl⟩
          | some s2 =>
            rw [h2] at hxy
            simp only [] at hxy ⊢
            cases h3 : s2.add_read ops y with
            | none => exact Or.inl ⟨rfl, rfl⟩
            | some s3 => rw [h3] at hxy; exact absurd hxy (by simp)
        | some s1 =>
          rw [h1] at hyx
          simp only [] at hyx ⊢
          cases h4 : s1.add_read ops x with
          | none =>
            cases h2 : s.add_read ops x with
            | none => exact Or.inl ⟨rfl, rfl⟩
            | some s2 =>
              rw [h2] at hxy
              simp only [] at hxy ⊢
              cases h3 : s2.add_read ops y with
              | none => exact Or.inl ⟨rfl, rfl⟩
              | some s3 => rw [h3] at hxy; exact absurd hxy (by simp)
          | some s4 => rw [h4] at hyx; exact absurd hyx (by simp)
      | some t =>
        rw [hyx, hxy] at hswap
        rcases hswap with ⟨_, h⟩ | ⟨_, _, h, _, _⟩
        · exact absurd h (by simp)
        · exact absurd h (by simp)
    | some u =>
      cases hxy : (match s.add_read ops x with
          | none => none
          | some after => match after.add_read ops y with
            | none => none
            | some after => some after) with
      | none =>
        rw [hyx, hxy] at hswap
        rcases hswap with ⟨h, _⟩ | ⟨_, _, _, h, _⟩
        · exact absurd h (by simp)
        · exact absurd h (by simp)
      | some t =>
        rw [hyx, hxy] at hswap
        rcases hswap with ⟨h, _⟩ | ⟨u', t', hu, ht, hut⟩
        · exact absurd h (by simp)
        · cases hu
          cases ht
          cases h1 : s.add_read ops y with
          | none => rw [h1] at hyx; exact absurd hyx (by simp)
          | some s1 =>
            rw [h1] at hyx
            simp only [] at hyx ⊢
            cases h4 : s1.add_read ops x with
            | none => rw [h4] at hyx; exact absurd hyx (by simp)
            | some s4 =>
              rw [h4] at hyx
              simp only [Option.some.injEq] at hyx
              subst hyx
              cases h2 : s.add_read ops x with
              | none => rw [h2] at hxy; exact absurd hxy (by simp)
              | some s2 =>
                rw [h2] at hxy
                simp only [] at hxy ⊢
                cases h3 : s2.add_read ops y with
                | none => rw [h3] at hxy; exact absurd hxy (by simp)
                | some s3 =>
                  rw [h3] at hxy
                  simp only [Option.some.injEq] at hxy
                  subst hxy
                  exact add_reads_same_outcome ops l s4 s3 hut
  | trans h12 _ ih1 ih2 =>
    intro hcontig s
    exact same_outcome_trans _ _ _ (ih1 hcontig s)
      (ih2 (fun r hr => hcontig r (h12.mem_iff.mpr hr)) s)

/-- C17: for every list of reads mapped to one contig and every permutation of it, over an
assembler whose `insert_read` calls commute, a generator fed the reads in the permuted order
returns from `generate_candidates(region)` the same vector, and so the same set of variants, as
a generator fed them in the original order. -/
theorem generate_candidates_independent_of_read_order {A : Type} (ops : AssemblerOps A)
    (DEBUG_MODE : Bool) (self : AssemblerCandidateVariantGenerator A)
    (reads permuted : List AlignedRead) (region : GenomicRegion) (contig : String)
    (hperm : permuted.Perm reads)
    (hcomm : ∀ a s t, ops.insert_read (ops.insert_read a s) t
      = ops.insert_read (ops.insert_read a t) s)
    (hcontig : ∀ r ∈ reads, r.region.contig_name = contig) :
    (self.add_reads ops permuted).bind
        (fun generator => (generator.generate_candidates ops DEBUG_MODE region).map
          (fun r => r.2))
      = (self.add_reads ops reads).bind
        (fun generator => (generator.generate_candidates ops DEBUG_MODE region).map
          (fun r => r.2)) := by
  rcases add_reads_perm ops hcomm contig permuted reads hperm
    (fun r hr => hcontig r (hperm.mem_iff.mp hr)) self with ⟨h1, h2⟩ | ⟨s, t, h1, h2, hst⟩
  · rw [h1, h2]
  · rw [h1, h2]
    simp only [Option.bind_eq_bind, Option.some_bind]
    exact (generate_candidates_buffer ops hcomm DEBUG_MODE s t region hst).symm

/-- C17, at the two reads of the examples given in both orders to a newly constructed generator
whose default assembler fails, so that the fallback assembler is fed from the buffer: both
orders return the two variants. -/
theorem generate_candidates_independent_of_read_order_witness :
    ((AssemblerCandidateVariantGenerator.make (pruningOps twoSnvs 10) exampleReference [4] 20 3
        100).add_reads (pruningOps twoSnvs 10) [exampleRead2, exampleRead]).bind
        (fun generator => (generator.generate_candidates (pruningOps twoSnvs 10) true
          exampleRegion).map (fun r => r.2))
      = some [Variant.make "1" 104 ['A'] ['G'], Variant.make "1" 107 ['T'] ['C']] := by
  rw [generate_candidates_independent_of_read_order (pruningOps twoSnvs 10) true
    (AssemblerCandidateVariantGenerator.make (pruningOps twoSnvs 10) exampleReference [4] 20 3
      100)
    [exampleRead, exampleRead2] [exampleRead2, exampleRead] exampleRegion "1"
    (List.Perm.swap _ _ _) (fun _ _ _ => rfl)
    (by intro r hr; simp only [List.mem_cons, List.mem_singleton, List.not_mem_nil,
          or_false] at hr; rcases hr with rfl | rfl <;> rfl)]
  decide

/-! ## The constructor: fallback k-mer sizes -/

theorem getLastD_of_sorted (l : List Nat) (m : Nat) (h : l.Pairwise (fun a b => a < b))
    (hmem : m ∈ l) (hmax : ∀ k ∈ l, k ≤ m) : l.getLastD 0 = m := by
  have hne : l ≠ [] := List.ne_nil_of_mem hmem
  have hsplit := List.dropLast_append_getLast hne
  have hlast : l.getLastD 0 = l.getLast hne := by
    rw [List.getLastD_eq_getLast?, List.getLast?_eq_getLast l hne]
    rfl
  rw [hlast]
  have hle := hmax _ (List.getLast_mem hne)
  rw [← hsplit] at hmem h
  rcases List.mem_append.mp hmem with hm | hm
  · have := (List.pairwise_append.mp h).2.2 m hm (l.getLast hne) (List.mem_singleton.mpr rfl)
    omega
  · exact (List.mem_singleton.mp hm).symm

theorem generate_fallback_kmer_sizes_six (m : Nat) (h : m + 60 < 2 ^ 32) :
    generate_fallback_kmer_sizes 6 m = [m + 10, m + 20, m + 30, m + 40, m + 50, m + 60] := by
  have h1 : (m + 10) % 2 ^ 32 = m + 10 := Nat.mod_eq_of_lt (by omega)
  have h2 : (m + 10 + 10) % 2 ^ 32 = m + 20 := by rw [Nat.mod_eq_of_lt (by omega)]
  have h3 : (m + 20 + 10) % 2 ^ 32 = m + 30 := by rw [Nat.mod_eq_of_lt (by omega)]
  have h4 : (m + 30 + 10) % 2 ^ 32 = m + 40 := by rw [Nat.mod_eq_of_lt (by omega)]
  have h5 : (m + 40 + 10) % 2 ^ 32 = m + 50 := by rw [Nat.mod_eq_of_lt (by omega)]
  have h6 : (m + 50 + 10) % 2 ^ 32 = m + 60 := by rw [Nat.mod_eq_of_lt (by omega)]
  simp only [generate_fallback_kmer_sizes, h1, h2, h3, h4, h5, h6]

/-- C21, as stated, fails: for the one default k-mer size `4294967295`, the largest `unsigned`
value, the additions of 10 wrap around: the fallback k-mer sizes are `[9, 19, 29, 39, 49, 59]`,
and not every fallback size exceeds every default size. -/
theorem constructor_fallback_kmer_sizes_wrap :
    (AssemblerCandidateVariantGenerator.make (exampleOps twoSnvs) exampleReference [4294967295]
        20 3 100).default_kmer_sizes_ = [4294967295]
      ∧ (AssemblerCandidateVariantGenerator.make (exampleOps twoSnvs) exampleReference
        [4294967295] 20 3 100).fallback_kmer_sizes_ = [9, 19, 29, 39, 49, 59]
      ∧ ¬ ∀ f ∈ (AssemblerCandidateVariantGenerator.make (exampleOps twoSnvs) exampleReference
          [4294967295] 20 3 100).fallback_kmer_sizes_,
        ∀ d ∈ (AssemblerCandidateVariantGenerator.make (exampleOps twoSnvs) exampleReference
          [4294967295] 20 3 100).default_kmer_sizes_, d < f := by
  refine ⟨by decide, by decide, by decide⟩

/-- C21, amended: for every list `ks` of default k-mer sizes with maximum `m` (so `ks` is not
empty) and `m + 60 < 2 ^ 32`, the constructor sets the fallback k-mer sizes to exactly
`[m + 10, m + 20, m + 30, m + 40, m + 50, m + 60]`, in that order, and every fallback size
exceeds every stored default size. -/
theorem constructor_fallback_kmer_sizes {A : Type} (ops : AssemblerOps A)
    (reference : GenomicRegion → SequenceType) (ks : List Nat)
    (min_base_quality min_supporting_reads max_variant_size m : Nat)
    (hmem : m ∈ ks) (hmax : ∀ k ∈ ks, k ≤ m) (hbound : m + 60 < 2 ^ 32) :
    (AssemblerCandidateVariantGenerator.make ops reference ks min_base_quality
        min_supporting_reads max_variant_size).fallback_kmer_sizes_
        = [m + 10, m + 20, m + 30, m + 40, m + 50, m + 60]
      ∧ ∀ f ∈ (AssemblerCandidateVariantGenerator.make ops reference ks min_base_quality
          min_supporting_reads max_variant_size).fallback_kmer_sizes_,
        ∀ d ∈ (AssemblerCandidateVariantGenerator.make ops reference ks min_base_quality
          min_supporting_reads max_variant_size).default_kmer_sizes_, d < f := by
  cases ks with
  | nil => simp at hmem
  | cons k0 rest =>
    have hdef : ∀ k, k ∈ std_unique (fun a b => a == b)
        (std_sort (fun a b => decide (a < b)) (k0 :: rest)) ↔ k ∈ k0 :: rest := by
      intro k
      rw [mem_std_unique_iff _ (by simp), mem_std_sort]
    have hlast := getLastD_of_sorted _ m (std_unique_strict _ (std_sort_sorted (k0 :: rest)))
      ((hdef m).mpr hmem) (fun k hk => hmax k ((hdef k).mp hk))
    simp only [AssemblerCandidateVariantGenerator.make, List.isEmpty_cons, Bool.false_eq_true,
      if_false, hlast, generate_fallback_kmer_sizes_six m hbound]
    refine ⟨trivial, ?_⟩
    intro f hf d hd
    have hdm := hmax d ((hdef d).mp hd)
    simp only [List.mem_cons, List.mem_singleton, List.not_mem_nil, or_false] at hf
    omega

/-- C21, amended, at the list `[5, 4, 5]` with maximum 5: the fallback k-mer sizes are
`[15, 25, 35, 45, 55, 65]`. -/
theorem constructor_fallback_kmer_sizes_witness :
    (5 : Nat) ∈ [5, 4, 5] ∧ (∀ k ∈ [5, 4, 5], k ≤ 5)
      ∧ (AssemblerCandidateVariantGenerator.make (exampleOps twoSnvs) exampleReference [5, 4, 5]
        20 3 100).fallback_kmer_sizes_ = [15, 25, 35, 45, 55, 65] :=
  ⟨by decide, by decide,
    (constructor_fallback_kmer_sizes (exampleOps twoSnvs) exampleReference [5, 4, 5]
      20 3 100 5 (by decide) (by decide) (by norm_num)).1⟩


/-! ## Generators without assemblers or without reads, and `clear` -/

theorem generate_candidates_traced_no_assemblers {A : Type} (ops : AssemblerOps A)
    (DEBUG_MODE : Bool) (self : AssemblerCandidateVariantGenerator A) (region : GenomicRegion)
    (hasm : self.assemblers_ = []) (hfall : self.fallback_kmer_sizes_ = []) :
    self.generate_candidates_traced ops DEBUG_MODE region = some ((self, []), []) := by
  obtain ⟨f1, f2, f3, f4, f5, f6, f7, f8, f9⟩ := self
  simp only at hasm hfall
  subst hasm hfall
  cases f5 with
  | none => rfl
  | some region_assembled =>
    simp [AssemblerCandidateVariantGenerator.generate_candidates_traced, default_loop_traced,
      fallback_loop_traced, remove_nonoverlapping]

theorem add_reads_no_assemblers {A : Type} (ops : AssemblerOps A) (reads : List AlignedRead)
    (hq : ∀ read ∈ reads, read.qualities.length = read.sequence.length) :
    ∀ self : AssemblerCandidateVariantGenerator A,
      self.assemblers_ = [] → self.fallback_kmer_sizes_ = [] →
      ∃ generator, self.add_reads ops reads = some generator
        ∧ generator.assemblers_ = [] ∧ generator.fallback_kmer_sizes_ = [] := by
  induction reads with
  | nil => intro self hasm hfall; exact ⟨self, rfl, hasm, hfall⟩
  | cons read rest ih =>
    intro self hasm hfall
    obtain ⟨sequence, hadd, -⟩ := add_read_some ops self read
      (hq read (List.mem_cons_self _ _))
    obtain ⟨generator, hgen, h1, h2⟩ := ih (fun r hr => hq r (List.mem_cons_of_mem _ hr))
      { self with
        assemblers_ := self.assemblers_.map
          (fun assembler => ops.insert_read assembler sequence),
        sequence_buffer_ := self.sequence_buffer_ ++ [sequence],
        region_assembled_ := some (match self.region_assembled_ with
          | some region => encompassing_region read.region region
          | none => read.region) }
      (by simp only [hasm, List.map_nil]) hfall
    refine ⟨generator, ?_, h1, h2⟩
    rw [AssemblerCandidateVariantGenerator.add_reads, hadd]
    exact hgen

/-- C22: a generator constructed with the empty list of k-mer sizes has no assembler and no
fallback k-mer size; after `add_reads` of any reads with one quality for each base it still has
no assembler, and `generate_candidates` returns the empty vector for every region, leaves the
generator as it is and makes no call: no reference sequence is requested, no assembler is run
and none is constructed. -/
theorem empty_kmer_sizes_no_candidates {A : Type} (ops : AssemblerOps A)
    (reference : GenomicRegion → SequenceType)
    (min_base_quality min_supporting_reads max_variant_size : Nat) (DEBUG_MODE : Bool)
    (reads : List AlignedRead) (region : GenomicRegion)
    (hq : ∀ read ∈ reads, read.qualities.length = read.sequence.length) :
    (AssemblerCandidateVariantGenerator.make ops reference [] min_base_quality
        min_supporting_reads max_variant_size).assemblers_ = []
      ∧ (AssemblerCandidateVariantGenerator.make ops reference [] min_base_quality
        min_supporting_reads max_variant_size).fallback_kmer_sizes_ = []
      ∧ ∃ generator,
        (AssemblerCandidateVariantGenerator.make ops reference [] min_base_quality
          min_supporting_reads max_variant_size).add_reads ops reads = some generator
        ∧ generator.assemblers_ = []
        ∧ generator.generate_candidates ops DEBUG_MODE region = some (generator, [])
        ∧ generator.generate_candidates_traced ops DEBUG_MODE region
          = some ((generator, []), []) := by
  refine ⟨rfl, rfl, ?_⟩
  obtain ⟨generator, hgen, h1, h2⟩ := add_reads_no_assemblers ops reads hq
    (AssemblerCandidateVariantGenerator.make ops reference [] min_base_quality
      min_supporting_reads max_variant_size) rfl rfl
  have htr := generate_candidates_traced_no_assemblers ops DEBUG_MODE generator region h1 h2
  refine ⟨generator, hgen, h1, ?_, htr⟩
  rw [← generate_candidates_traced_fst, htr]
  rfl

/-- C22, at the two reads of the examples: `region_assembled_` is `1:100-112` after the reads were
added, and `generate_candidates` returns the empty vector and makes no call. -/
theorem empty_kmer_sizes_no_candidates_witness :
    ∃ generator,
      (AssemblerCandidateVariantGenerator.make (exampleOps twoSnvs) exampleReference [] 20 3
        100).add_reads (exampleOps twoSnvs) [exampleRead, exampleRead2] = some generator
      ∧ generator.region_assembled_ = some { contig_name := "1", begin_ := 100, end_ := 112 }
      ∧ generator.generate_candidates_traced (exampleOps twoSnvs) true exampleRegion
        = some ((generator, []), []) := by
  obtain ⟨_, _, generator, hgen, _, _, htr⟩ := empty_kmer_sizes_no_candidates
    (exampleOps twoSnvs) exampleReference 20 3 100 true [exampleRead, exampleRead2]
    exampleRegion (by decide)
  refine ⟨generator, hgen, ?_, htr⟩
  have hval : ((AssemblerCandidateVariantGenerator.make (exampleOps twoSnvs) exampleReference []
      20 3 100).add_reads (exampleOps twoSnvs) [exampleRead, exampleRead2]).map
      (fun g => g.region_assembled_)
      = some (some { contig_name := "1", begin_ := 100, end_ := 112 }) := by decide
  rw [hgen] at hval
  simpa using hval

/-- C23: on a generator as the constructor leaves it, and on any generator after `clear()`,
`generate_candidates` returns the empty vector for every region, leaves the generator as it is
and makes no call: no reference sequence is requested and no assembler is run. -/
theorem generate_candidates_without_reads {A : Type} (ops : AssemblerOps A)
    (reference : GenomicRegion → SequenceType) (kmer_sizes : List Nat)
    (min_base_quality min_supporting_reads max_variant_size : Nat) (DEBUG_MODE : Bool)
    (self : AssemblerCandidateVariantGenerator A) (region : GenomicRegion) :
    ((AssemblerCandidateVariantGenerator.make ops reference kmer_sizes min_base_quality
        min_supporting_reads max_variant_size).generate_candidates_traced ops DEBUG_MODE region
        = some ((AssemblerCandidateVariantGenerator.make ops reference kmer_sizes
            min_base_quality min_supporting_reads max_variant_size, []), [])
      ∧ (AssemblerCandidateVariantGenerator.make ops reference kmer_sizes min_base_quality
        min_supporting_reads max_variant_size).generate_candidates ops DEBUG_MODE region
        = some (AssemblerCandidateVariantGenerator.make ops reference kmer_sizes
            min_base_quality min_supporting_reads max_variant_size, []))
      ∧ ((self.clear ops).generate_candidates_traced ops DEBUG_MODE region
        = some ((self.clear ops, []), [])
      ∧ (self.clear ops).generate_candidates ops DEBUG_MODE region
        = some (self.clear ops, [])) := by
  have hmake : (AssemblerCandidateVariantGenerator.make ops reference kmer_sizes
      min_base_quality min_supporting_reads max_variant_size).region_assembled_ = none := by
    unfold AssemblerCandidateVariantGenerator.make
    split <;> rfl
  have hclear : (self.clear ops).region_assembled_ = none := rfl
  have key : ∀ s : AssemblerCandidateVariantGenerator A, s.region_assembled_ = none →
      s.generate_candidates_traced ops DEBUG_MODE region = some ((s, []), [])
        ∧ s.generate_candidates ops DEBUG_MODE region = some (s, []) := by
    intro s hs
    unfold AssemblerCandidateVariantGenerator.generate_candidates_traced
      AssemblerCandidateVariantGenerator.generate_candidates
    rw [hs]
    exact ⟨rfl, rfl⟩
  exact ⟨key _ hmake, key _ hclear⟩

/-- C24: after `clear()`, `region_assembled_` is unset, the buffer is empty and the assemblers
are the former ones, each after its own `clear()`; the default and the fallback k-mer sizes, the
three thresholds and the reference are as before. -/
theorem clear_frame {A : Type} (ops : AssemblerOps A)
    (self : AssemblerCandidateVariantGenerator A) :
    (self.clear ops).region_assembled_ = none
      ∧ (self.clear ops).sequence_buffer_ = []
      ∧ (self.clear ops).assemblers_ = self.assemblers_.map ops.clear
      ∧ (self.clear ops).default_kmer_sizes_ = self.default_kmer_sizes_
      ∧ (self.clear ops).fallback_kmer_sizes_ = self.fallback_kmer_sizes_
      ∧ (self.clear ops).min_base_quality_ = self.min_base_quality_
      ∧ (self.clear ops).min_supporting_reads_ = self.min_supporting_reads_
      ∧ (self.clear ops).max_variant_size_ = self.max_variant_size_
      ∧ (self.clear ops).reference_ = self.reference_ :=
  ⟨rfl, rfl, rfl, rfl, rfl, rfl, rfl, rfl, rfl⟩


/-! ## The positions given by `split_mnv` -/

/-- C30: for the MNV at `begin_pos` 10 with ref `ACG` and alt `TGT`, which differ at every index,
`split_mnv` returns the variant of index 1 at position 12, the position of index 2, and not at
position `10 + 1`. -/
theorem split_mnv_middle_position :
    is_mnv ⟨10, ['A', 'C', 'G'], ['T', 'G', 'T']⟩ = true
      ∧ split_mnv ⟨10, ['A', 'C', 'G'], ['T', 'G', 'T']⟩
        = some [⟨10, ['A'], ['T']⟩, ⟨12, ['C'], ['G']⟩, ⟨12, ['G'], ['T']⟩]
      ∧ split_mnv ⟨10, ['A', 'C', 'G'], ['T', 'G', 'T']⟩
        ≠ some [⟨10, ['A'], ['T']⟩, ⟨11, ['C'], ['G']⟩, ⟨12, ['G'], ['T']⟩] := by
  refine ⟨by decide, by decide, by decide⟩

/-! ## What `trim_reference` removes -/

theorem mismatch_take (xs : SequenceType) :
    ∀ ys : SequenceType, xs.take (mismatch xs ys) = ys.take (mismatch xs ys) := by
  induction xs with
  | nil => intro ys; simp [mismatch]
  | cons a as ih =>
    intro ys
    cases ys with
    | nil => simp [mismatch]
    | cons b bs =>
      by_cases hab : a = b
      · simp only [mismatch, hab, if_true, List.take_succ_cons, ih bs]
      · simp [mismatch, hab]

theorem mismatch_le (xs : SequenceType) :
    ∀ ys : SequenceType, mismatch xs ys ≤ xs.length ∧ mismatch xs ys ≤ ys.length := by
  induction xs with
  | nil => intro ys; simp [mismatch]
  | cons a as ih =>
    intro ys
    cases ys with
    | nil => simp [mismatch]
    | cons b bs =>
      by_cases hab : a = b
      · have := ih bs
        simp only [mismatch, hab, if_true, List.length_cons]
        omega
      · simp [mismatch, hab]

theorem mismatch_longest (xs : SequenceType) :
    ∀ ys q : SequenceType, q <+: xs → q <+: ys → q.length ≤ mismatch xs ys := by
  induction xs with
  | nil =>
    intro ys q hx _
    have : q = [] := List.prefix_nil.mp hx
    simp [this]
  | cons a as ih =>
    intro ys q hx hy
    cases q with
    | nil => simp
    | cons c q' =>
      cases ys with
      | nil => simp at hy
      | cons b bs =>
        obtain ⟨hca, hx'⟩ := List.cons_prefix_cons.mp hx
        obtain ⟨hcb, hy'⟩ := List.cons_prefix_cons.mp hy
        have hab : a = b := hca.symm.trans hcb
        have := ih bs q' hx' hy'
        simp only [mismatch, hab, if_true, List.length_cons]
        omega

theorem trim_reference_decompose (v : Assembler.Variant) :
    ∃ p s : SequenceType,
      v.ref = p ++ (trim_reference v).ref ++ s
        ∧ v.alt = p ++ (trim_reference v).alt ++ s
        ∧ (trim_reference v).begin_pos = v.begin_pos + p.length
        ∧ (∀ q : SequenceType, q <+: v.ref → q <+: v.alt → q.length ≤ p.length)
        ∧ (∀ t : SequenceType, t <:+ (trim_reference v).ref ++ s →
            t <:+ (trim_reference v).alt ++ s → t.length ≤ s.length) := by
  have hle := mismatch_le v.ref v.alt
  have htake := mismatch_take v.ref v.alt
  have hle2 := mismatch_le (v.ref.drop (mismatch v.ref v.alt)).reverse
    (v.alt.drop (mismatch v.ref v.alt)).reverse
  have htake2 := mismatch_take (v.ref.drop (mismatch v.ref v.alt)).reverse
    (v.alt.drop (mismatch v.ref v.alt)).reverse
  have hlong2 := mismatch_longest (v.ref.drop (mismatch v.ref v.alt)).reverse
    (v.alt.drop (mismatch v.ref v.alt)).reverse
  have hr : v.ref = v.ref.take (mismatch v.ref v.alt) ++ v.ref.drop (mismatch v.ref v.alt) :=
    (List.take_append_drop _ _).symm
  have ha : v.alt = v.ref.take (mismatch v.ref v.alt) ++ v.alt.drop (mismatch v.ref v.alt) := by
    rw [htake]
    exact (List.take_append_drop _ _).symm
  generalize hrd : v.ref.drop (mismatch v.ref v.alt) = r at hle2 htake2 hlong2 hr ha
  generalize had : v.alt.drop (mismatch v.ref v.alt) = a at hle2 htake2 hlong2 hr ha
  generalize hm : mismatch r.reverse a.reverse = m at hle2 htake2 hlong2
  simp only [List.length_reverse] at hle2
  have hs : r.drop (r.length - m) = a.drop (a.length - m) := by
    have h := congrArg List.reverse htake2
    rw [List.take_reverse, List.take_reverse, List.reverse_reverse, List.reverse_reverse] at h
    exact h
  have hr2 : r = r.take (r.length - m) ++ r.drop (r.length - m) :=
    (List.take_append_drop _ _).symm
  have ha2 : a = a.take (a.length - m) ++ r.drop (r.length - m) := by
    rw [hs]
    exact (List.take_append_drop _ _).symm
  refine ⟨v.ref.take (mismatch v.ref v.alt), r.drop (r.length - m), ?_, ?_, ?_, ?_, ?_⟩
  · simp only [trim_reference, hrd, had, hm, List.append_assoc]
    rw [← hr2]
    exact hr
  · simp only [trim_reference, hrd, had, hm, List.append_assoc]
    rw [← ha2]
    exact ha
  · simp only [trim_reference, List.length_take]
    rw [Nat.min_eq_left hle.1]
  · intro q hq1 hq2
    have := mismatch_longest v.ref v.alt q hq1 hq2
    rw [List.length_take, Nat.min_eq_left hle.1]
    exact this
  · intro t ht1 ht2
    simp only [trim_reference, hrd, had, hm] at ht1 ht2
    rw [← hr2] at ht1
    rw [← ha2] at ht2
    have := hlong2 t.reverse (List.reverse_prefix.mpr ht1) (List.reverse_prefix.mpr ht2)
    rw [List.length_reverse] at this
    rw [List.length_drop]
    omega

/-- C31: for every assembler variant `v` there are `p` and `s` with `v.ref = p ++ new ref ++ s`,
`v.alt = p ++ new alt ++ s` and new `begin_pos = v.begin_pos + length p`, where new ref and new
alt are those of `trim_reference v`; `p` is a longest common beginning of `v.ref` and `v.alt`, and
`s` is a longest common end of what is left of the two once `p` is removed. -/
theorem trim_reference_longest_common_ends (v : Assembler.Variant) :
    ∃ p s : SequenceType,
      v.ref = p ++ (trim_reference v).ref ++ s
        ∧ v.alt = p ++ (trim_reference v).alt ++ s
        ∧ (trim_reference v).begin_pos = v.begin_pos + p.length
        ∧ (∀ q : SequenceType, q <+: v.ref → q <+: v.alt → q.length ≤ p.length)
        ∧ (∀ t : SequenceType, t <:+ (trim_reference v).ref ++ s →
            t <:+ (trim_reference v).alt ++ s → t.length ≤ s.length) :=
  trim_reference_decompose v

/-- C31, at the variant at offset 3 with ref `ACGTT` and alt `ACCTT`: `trim_reference` gives offset
5, ref `G` and alt `C`, with `p = AC` and `s = TT`. -/
theorem trim_reference_longest_common_ends_witness :
    trim_reference ⟨3, ['A', 'C', 'G', 'T', 'T'], ['A', 'C', 'C', 'T', 'T']⟩ = ⟨5, ['G'], ['C']⟩
      ∧ ∃ p s : SequenceType,
        ['A', 'C', 'G', 'T', 'T'] = p ++ ['G'] ++ s ∧ ['A', 'C', 'C', 'T', 'T'] = p ++ ['C'] ++ s
          ∧ 5 = 3 + p.length := by
  have hval : trim_reference ⟨3, ['A', 'C', 'G', 'T', 'T'], ['A', 'C', 'C', 'T', 'T']⟩
      = ⟨5, ['G'], ['C']⟩ := by decide
  obtain ⟨p, s, h1, h2, h3, _, _⟩ := trim_reference_longest_common_ends
    ⟨3, ['A', 'C', 'G', 'T', 'T'], ['A', 'C', 'C', 'T', 'T']⟩
  rw [hval] at h1 h2 h3
  exact ⟨hval, p, s, h1, h2, h3⟩

/-- C34: for every assembler variant whose ref and alt differ, the ref and the alt of
`trim_reference v` are not both empty. -/
theorem trim_reference_keeps_difference (v : Assembler.Variant) (h : v.ref ≠ v.alt) :
    ¬ ((trim_reference v).ref = [] ∧ (trim_reference v).alt = []) := by
  obtain ⟨p, s, h1, h2, _⟩ := trim_reference_decompose v
  rintro ⟨hr, ha⟩
  rw [hr] at h1
  rw [ha] at h2
  exact h (h1.trans h2.symm)

/-- C34, at an insertion (ref `C`, alt `CAA`), which keeps the alt `AA`, and at a deletion (ref
`CA`, alt `C`), which keeps the ref `A`. -/
theorem trim_reference_keeps_difference_witness :
    trim_reference ⟨4, ['C'], ['C', 'A', 'A']⟩ = ⟨5, [], ['A', 'A']⟩
      ∧ trim_reference ⟨4, ['C', 'A'], ['C']⟩ = ⟨5, ['A'], []⟩
      ∧ ¬ ((trim_reference ⟨4, ['C'], ['C', 'A', 'A']⟩).ref = []
        ∧ (trim_reference ⟨4, ['C'], ['C', 'A', 'A']⟩).alt = []) :=
  ⟨by decide, by decide,
    trim_reference_keeps_difference ⟨4, ['C'], ['C', 'A', 'A']⟩ (by decide)⟩


/-! ## `try_assemble_region` and `add_to_mapped_variants` -/

/-- C32: when `assembler.prune(min_supporting_reads)` returns false, `try_assemble_region` returns
false and `result` is as it was; when it returns true, `try_assemble_region` returns true. In both
cases it returns. -/
theorem try_assemble_region_returns {A : Type} (ops : AssemblerOps A)
    (min_supporting_reads : Nat) (assembler : A) (reference_sequence : SequenceType)
    (reference_region : GenomicRegion) (result : List Variant) :
    ((ops.prune (ops.remove_trivial_nonreference_cycles assembler) min_supporting_reads).2 = false
        → ∃ after, try_assemble_region ops min_supporting_reads assembler reference_sequence
            reference_region result = some (after, false, result))
      ∧ ((ops.prune (ops.remove_trivial_nonreference_cycles assembler)
          min_supporting_reads).2 = true
        → ∃ after out, try_assemble_region ops min_supporting_reads assembler reference_sequence
            reference_region result = some (after, true, out)) := by
  constructor
  · intro h
    refine ⟨(ops.prune (ops.remove_trivial_nonreference_cycles assembler)
      min_supporting_reads).1, ?_⟩
    simp only [try_assemble_region, h, Bool.not_false, if_true]
  · intro h
    obtain ⟨vs, hvs, _⟩ := split_mnvs_some (trim_reference_all (ops.extract_variants
      (ops.prune (ops.remove_trivial_nonreference_cycles assembler) min_supporting_reads).1).2)
    refine ⟨ops.clear (ops.extract_variants (ops.prune
      (ops.remove_trivial_nonreference_cycles assembler) min_supporting_reads).1).1,
      add_to_mapped_variants result vs reference_region, ?_⟩
    simp only [try_assemble_region, h, Bool.not_true, Bool.false_eq_true, if_false, hvs,
      Option.map_some']

/-- C32, over the assembler of the examples whose `prune` fails below the k-mer size 5: at size 4
false is returned and the vector of one variant is unchanged, at size 5 true is returned. -/
theorem try_assemble_region_returns_witness :
    (pruningOps twoSnvs 5).prune 4 3 = (4, false) ∧ (pruningOps twoSnvs 5).prune 5 3 = (5, true)
      ∧ (∃ after, try_assemble_region (pruningOps twoSnvs 5) 3 4 [] exampleRegion [variantCT]
        = some (after, false, [variantCT]))
      ∧ ∃ after out, try_assemble_region (pruningOps twoSnvs 5) 3 5 [] exampleRegion [variantCT]
        = some (after, true, out) :=
  ⟨by decide, by decide,
    (try_assemble_region_returns (pruningOps twoSnvs 5) 3 4 [] exampleRegion [variantCT]).1
      (by decide),
    (try_assemble_region_returns (pruningOps twoSnvs 5) 3 5 [] exampleRegion [variantCT]).2
      (by decide)⟩

theorem variant_eq_iff (a b : Variant) : Variant.eq a b = true ↔ a = b := by
  obtain ⟨ra, ga, aa⟩ := a
  obtain ⟨rb, gb, ab⟩ := b
  simp only [Variant.eq, Variant.get_region, Bool.and_eq_true, decide_eq_true_eq,
    Variant.mk.injEq]
  tauto

theorem mem_add_to_mapped_variants (result : List Variant) (variants : List Assembler.Variant)
    (region : GenomicRegion) (w : Variant) :
    w ∈ add_to_mapped_variants result variants region
      ↔ w ∈ result ∨ ∃ v ∈ variants,
          w = Variant.make region.contig_name (region.begin_ + v.begin_pos) v.ref v.alt := by
  unfold add_to_mapped_variants
  rw [mem_std_unique_iff _ variant_eq_iff, List.mem_append, mem_std_sort, List.mem_map]
  constructor
  · rintro (h | ⟨v, hv, rfl⟩)
    · exact Or.inl h
    · exact Or.inr ⟨v, hv, rfl⟩
  · rintro (h | ⟨v, hv, rfl⟩)
    · exact Or.inl h
    · exact Or.inr ⟨v, hv, rfl⟩

/-- C33: for every assembler variant `v` given to `add_to_mapped_variants` with the region `R`,
`result` holds afterwards a `Variant` with the contig of `R`, region begin `R.begin +
v.begin_pos`, region end that begin plus the length of `v.ref`, ref sequence `v.ref` and alt
sequence `v.alt`; and every `Variant` of `result` afterwards was in `result` before or is such a
`Variant` for some `v`. -/
theorem add_to_mapped_variants_maps (result : List Variant) (variants : List Assembler.Variant)
    (region : GenomicRegion) :
    (∀ v ∈ variants, ∃ w ∈ add_to_mapped_variants result variants region,
        w.get_region.contig_name = region.contig_name
          ∧ w.get_region.begin_ = region.begin_ + v.begin_pos
          ∧ w.get_region.end_ = region.begin_ + v.begin_pos + v.ref.length
          ∧ w.reference_allele_sequence_ = v.ref
          ∧ w.alternative_allele_sequence_ = v.alt)
      ∧ ∀ w ∈ add_to_mapped_variants result variants region,
        w ∈ result ∨ ∃ v ∈ variants,
          w.get_region.contig_name = region.contig_name
            ∧ w.get_region.begin_ = region.begin_ + v.begin_pos
            ∧ w.get_region.end_ = region.begin_ + v.begin_pos + v.ref.length
            ∧ w.reference_allele_sequence_ = v.ref
            ∧ w.alternative_allele_sequence_ = v.alt := by
  constructor
  · intro v hv
    exact ⟨_, (mem_add_to_mapped_variants result variants region _).mpr (Or.inr ⟨v, hv, rfl⟩),
      rfl, rfl, rfl, rfl, rfl⟩
  · intro w hw
    rcases (mem_add_to_mapped_variants result variants region w).mp hw with h | ⟨v, hv, rfl⟩
    · exact Or.inl h
    · exact Or.inr ⟨v, hv, rfl, rfl, rfl, rfl, rfl⟩

/-- C33, at the variant at offset 4 with ref `A` and alt `G` and the region `1:100-110`: the
`Variant` is `1:104-105 A>G`. -/
theorem add_to_mapped_variants_maps_witness :
    add_to_mapped_variants [] [⟨4, ['A'], ['G']⟩] exampleRegion
        = [Variant.make "1" 104 ['A'] ['G']]
      ∧ ∃ w ∈ add_to_mapped_variants [] [⟨4, ['A'], ['G']⟩] exampleRegion,
        w.get_region = { contig_name := "1", begin_ := 104, end_ := 105 } := by
  refine ⟨by decide, ?_⟩
  obtain ⟨w, hw, h1, h2, h3, _, _⟩ := (add_to_mapped_variants_maps [] [⟨4, ['A'], ['G']⟩]
    exampleRegion).1 ⟨4, ['A'], ['G']⟩ (List.mem_singleton.mpr rfl)
  refine ⟨w, hw, ?_⟩
  cases hreg : w.get_region with
  | mk c b e =>
    rw [hreg] at h1 h2 h3
    simp only at h1 h2 h3
    subst h1 h2 h3
    rfl


/-! ## The order of `Variant` -/

theorem variant_lt_irrefl (a : Variant) : Variant.lt a a = false := by
  have h1 : ¬ a.reference_allele_sequence_ < a.reference_allele_sequence_ := lt_irrefl _
  have h2 : ¬ a.alternative_allele_sequence_ < a.alternative_allele_sequence_ := lt_irrefl _
  simp [Variant.lt, h1, h2]

theorem variant_lt_ne (a b : Variant) (h : Variant.lt a b = true) : a ≠ b := by
  rintro rfl
  rw [variant_lt_irrefl] at h
  exact absurd h (by simp)

/-- C35: the variants `1:112 C>T` and `1:112 G>A`, which have the same region, are each less than
the other by `operator<`; both are among the variants that `add_to_mapped_variants` holds after
it was given the result of `split_mnv` of the MNV at offset 10 with ref `ACG` and alt `TTA` on a
region beginning at 100. -/
theorem variant_less_than_both_ways :
    variantCT.get_region = variantGA.get_region
      ∧ Variant.lt variantCT variantGA = true ∧ Variant.lt variantGA variantCT = true
      ∧ ∃ snvs, split_mnv exampleMnv = some snvs
        ∧ variantCT ∈ add_to_mapped_variants [] snvs exampleRegion
        ∧ variantGA ∈ add_to_mapped_variants [] snvs exampleRegion := by
  refine ⟨by decide, by decide, by decide,
    [⟨10, ['A'], ['T']⟩, ⟨12, ['C'], ['T']⟩, ⟨12, ['G'], ['A']⟩], by decide, ?_, ?_⟩
  · exact (mem_add_to_mapped_variants _ _ _ _).mpr
      (Or.inr ⟨⟨12, ['C'], ['T']⟩, by simp, by decide⟩)
  · exact (mem_add_to_mapped_variants _ _ _ _).mpr
      (Or.inr ⟨⟨12, ['G'], ['A']⟩, by simp, by decide⟩)

/-! ## The members of the output of `split_mnvs` -/

/-- C38: for every list of assembler variants `split_mnvs` returns; its output holds every
variant of the input that is no MNV, and every variant of the output is a variant of the input
that is no MNV or is among the variants `split_mnv` returns for some MNV of the input. -/
theorem split_mnvs_members (candidates : List Assembler.Variant) :
    ∃ out, split_mnvs candidates = some out
      ∧ (∀ x ∈ candidates, is_mnv x = false → x ∈ out)
      ∧ ∀ x ∈ out, (x ∈ candidates ∧ is_mnv x = false)
          ∨ ∃ m ∈ candidates, is_mnv m = true ∧ ∃ snvs, split_mnv m = some snvs ∧ x ∈ snvs := by
  obtain ⟨out, hout, _⟩ := split_mnvs_some candidates
  refine ⟨out, hout, ?_, ?_⟩
  · intro x hx hnot
    exact (split_mnvs_mem candidates out hout x).mpr (Or.inl ⟨hx, hnot⟩)
  · intro x hx
    exact (split_mnvs_mem candidates out hout x).mp hx

/-- C38, at the list of an insertion and the MNV of the examples: the insertion is in the
output. -/
theorem split_mnvs_members_witness :
    ∃ out, split_mnvs [⟨4, [], ['A', 'A']⟩, exampleMnv] = some out
      ∧ (⟨4, [], ['A', 'A']⟩ : Assembler.Variant) ∈ out := by
  obtain ⟨out, h, hnon, _⟩ := split_mnvs_members [⟨4, [], ['A', 'A']⟩, exampleMnv]
  exact ⟨out, h, hnon _ (List.mem_cons_self _ _) (by decide)⟩


/-! ## `ReferenceCall::replace_called_alleles` -/

theorem std_replace_copy_eq_map (old_value new_value : Char) (l : SequenceType) :
    std_replace_copy old_value new_value l
      = l.map (fun c => if c = old_value then new_value else c) := by
  induction l with
  | nil => rfl
  | cons c cs ih => simp only [std_replace_copy, ih, List.map_cons]

theorem take_std_find (value new_value : Char) (l : SequenceType) :
    (l.take (std_find value l)).map (fun c => if c = value then new_value else c)
      = l.take (std_find value l) := by
  induction l with
  | nil => rfl
  | cons c cs ih =>
    unfold std_find
    by_cases hc : c = value
    · simp [hc]
    · simp only [hc, if_false, List.take_succ_cons, List.map_cons, ih]

theorem std_find_absent (value new_value : Char) (l : SequenceType)
    (h : std_find value l = l.length) :
    l.map (fun c => if c = value then new_value else c) = l := by
  have := take_std_find value new_value l
  rw [h, List.take_length] at this
  exact this

/-- C39: after `replace_called_alleles(old_base, replacement_base)` the reference sequence is the
former one with `replacement_base` for every `old_base`: it has the same length, at every index
the base is `replacement_base` where the former sequence held `old_base` and the former base
elsewhere, and the region of the allele is unchanged. -/
theorem replace_called_alleles_replaces (self : ReferenceCall) (old_base replacement_base : Char) :
    (self.replace_called_alleles old_base replacement_base).reference_.sequence
        = self.reference_.sequence.map (fun c => if c = old_base then replacement_base else c)
      ∧ (self.replace_called_alleles old_base replacement_base).reference_.sequence.length
        = self.reference_.sequence.length
      ∧ (∀ i : Nat, (self.replace_called_alleles old_base replacement_base).reference_.sequence[i]?
          = self.reference_.sequence[i]?.map
              (fun c => if c = old_base then replacement_base else c))
      ∧ (self.replace_called_alleles old_base replacement_base).reference_.region
        = self.reference_.region := by
  have hseq : (self.replace_called_alleles old_base replacement_base).reference_.sequence
      = self.reference_.sequence.map
          (fun c => if c = old_base then replacement_base else c) := by
    unfold ReferenceCall.replace_called_alleles
    simp only []
    split
    · simp only [std_replace_copy_eq_map]
      rw [← take_std_find old_base replacement_base self.reference_.sequence, ← List.map_append,
        List.take_append_drop]
    · rename_i h
      have h' : std_find old_base self.reference_.sequence = self.reference_.sequence.length := by
        by_contra hc
        exact h hc
      exact (std_find_absent old_base replacement_base _ h').symm
  refine ⟨hseq, ?_, ?_, ?_⟩
  · rw [hseq, List.length_map]
  · intro i
    rw [hseq, List.getElem?_map]
  · unfold ReferenceCall.replace_called_alleles
    simp only []
    split <;> rfl

/-- C39, at the sequence `ANCN` with `N` replaced by `A`: the sequence is `AACA`. -/
theorem replace_called_alleles_replaces_witness :
    (ReferenceCall.replace_called_alleles
        { reference_ := { region := exampleRegion, sequence := ['A', 'N', 'C', 'N'] } }
        'N' 'A').reference_.sequence = ['A', 'A', 'C', 'A'] :=
  (replace_called_alleles_replaces
    { reference_ := { region := exampleRegion, sequence := ['A', 'N', 'C', 'N'] } }
    'N' 'A').1.trans (by decide)

end Octopus
